import Mathlib

/-! ILP colouring (`limbo/algorithms/coloring/ILPColoring.h`).

A shallow embedding of `ILPColoring<GraphType>::coloring()`.

The function builds a mixed integer program through the Gurobi C++ interface
(`addVar`, `setObjective`, `addConstr`), asks the solver for an optimal point and
decodes the point into vertex colours.  The embedding keeps the three stages apart:

* `buildModel` is the model that exists when `optimize()` is called;
* the solver is a parameter (`optimize`), answering either `none`
  (`GRB_INFEASIBLE`) or a point;
* `collect` is the loop that decodes the point and writes `m_vColor`.

Solution values are exact rationals.  Counters that are `uint32_t` in the source
wrap modulo `2 ^ 32` (`u32`); the negation of an `int32_t` edge weight wraps to the range
of `int32_t` (`neg32`), and the conversion of a solution value to `int8_t` discards the
fraction and wraps to the range of `int8_t` (`toInt8`).
-/

namespace Limbo

/-! ## Machine arithmetic -/

/-- Reduction of a natural number to the range of `uint32_t`. -/
def u32 (n : Nat) : Nat := n % 2 ^ 32

/-- Reduction of an integer to the range of `int8_t`, from -128 to 127. -/
def wrap8 (z : Int) : Int := (z + 128) % 256 - 128

/-- Conversion of a `double` to `int8_t`: the fractional part is discarded
(truncation towards zero) and the integer is reduced to the range of `int8_t`. -/
def toInt8 (q : ℚ) : Int := wrap8 (if 0 ≤ q then ⌊q⌋ else ⌈q⌉)

/-- Negation `-w` of an `int32_t`: the result is reduced to the range of `int32_t`,
so the negation of the least value, -2147483648, is that value again. -/
def neg32 (w : Int) : Int := (-w + 2147483648) % 4294967296 - 2147483648

/-! ## The solver interface -/

/-- A variable handle, identified by the name it is created with:
`v i` is `"v" << i` (an element of `vVertexBit`), `e i` is `"e" << i`
(an element of `vEdgeBit`). -/
inductive VarName where
  | v (i : Nat)
  | e (i : Nat)
  deriving DecidableEq, Repr

/-- Variable types used by `coloring()`. -/
inductive VType where
  | GRB_INTEGER
  | GRB_CONTINUOUS
  deriving DecidableEq, Repr

/-- A variable as declared by `addVar(lb, ub, obj, type, name)`. -/
structure GRBVar where
  lb : ℚ
  ub : ℚ
  obj : ℚ
  vtype : VType
  name : VarName
  deriving DecidableEq

/-- A linear expression: a constant and a list of `coefficient * variable` terms. -/
structure GRBLinExpr where
  constant : ℚ
  terms : List (ℚ × VarName)
  deriving DecidableEq

namespace GRBLinExpr

/-- The expression consisting of one variable. -/
def var (n : VarName) : GRBLinExpr := ⟨0, [(1, n)]⟩

/-- The constant expression. -/
def const (c : ℚ) : GRBLinExpr := ⟨c, []⟩

/-- Sum of two expressions. -/
def add (a b : GRBLinExpr) : GRBLinExpr := ⟨a.constant + b.constant, a.terms ++ b.terms⟩

/-- Multiplication by a constant. -/
def smul (c : ℚ) (a : GRBLinExpr) : GRBLinExpr :=
  ⟨c * a.constant, a.terms.map (fun t => (c * t.1, t.2))⟩

/-- Difference of two expressions. -/
def sub (a b : GRBLinExpr) : GRBLinExpr := add a (smul (-1) b)

instance : Add GRBLinExpr := ⟨add⟩
instance : Sub GRBLinExpr := ⟨sub⟩
instance (n : Nat) : OfNat GRBLinExpr n := ⟨const n⟩

/-- Value of an expression at a point. -/
def eval (x : VarName → ℚ) (a : GRBLinExpr) : ℚ :=
  a.constant + (a.terms.map (fun t => t.1 * x t.2)).sum

end GRBLinExpr

/-- Sense of a linear constraint. -/
inductive Sense where
  | ge
  | le
  deriving DecidableEq, Repr

/-- A constraint `lhs >= rhs` or `lhs <= rhs` with the number `n` of its name `"R" n`. -/
structure GRBConstr where
  lhs : GRBLinExpr
  sense : Sense
  rhs : GRBLinExpr
  name : Nat
  deriving DecidableEq

/-- A constraint holds at a point. -/
def GRBConstr.holds (c : GRBConstr) (x : VarName → ℚ) : Prop :=
  match c.sense with
  | Sense.ge => c.rhs.eval x ≤ c.lhs.eval x
  | Sense.le => c.lhs.eval x ≤ c.rhs.eval x

instance (c : GRBConstr) (x : VarName → ℚ) : Decidable (c.holds x) := by
  unfold GRBConstr.holds
  cases c.sense <;> exact inferInstance

/-- A point respects the bounds and the type of a declared variable. -/
def GRBVar.admits (d : GRBVar) (x : VarName → ℚ) : Prop :=
  d.lb ≤ x d.name ∧ x d.name ≤ d.ub ∧ (d.vtype = VType.GRB_INTEGER → (x d.name).den = 1)

instance (d : GRBVar) (x : VarName → ℚ) : Decidable (d.admits x) := by
  unfold GRBVar.admits
  exact inferInstance

/-- Sense of the objective of a model. -/
inductive ModelSense where
  | GRB_MINIMIZE
  | GRB_MAXIMIZE
  deriving DecidableEq, Repr

/-- A model: declared variables, objective with its sense, constraints. -/
structure GRBModel where
  vars : List GRBVar
  objective : GRBLinExpr
  constrs : List GRBConstr
  sense : ModelSense

namespace GRBModel

/-- The empty model of `GRBModel(env)`. -/
def empty : GRBModel := ⟨[], GRBLinExpr.const 0, [], ModelSense.GRB_MINIMIZE⟩

/-- Declares a variable, `addVar(lb, ub, obj, type, name)`: the variable joins the
model and its objective coefficient joins the objective. -/
def addVar (m : GRBModel) (lb ub obj : ℚ) (t : VType) (name : VarName) : GRBModel :=
  { m with
    vars := m.vars ++ [⟨lb, ub, obj, t, name⟩]
    objective := m.objective + GRBLinExpr.smul obj (GRBLinExpr.var name) }

/-- Replaces the whole objective and sets its sense, `setObjective(obj, sense)`. -/
def setObjective (m : GRBModel) (obj : GRBLinExpr) (sense : ModelSense) : GRBModel :=
  { m with objective := obj, sense := sense }

/-- Adds a named constraint, `addConstr(tempConstr, name)`. -/
def addConstr (m : GRBModel) (c : GRBConstr) : GRBModel :=
  { m with constrs := m.constrs ++ [c] }

/-- A point is feasible: every declared variable is within its bounds and of its
type, and every constraint holds. -/
def feasible (m : GRBModel) (x : VarName → ℚ) : Prop :=
  (∀ d ∈ m.vars, d.admits x) ∧ (∀ c ∈ m.constrs, c.holds x)

instance (m : GRBModel) (x : VarName → ℚ) : Decidable (m.feasible x) := by
  unfold feasible
  exact inferInstance

/-- Objective value of a point, `GRB_DoubleAttr_ObjVal`. -/
def objVal (m : GRBModel) (x : VarName → ℚ) : ℚ := m.objective.eval x

/-- A point is optimal for a model that is minimised: feasible and of least objective
among the feasible points. -/
def optimal (m : GRBModel) (x : VarName → ℚ) : Prop :=
  m.feasible x ∧ ∀ y, m.feasible y → m.objVal x ≤ m.objVal y

end GRBModel

/-! ## The graph and the colouring object -/

/-- An edge of the graph: source, target and the `edge_weight` property, the value of
`int32_t w` in `coloring()`.  Vertices are named by their position in the iteration
`boost::vertices`. -/
structure Edge where
  source : Nat
  target : Nat
  weight : Int
  deriving DecidableEq, Repr

/-- The graph as `coloring()` reads it: `boost::num_vertices`, the edges in the order
of `boost::edges`.  The end points of an edge are vertices of the graph, and the
counts fit the `uint32_t` counters of `coloring()`. -/
structure Graph where
  num_vertices : Nat
  edges : List Edge
  endpoints : ∀ ed ∈ edges, ed.source < num_vertices ∧ ed.target < num_vertices
  vertices_fit : num_vertices < 2 ^ 31
  edges_fit : 4 * edges.length + num_vertices < 2 ^ 32

/-- Modelled from the spec: the constant `base_type::THREE` of the colour-number type
declared in `limbo/algorithms/coloring/Coloring.h`, the colour count 3. -/
def THREE : Int := 3

/-- The members of the colouring object that `coloring()` reads and writes.
`m_vColor` is indexed by vertex; `m_color_num` is the colour count, as an integer;
`m_stitch_weight` is the stitch weight multiplier. -/
structure ILPColoring where
  m_graph : Graph
  m_vColor : Nat → Int
  m_color_num : Int
  m_stitch_weight : ℚ

namespace ILPColoring

/-- Index given to a vertex by the first loop (`hVertexIdx[*vi] = cnt`). -/
def hVertexIdx (s : Nat) : Nat := u32 s

/-- Pairs every element with the counter of the loop `for (...; ++ei, ++cnt)`,
the association stored in `hEdgeIdx`. -/
def indexFrom {α : Type} : Nat → List α → List (α × Nat)
  | _, [] => []
  | cnt, a :: as => (a, cnt) :: indexFrom (u32 (cnt + 1)) as

/-- The edges in iteration order, each with its index `hEdgeIdx[*ei]`. -/
def hEdgeIdx (c : ILPColoring) : List (Edge × Nat) := indexFrom 0 c.m_graph.edges

/-- Number `vertex_num`. -/
def vertex_num (c : ILPColoring) : Nat := u32 c.m_graph.num_vertices

/-- Number `edge_num`. -/
def edge_num (c : ILPColoring) : Nat := u32 c.m_graph.edges.length

/-- Number `vertex_variable_num = vertex_num << 1`. -/
def vertex_variable_num (c : ILPColoring) : Nat := u32 (c.vertex_num <<< 1)

/-- The test `m_vColor[vertex_idx] >= 0 && m_vColor[vertex_idx] < m_color_num`. -/
def precolored (c : ILPColoring) (vertex_idx : Nat) : Bool :=
  decide (0 ≤ c.m_vColor vertex_idx) && decide (c.m_vColor vertex_idx < c.m_color_num)

/-- The bit `color_bit` of variable `i` of a pre-coloured vertex:
`(color >> 1) & 1` for even `i`, `color & 1` for odd `i`. -/
def color_bit (color : Int) (i : Nat) : Int :=
  if i &&& 1 = 0 then Int.land (color >>> 1) 1 else Int.land color 1

/-- Body of the loop over vertex variables: declares variable `v i`. -/
def addVertexVar (c : ILPColoring) (opt_model : GRBModel) (i : Nat) : GRBModel :=
  let vertex_idx := i >>> 1
  if c.precolored vertex_idx then
    let b : ℚ := (color_bit (c.m_vColor vertex_idx) i : Int)
    opt_model.addVar b b b VType.GRB_INTEGER (VarName.v i)
  else
    opt_model.addVar 0 1 0 VType.GRB_INTEGER (VarName.v i)

/-- Body of the loop over edge variables: declares variable `e i`. -/
def addEdgeVar (opt_model : GRBModel) (i : Nat) : GRBModel :=
  opt_model.addVar 0 1 0 VType.GRB_CONTINUOUS (VarName.e i)

/-- Handle `vVertexBit[i]` as an expression. -/
def vVertexBit (i : Nat) : GRBLinExpr := GRBLinExpr.var (VarName.v i)

/-- Handle `vEdgeBit[i]` as an expression. -/
def vEdgeBit (i : Nat) : GRBLinExpr := GRBLinExpr.var (VarName.e i)

/-- Body of the objective loop: the term added to `obj` for one edge. -/
def addObjTerm (c : ILPColoring) (obj : GRBLinExpr) (ei : Edge × Nat) : GRBLinExpr :=
  let w := ei.1.weight
  if 0 < w then obj + GRBLinExpr.smul w (vEdgeBit ei.2)
  else if w < 0 then
    obj + GRBLinExpr.smul (c.m_stitch_weight * ((neg32 w : Int) : ℚ)) (vEdgeBit ei.2)
  else obj

/-- The objective `obj` after the loop over the edges. -/
def objective (c : ILPColoring) : GRBLinExpr :=
  c.hEdgeIdx.foldl c.addObjTerm (GRBLinExpr.const 0)

/-- The four constraints of a conflict edge, named from `constr_num` on. -/
def conflictConstrs (vertex_idx1 vertex_idx2 edge_idx constr_num : Nat) : List GRBConstr :=
  let n0 := constr_num
  let n1 := u32 (n0 + 1)
  let n2 := u32 (n1 + 1)
  let n3 := u32 (n2 + 1)
  [ ⟨vVertexBit vertex_idx1 + vVertexBit (u32 (vertex_idx1 + 1))
      + vVertexBit vertex_idx2 + vVertexBit (u32 (vertex_idx2 + 1))
      + vEdgeBit edge_idx, Sense.ge, 1, n0⟩,
    ⟨1 - vVertexBit vertex_idx1 + vVertexBit (u32 (vertex_idx1 + 1))
      + 1 - vVertexBit vertex_idx2 + vVertexBit (u32 (vertex_idx2 + 1))
      + vEdgeBit edge_idx, Sense.ge, 1, n1⟩,
    ⟨vVertexBit vertex_idx1 + 1 - vVertexBit (u32 (vertex_idx1 + 1))
      + vVertexBit vertex_idx2 + 1 - vVertexBit (u32 (vertex_idx2 + 1))
      + vEdgeBit edge_idx, Sense.ge, 1, n2⟩,
    ⟨1 - vVertexBit vertex_idx1 + 1 - vVertexBit (u32 (vertex_idx1 + 1))
      + 1 - vVertexBit vertex_idx2 + 1 - vVertexBit (u32 (vertex_idx2 + 1))
      + vEdgeBit edge_idx, Sense.ge, 1, n3⟩ ]

/-- The four constraints of a stitch edge, named from `constr_num` on. -/
def stitchConstrs (vertex_idx1 vertex_idx2 edge_idx constr_num : Nat) : List GRBConstr :=
  let n0 := constr_num
  let n1 := u32 (n0 + 1)
  let n2 := u32 (n1 + 1)
  let n3 := u32 (n2 + 1)
  [ ⟨vVertexBit vertex_idx1 - vVertexBit vertex_idx2 - vEdgeBit edge_idx, Sense.le, 0, n0⟩,
    ⟨vVertexBit vertex_idx2 - vVertexBit vertex_idx1 - vEdgeBit edge_idx, Sense.le, 0, n1⟩,
    ⟨vVertexBit (u32 (vertex_idx1 + 1)) - vVertexBit (u32 (vertex_idx2 + 1))
      - vEdgeBit edge_idx, Sense.le, 0, n2⟩,
    ⟨vVertexBit (u32 (vertex_idx2 + 1)) - vVertexBit (u32 (vertex_idx1 + 1))
      - vEdgeBit edge_idx, Sense.le, 0, n3⟩ ]

/-- Index of the first variable of vertex `s`: `hVertexIdx[s] << 1`, the value of
`vertex_idx1` for a source and of `vertex_idx2` for a target. -/
def vertex_idx (s : Nat) : Nat := u32 (hVertexIdx s <<< 1)

/-- The constraints emitted by one iteration of the loop over the edges. -/
def edgeConstrs (ei : Edge × Nat) (constr_num : Nat) : List GRBConstr :=
  let vertex_idx1 := vertex_idx ei.1.source
  let vertex_idx2 := vertex_idx ei.1.target
  let w := ei.1.weight
  let edge_idx := ei.2
  if 0 ≤ w then conflictConstrs vertex_idx1 vertex_idx2 edge_idx constr_num
  else stitchConstrs vertex_idx1 vertex_idx2 edge_idx constr_num

/-- Body of the loop over the edges: adds the four constraints of the edge and
advances `constr_num` by four increments. -/
def addEdgeConstrs (st : GRBModel × Nat) (ei : Edge × Nat) : GRBModel × Nat :=
  ((edgeConstrs ei st.2).foldl GRBModel.addConstr st.1,
    u32 (u32 (u32 (u32 (st.2 + 1) + 1) + 1) + 1))

/-- Body of the loop of the additional constraints for 3-colouring, at `k`. -/
def addThreeConstr (st : GRBModel × Nat) (k : Nat) : GRBModel × Nat :=
  (st.1.addConstr ⟨vVertexBit k + vVertexBit (u32 (k + 1)), Sense.le, 1, st.2⟩,
    u32 (st.2 + 1))

/-- The values taken by the counter of `for (k = 0; k != vertex_variable_num; k += 2)`. -/
def evenIdxs (c : ILPColoring) : List Nat :=
  (List.range (c.vertex_variable_num / 2)).map (fun j => 2 * j)

/-- The model at the call of `optimize()`, with the value of `constr_num`. -/
def buildModelNum (c : ILPColoring) : GRBModel × Nat :=
  let opt_model := GRBModel.empty
  let opt_model := (List.range c.vertex_variable_num).foldl c.addVertexVar opt_model
  let opt_model := (List.range c.edge_num).foldl addEdgeVar opt_model
  let opt_model := opt_model.setObjective c.objective ModelSense.GRB_MINIMIZE
  let st := c.hEdgeIdx.foldl addEdgeConstrs (opt_model, 0)
  if c.m_color_num = THREE then c.evenIdxs.foldl addThreeConstr st else st

/-- The model at the call of `optimize()`. -/
def buildModel (c : ILPColoring) : GRBModel := c.buildModelNum.1

/-- The colour decoded for the vertex whose first variable is `k`:
`int8_t color = (vVertexBit[k].X * 2) + vVertexBit[k+1].X`. -/
def decode (x : VarName → ℚ) (k : Nat) : Int :=
  toInt8 (x (VarName.v k) * 2 + x (VarName.v (u32 (k + 1))))

/-- Value of the first bit variable of vertex `s` at a point. -/
def bit0 (x : VarName → ℚ) (s : Nat) : ℚ := x (VarName.v (vertex_idx s))

/-- Value of the second bit variable of vertex `s` at a point. -/
def bit1 (x : VarName → ℚ) (s : Nat) : ℚ := x (VarName.v (u32 (vertex_idx s + 1)))

/-- A value is one of the bits 0 and 1. -/
def isBit (q : ℚ) : Prop := q = 0 ∨ q = 1

instance (q : ℚ) : Decidable (isBit q) := by
  unfold isBit
  exact inferInstance

/-- Failures of `coloring()`. -/
inductive Failure where
  | infeasibleExit
  | assertColorRange
  | assertPrecolored
  deriving DecidableEq, Repr

/-- Body of the loop that collects the solution, at `k`. -/
def collectStep (c : ILPColoring) (x : VarName → ℚ) (vColor : Nat → Int) (k : Nat) :
    Except Failure (Nat → Int) :=
  let color := decode x k
  let vertex_idx := k >>> 1
  if ¬ (0 ≤ color ∧ color < c.m_color_num) then Except.error Failure.assertColorRange
  else if 0 ≤ vColor vertex_idx ∧ vColor vertex_idx < c.m_color_num then
    if vColor vertex_idx = color then Except.ok vColor
    else Except.error Failure.assertPrecolored
  else Except.ok (Function.update vColor vertex_idx color)

/-- The loop that collects the solution: `m_vColor` after it, or the assertion
that fails. -/
def collect (c : ILPColoring) (x : VarName → ℚ) : Except Failure (Nat → Int) :=
  c.evenIdxs.foldlM (c.collectStep x) c.m_vColor

/-- The function `coloring()`.  The solver answers `none` for `GRB_INFEASIBLE` and a
point otherwise.  The result is the object with the new `m_vColor` and the objective
value returned. -/
def coloring (c : ILPColoring) (optimize : GRBModel → Option (VarName → ℚ)) :
    Except Failure (ILPColoring × ℚ) :=
  let opt_model := c.buildModel
  match optimize opt_model with
  | none => Except.error Failure.infeasibleExit
  | some x =>
    match c.collect x with
    | Except.error f => Except.error f
    | Except.ok vColor => Except.ok ({ c with m_vColor := vColor }, opt_model.objVal x)

/-- What `coloring()` relies on from the solver for a model `m`: it reports
infeasibility exactly when `m` has no feasible point, and otherwise answers an
optimal point of `m`. -/
def SolverContract (optimize : GRBModel → Option (VarName → ℚ)) (m : GRBModel) : Prop :=
  (optimize m = none ↔ ¬ ∃ x, m.feasible x) ∧ (∀ x, optimize m = some x → m.optimal x)

end ILPColoring

namespace ILPColoring

/-- The declaration made for vertex variable `i` by the loop over vertex variables. -/
def vertexVar (c : ILPColoring) (i : Nat) : GRBVar :=
  if c.precolored (i >>> 1) then
    ⟨(color_bit (c.m_vColor (i >>> 1)) i : Int), (color_bit (c.m_vColor (i >>> 1)) i : Int),
      (color_bit (c.m_vColor (i >>> 1)) i : Int), VType.GRB_INTEGER, VarName.v i⟩
  else ⟨0, 1, 0, VType.GRB_INTEGER, VarName.v i⟩

/-- The declaration made for edge variable `i` by the loop over edge variables. -/
def edgeVar (i : Nat) : GRBVar := ⟨0, 1, 0, VType.GRB_CONTINUOUS, VarName.e i⟩

/-- The four constraints of an edge hold at a point (their names play no part). -/
def edgeHolds (ei : Edge × Nat) (x : VarName → ℚ) : Prop :=
  ∀ c ∈ edgeConstrs ei 0, c.holds x

/-- The coefficient of the slack of an edge in the objective: `w` for `w > 0`,
`m_stitch_weight * (-w)` with the negation of `int32_t` for `w < 0`, none for `w = 0`. -/
def objCoeff (c : ILPColoring) (ed : Edge) : ℚ :=
  if 0 < ed.weight then (ed.weight : ℚ)
  else if ed.weight < 0 then c.m_stitch_weight * ((neg32 ed.weight : Int) : ℚ)
  else 0

/-- The colour decoded for vertex `s` at a point. -/
def decoded (x : VarName → ℚ) (s : Nat) : Int := decode x (vertex_idx s)

/-- The two end points of an edge decode to the same colour at a point. -/
def sameColor (x : VarName → ℚ) (ed : Edge) : Prop :=
  decoded x ed.source = decoded x ed.target

instance (x : VarName → ℚ) (ed : Edge) : Decidable (sameColor x ed) := by
  unfold sameColor
  exact inferInstance

/-- The penalty condition of an edge at a point: equal colours on a conflict edge,
different colours on a stitch edge. -/
def charged (x : VarName → ℚ) (ed : Edge) : Prop :=
  if 0 ≤ ed.weight then sameColor x ed else ¬ sameColor x ed

instance (x : VarName → ℚ) (ed : Edge) : Decidable (charged x ed) := by
  unfold charged
  exact inferInstance

/-- The weighted sum computed from a colour assignment: the weight of every conflict
edge whose end points have the same colour, plus multiplier times `|weight|` of every
stitch edge whose end points have different colours. -/
def costOfColors (c : ILPColoring) (col : Nat → Int) : ℚ :=
  (c.hEdgeIdx.map (fun ei =>
    if 0 ≤ ei.1.weight then
      (if col ei.1.source = col ei.1.target then (ei.1.weight : ℚ) else 0)
    else
      (if col ei.1.source = col ei.1.target then 0
        else c.m_stitch_weight * |(ei.1.weight : ℚ)|))).sum

/-- The weighted sum computed from the colours decoded at a point. -/
def colorCost (c : ILPColoring) (x : VarName → ℚ) : ℚ := c.costOfColors (decoded x)

/-- The slack vectors that `coloring()` allows around the vertex bits of `x`: points
with the vertex bits of `x`, every slack in `[0, 1]`, and the constraints of every
edge satisfied. -/
def slackCompletion (c : ILPColoring) (x y : VarName → ℚ) : Prop :=
  (∀ i, y (VarName.v i) = x (VarName.v i)) ∧
    (∀ j < c.m_graph.edges.length, 0 ≤ y (VarName.e j) ∧ y (VarName.e j) ≤ 1) ∧
    (∀ ei ∈ c.hEdgeIdx, edgeHolds ei y)

/-- The edge whose slack variable is `e j`, if there is one. -/
def edgeAt (c : ILPColoring) (j : Nat) : Option Edge :=
  (c.hEdgeIdx.find? (fun p => p.2 == j)).map Prod.fst

/-- The point `x` with the slack of every edge replaced by `f edge index`. -/
def withSlack (c : ILPColoring) (x : VarName → ℚ) (f : Edge → Nat → ℚ) : VarName → ℚ
  | VarName.v i => x (VarName.v i)
  | VarName.e j =>
    match c.edgeAt j with
    | some ed => f ed j
    | none => 0

/-- The graph of two vertices joined by one edge of weight `w`. -/
def pairGraph (w : Int) : Graph :=
  ⟨2, [⟨0, 1, w⟩], by simp, by norm_num, by norm_num⟩

/-- The colouring object of `pairGraph w` without pre-coloured vertices, with colour
count `k` and stitch weight multiplier `sw`. -/
def pairColoring (w : Int) (k : Int) (sw : ℚ) : ILPColoring :=
  ⟨pairGraph w, fun _ => -1, k, sw⟩

/-- The colouring object of `pairGraph w` in which vertex 0 is pre-coloured with colour
`col` and vertex 1 is not coloured. -/
def presetColoring (w : Int) (col : Int) (k : Int) (sw : ℚ) : ILPColoring :=
  ⟨pairGraph w, fun s => if s = 0 then col else -1, k, sw⟩

/-- The point at which vertex 0 has bits `(1, 0)`, every other vertex bits `(0, 0)`,
and every slack is `0`. -/
def highPoint : VarName → ℚ
  | VarName.v 0 => 1
  | _ => 0

/-- The point at which vertex 0 has bits `(0, 1)`, every other vertex bits `(0, 0)`,
and every slack is `1 / 2`. -/
def halfPoint : VarName → ℚ
  | VarName.v 1 => 1
  | VarName.v _ => 0
  | VarName.e _ => 1 / 2

/-- The point at which every vertex has colour 0 and every slack is 0. -/
def zeroPoint : VarName → ℚ := fun _ => 0

/-- The model of `coloring()` with every slack restricted to `{0, 1}`: the same
variables, objective and constraints, with the slack variables declared as integer
variables instead of continuous ones. -/
def binarySlackModel (c : ILPColoring) : GRBModel :=
  { c.buildModel with
    vars := c.buildModel.vars.map (fun d =>
      match d.name with
      | VarName.e _ => { d with vtype := VType.GRB_INTEGER }
      | VarName.v _ => d) }

/-- The slacks of `x` moved to an end of `[0, 1]`: to 1 on an edge of negative
coefficient or of slack 1, to 0 on every other edge. -/
def roundSlack (c : ILPColoring) (x : VarName → ℚ) : VarName → ℚ :=
  c.withSlack x (fun ed j =>
    if c.objCoeff ed < 0 then 1 else if x (VarName.e j) < 1 then 0 else 1)

/-- The triangle: three vertices joined pairwise by conflict edges of weight 1. -/
def triangleGraph : Graph :=
  ⟨3, [⟨0, 1, 1⟩, ⟨1, 2, 1⟩, ⟨0, 2, 1⟩], by simp, by norm_num, by norm_num⟩

/-- The colouring object of the triangle without pre-coloured vertices, with colour
count `k` and stitch weight multiplier `sw`. -/
def triangleColoring (k : Int) (sw : ℚ) : ILPColoring :=
  ⟨triangleGraph, fun _ => -1, k, sw⟩

/-- The point that gives the vertices 0, 1, 2 the colours 0, 1, 2 (bits `(0, 0)`,
`(0, 1)`, `(1, 0)`) and every slack the value 0. -/
def triPoint : VarName → ℚ
  | VarName.v 3 => 1
  | VarName.v 4 => 1
  | _ => 0

/-- The 4-cycle: four vertices joined in a cycle by conflict edges of weight 1. -/
def cycleGraph : Graph :=
  ⟨4, [⟨0, 1, 1⟩, ⟨1, 2, 1⟩, ⟨2, 3, 1⟩, ⟨3, 0, 1⟩], by simp, by norm_num, by norm_num⟩

/-- The colouring object of the 4-cycle without pre-coloured vertices, with colour
count `k` and stitch weight multiplier `sw`. -/
def cycleColoring (k : Int) (sw : ℚ) : ILPColoring :=
  ⟨cycleGraph, fun _ => -1, k, sw⟩

/-- The point that gives the vertices 0, 1, 2, 3 of the 4-cycle the colours 0, 1, 0, 1
(the second bit of the vertices 1 and 3 is 1) and every slack the value 0. -/
def cyclePoint : VarName → ℚ
  | VarName.v 3 => 1
  | VarName.v 7 => 1
  | _ => 0

/-- The coefficient of a variable in a linear expression: the sum of the coefficients
of the terms of the variable. -/
def coeffOf (a : GRBLinExpr) (n : VarName) : ℚ :=
  ((a.terms.filter (fun t => t.2 = n)).map Prod.fst).sum

/-- The constraint `b0 + b1 ≤ 1` of vertex `s`, with the number `name` of its name. -/
def threeConstr (s name : Nat) : GRBConstr :=
  ⟨vVertexBit (2 * s) + vVertexBit (2 * s + 1), Sense.le, 1, name⟩

/-- The constraints added for 3-colouring when the edges have taken the names below
`first`: one per vertex, in vertex order, for colour count `THREE`; none otherwise. -/
def threeConstrs (c : ILPColoring) (first : Nat) : List GRBConstr :=
  if c.m_color_num = THREE then
    (List.range c.m_graph.num_vertices).map (fun s => threeConstr s (first + s))
  else []

/-- A solution in which the solver reports `0.9999999` for the first bit of vertex 0, a
value it accepts as the integer 1 within its integrality tolerance, and 0 for every other
variable. -/
def nearPoint : VarName → ℚ
  | VarName.v 0 => 9999999 / 10000000
  | _ => 0

/-- The point at which every vertex has bits `(0, 0)` and every slack is `1`. -/
def onePoint : VarName → ℚ
  | VarName.v _ => 0
  | VarName.e _ => 1

/-- The point with every pre-coloured bit at its fixed value, every other vertex bit
at 0 and every slack at 1. -/
def basePoint (c : ILPColoring) : VarName → ℚ
  | VarName.v i =>
    if c.precolored (i >>> 1) then (color_bit (c.m_vColor (i >>> 1)) i : Int) else 0
  | VarName.e _ => 1

/-- The edge with source and target exchanged and the same weight. -/
def swapEdge (ed : Edge) : Edge := ⟨ed.target, ed.source, ed.weight⟩

/-- The object `c2` is the object `c1` with source and target exchanged on some of the
edges: the same vertices, stored colours, colour count and multiplier, and edge by edge
the same edge or the exchanged one. -/
def reoriented (c1 c2 : ILPColoring) : Prop :=
  c2.m_graph.num_vertices = c1.m_graph.num_vertices ∧
    c2.m_vColor = c1.m_vColor ∧
    c2.m_color_num = c1.m_color_num ∧
    c2.m_stitch_weight = c1.m_stitch_weight ∧
    List.Forall₂ (fun a b => b = a ∨ b = swapEdge a) c1.m_graph.edges c2.m_graph.edges

/-- The graph of two vertices joined by one edge of weight `w` from vertex 1 to
vertex 0. -/
def pairGraphSwapped (w : Int) : Graph :=
  ⟨2, [⟨1, 0, w⟩], by simp, by norm_num, by norm_num⟩

/-- The colouring object of `pairGraphSwapped w` without pre-coloured vertices. -/
def pairColoringSwapped (w : Int) (k : Int) (sw : ℚ) : ILPColoring :=
  ⟨pairGraphSwapped w, fun _ => -1, k, sw⟩

/-- No edge has the least weight of `int32_t`, -2147483648, the one weight whose
negation `-w` in `coloring()` overflows. -/
def negatable (c : ILPColoring) : Prop :=
  ∀ ed ∈ c.m_graph.edges, -2147483648 < ed.weight

/-- A point used to exercise the statements: vertex 0 has bits `(0, 1)`, every other
vertex bits `(0, 0)`, and every slack is `0`. -/
def samplePoint : VarName → ℚ
  | VarName.v 1 => 1
  | _ => 0

end ILPColoring

/-! ## Evaluation of expressions -/

namespace GRBLinExpr

@[simp] theorem eval_add (x : VarName → ℚ) (a b : GRBLinExpr) :
    (a + b).eval x = a.eval x + b.eval x := by
  show (add a b).eval x = _
  simp only [eval, add, List.map_append, List.sum_append]
  ring

@[simp] theorem eval_smul (x : VarName → ℚ) (c : ℚ) (a : GRBLinExpr) :
    (smul c a).eval x = c * a.eval x := by
  simp only [eval, smul, List.map_map, mul_add]
  congr 1
  induction a.terms with
  | nil => simp
  | cons t ts ih => simp [mul_add, mul_assoc, ih]

@[simp] theorem eval_sub (x : VarName → ℚ) (a b : GRBLinExpr) :
    (a - b).eval x = a.eval x - b.eval x := by
  show (add a (smul (-1) b)).eval x = _
  have h := eval_add x a (smul (-1) b)
  have h2 : (add a (smul (-1) b)).eval x = a.eval x + (smul (-1) b).eval x := h
  rw [h2, eval_smul]
  ring

@[simp] theorem eval_var (x : VarName → ℚ) (n : VarName) : (var n).eval x = x n := by
  simp [eval, var]

@[simp] theorem eval_const (x : VarName → ℚ) (c : ℚ) : (const c).eval x = c := by
  simp [eval, const]

@[simp] theorem eval_one (x : VarName → ℚ) : (1 : GRBLinExpr).eval x = 1 := by
  show (const ((1 : Nat) : ℚ)).eval x = 1
  simp

@[simp] theorem eval_zero (x : VarName → ℚ) : (0 : GRBLinExpr).eval x = 0 := by
  show (const ((0 : Nat) : ℚ)).eval x = 0
  simp

end GRBLinExpr

namespace ILPColoring

@[simp] theorem eval_vVertexBit (x : VarName → ℚ) (i : Nat) :
    (vVertexBit i).eval x = x (VarName.v i) := by
  simp [vVertexBit]

@[simp] theorem eval_vEdgeBit (x : VarName → ℚ) (i : Nat) :
    (vEdgeBit i).eval x = x (VarName.e i) := by
  simp [vEdgeBit]

/-- The four conflict inequalities, as arithmetic. -/
theorem conflictConstrs_holds (i1 i2 j n : Nat) (x : VarName → ℚ) :
    (∀ c ∈ conflictConstrs i1 i2 j n, c.holds x) ↔
      (1 ≤ x (VarName.v i1) + x (VarName.v (u32 (i1 + 1))) + x (VarName.v i2)
          + x (VarName.v (u32 (i2 + 1))) + x (VarName.e j) ∧
       1 ≤ 1 - x (VarName.v i1) + x (VarName.v (u32 (i1 + 1))) + 1 - x (VarName.v i2)
          + x (VarName.v (u32 (i2 + 1))) + x (VarName.e j) ∧
       1 ≤ x (VarName.v i1) + 1 - x (VarName.v (u32 (i1 + 1))) + x (VarName.v i2) + 1
          - x (VarName.v (u32 (i2 + 1))) + x (VarName.e j) ∧
       1 ≤ 1 - x (VarName.v i1) + 1 - x (VarName.v (u32 (i1 + 1))) + 1 - x (VarName.v i2)
          + 1 - x (VarName.v (u32 (i2 + 1))) + x (VarName.e j)) := by
  simp [conflictConstrs, GRBConstr.holds]

/-- The four stitch inequalities, as arithmetic. -/
theorem stitchConstrs_holds (i1 i2 j n : Nat) (x : VarName → ℚ) :
    (∀ c ∈ stitchConstrs i1 i2 j n, c.holds x) ↔
      (x (VarName.v i1) - x (VarName.v i2) - x (VarName.e j) ≤ 0 ∧
       x (VarName.v i2) - x (VarName.v i1) - x (VarName.e j) ≤ 0 ∧
       x (VarName.v (u32 (i1 + 1))) - x (VarName.v (u32 (i2 + 1))) - x (VarName.e j) ≤ 0 ∧
       x (VarName.v (u32 (i2 + 1))) - x (VarName.v (u32 (i1 + 1))) - x (VarName.e j) ≤ 0) := by
  simp [stitchConstrs, GRBConstr.holds]

/-! ## Counters within range -/

theorem u32_of_lt {n : Nat} (h : n < 2 ^ 32) : u32 n = n := Nat.mod_eq_of_lt h

/-- Away from the least value of `int32_t` the negation of a negative weight is exact. -/
theorem neg32_of_gt {w : Int} (h1 : -2147483648 < w) (h2 : w < 0) : neg32 w = -w := by
  unfold neg32
  omega

theorem neg32_int_min : neg32 (-2147483648) = -2147483648 := by decide

theorem vertex_num_eq (c : ILPColoring) : c.vertex_num = c.m_graph.num_vertices := by
  have h := c.m_graph.vertices_fit
  exact u32_of_lt (by omega)

theorem edge_num_eq (c : ILPColoring) : c.edge_num = c.m_graph.edges.length := by
  have h := c.m_graph.edges_fit
  exact u32_of_lt (by omega)

theorem vertex_variable_num_eq (c : ILPColoring) :
    c.vertex_variable_num = 2 * c.m_graph.num_vertices := by
  have h := c.m_graph.vertices_fit
  rw [vertex_variable_num, vertex_num_eq, Nat.shiftLeft_eq, u32_of_lt (by omega)]
  omega

theorem vertex_idx_eq {s : Nat} (h : s < 2 ^ 31) : vertex_idx s = 2 * s := by
  have h1 : hVertexIdx s = s := u32_of_lt (by omega)
  rw [vertex_idx, h1, Nat.shiftLeft_eq, u32_of_lt (by omega)]
  omega

theorem vertex_idx_succ_eq {s : Nat} (h : s < 2 ^ 31) : u32 (vertex_idx s + 1) = 2 * s + 1 := by
  rw [vertex_idx_eq h, u32_of_lt (by omega)]

theorem evenIdxs_eq (c : ILPColoring) :
    c.evenIdxs = (List.range c.m_graph.num_vertices).map (fun j => 2 * j) := by
  rw [evenIdxs, vertex_variable_num_eq]
  congr 2
  omega

theorem mem_indexFrom_snd {α : Type} (l : List α) (k : Nat) (h : k + l.length < 2 ^ 32)
    (p : α × Nat) (hp : p ∈ indexFrom k l) : k ≤ p.2 ∧ p.2 < k + l.length := by
  induction l generalizing k with
  | nil => simp [indexFrom] at hp
  | cons a as ih =>
    simp only [indexFrom, List.mem_cons, List.length_cons] at hp h ⊢
    rcases hp with rfl | hp
    · simp
    · have hk : u32 (k + 1) = k + 1 := u32_of_lt (by omega)
      rw [hk] at hp
      have := ih (k + 1) (by omega) hp
      omega

theorem indexFrom_nodup {α : Type} (l : List α) (k : Nat) (h : k + l.length < 2 ^ 32) :
    ((indexFrom k l).map Prod.snd).Nodup := by
  induction l generalizing k with
  | nil => simp [indexFrom]
  | cons a as ih =>
    simp only [indexFrom, List.map_cons, List.nodup_cons, List.mem_map, not_exists, not_and,
      List.length_cons] at h ⊢
    have hk : u32 (k + 1) = k + 1 := u32_of_lt (by omega)
    rw [hk]
    refine ⟨?_, ih (k + 1) (by omega)⟩
    intro p hp hpk
    have := mem_indexFrom_snd as (k + 1) (by omega) p hp
    omega

theorem mem_indexFrom_fst {α : Type} (l : List α) (k : Nat) (p : α × Nat)
    (hp : p ∈ indexFrom k l) : p.1 ∈ l := by
  induction l generalizing k with
  | nil => simp [indexFrom] at hp
  | cons a as ih =>
    simp only [indexFrom, List.mem_cons] at hp ⊢
    rcases hp with rfl | hp
    · exact Or.inl rfl
    · exact Or.inr (ih _ hp)

theorem hEdgeIdx_nodup (c : ILPColoring) : (c.hEdgeIdx.map Prod.snd).Nodup := by
  have h := c.m_graph.edges_fit
  exact indexFrom_nodup _ 0 (by omega)

theorem hEdgeIdx_snd_lt (c : ILPColoring) (ei : Edge × Nat) (h : ei ∈ c.hEdgeIdx) :
    ei.2 < c.m_graph.edges.length := by
  have hf := c.m_graph.edges_fit
  have := mem_indexFrom_snd _ 0 (by omega) ei h
  omega

theorem hEdgeIdx_endpoints (c : ILPColoring) (ei : Edge × Nat) (h : ei ∈ c.hEdgeIdx) :
    ei.1.source < c.m_graph.num_vertices ∧ ei.1.target < c.m_graph.num_vertices :=
  c.m_graph.endpoints _ (mem_indexFrom_fst _ 0 ei h)

/-- Two entries of `hEdgeIdx` with the same index are the same entry. -/
theorem hEdgeIdx_inj (c : ILPColoring) (p q : Edge × Nat) (hp : p ∈ c.hEdgeIdx)
    (hq : q ∈ c.hEdgeIdx) (h : p.2 = q.2) : p = q := by
  have hn := c.hEdgeIdx_nodup
  exact List.inj_on_of_nodup_map hn hp hq h

/-! ## The shape of the model -/

theorem foldl_addVertexVar (c : ILPColoring) (l : List Nat) (m : GRBModel) :
    (l.foldl c.addVertexVar m).vars = m.vars ++ l.map c.vertexVar ∧
      (l.foldl c.addVertexVar m).constrs = m.constrs := by
  induction l generalizing m with
  | nil => simp
  | cons i l ih =>
    have h1 : (c.addVertexVar m i).vars = m.vars ++ [c.vertexVar i] ∧
        (c.addVertexVar m i).constrs = m.constrs := by
      simp only [addVertexVar, vertexVar]
      by_cases hp : c.precolored (i >>> 1) = true
      · simp [hp, GRBModel.addVar]
      · simp [hp, GRBModel.addVar]
    rw [List.foldl_cons, (ih _).1, (ih _).2, h1.1, h1.2]
    simp

theorem foldl_addEdgeVar (l : List Nat) (m : GRBModel) :
    (l.foldl addEdgeVar m).vars = m.vars ++ l.map edgeVar ∧
      (l.foldl addEdgeVar m).constrs = m.constrs := by
  induction l generalizing m with
  | nil => simp
  | cons i l ih =>
    rw [List.foldl_cons, (ih _).1, (ih _).2]
    simp [addEdgeVar, edgeVar, GRBModel.addVar]

theorem foldl_addConstr (l : List GRBConstr) (m : GRBModel) :
    (l.foldl GRBModel.addConstr m).vars = m.vars ∧
      (l.foldl GRBModel.addConstr m).objective = m.objective ∧
      (l.foldl GRBModel.addConstr m).constrs = m.constrs ++ l := by
  induction l generalizing m with
  | nil => simp
  | cons i l ih =>
    rw [List.foldl_cons, (ih _).1, (ih _).2.1, (ih _).2.2]
    simp [GRBModel.addConstr]

theorem edgeConstrs_holds_num (ei : Edge × Nat) (n : Nat) (x : VarName → ℚ) :
    (∀ c ∈ edgeConstrs ei n, c.holds x) ↔ edgeHolds ei x := by
  unfold edgeHolds edgeConstrs
  by_cases hw : 0 ≤ ei.1.weight
  · simp only [if_pos hw, conflictConstrs_holds]
  · simp only [if_neg hw, stitchConstrs_holds]

theorem foldl_addEdgeConstrs (l : List (Edge × Nat)) (st : GRBModel × Nat)
    (x : VarName → ℚ) :
    (l.foldl addEdgeConstrs st).1.vars = st.1.vars ∧
      (l.foldl addEdgeConstrs st).1.objective = st.1.objective ∧
      ((∀ c ∈ (l.foldl addEdgeConstrs st).1.constrs, c.holds x) ↔
        ((∀ c ∈ st.1.constrs, c.holds x) ∧ ∀ ei ∈ l, edgeHolds ei x)) := by
  induction l generalizing st with
  | nil => simp
  | cons ei l ih =>
    rw [List.foldl_cons, (ih _).1, (ih _).2.1, (ih _).2.2]
    have h := foldl_addConstr (edgeConstrs ei st.2) st.1
    simp only [addEdgeConstrs, h.1, h.2.1, h.2.2, List.mem_append, List.mem_cons,
      true_and, or_imp, forall_and, forall_eq, edgeConstrs_holds_num]
    tauto

theorem foldl_addThreeConstr (l : List Nat) (st : GRBModel × Nat) (x : VarName → ℚ) :
    (l.foldl addThreeConstr st).1.vars = st.1.vars ∧
      (l.foldl addThreeConstr st).1.objective = st.1.objective ∧
      ((∀ c ∈ (l.foldl addThreeConstr st).1.constrs, c.holds x) ↔
        ((∀ c ∈ st.1.constrs, c.holds x) ∧
          ∀ k ∈ l, x (VarName.v k) + x (VarName.v (u32 (k + 1))) ≤ 1)) := by
  induction l generalizing st with
  | nil => simp
  | cons k l ih =>
    rw [List.foldl_cons, (ih _).1, (ih _).2.1, (ih _).2.2]
    simp only [addThreeConstr, GRBModel.addConstr, List.mem_append, List.mem_cons,
      List.mem_singleton, true_and, or_imp, forall_and, forall_eq, GRBConstr.holds,
      GRBLinExpr.eval_add, eval_vVertexBit, GRBLinExpr.eval_one, List.not_mem_nil,
      false_imp_iff, implies_true, and_true]
    tauto

theorem buildModel_vars (c : ILPColoring) :
    c.buildModel.vars = (List.range (2 * c.m_graph.num_vertices)).map c.vertexVar
      ++ (List.range c.m_graph.edges.length).map edgeVar := by
  unfold buildModel buildModelNum
  simp only []
  split
  · rw [(foldl_addThreeConstr _ _ (fun _ => 0)).1, (foldl_addEdgeConstrs _ _ (fun _ => 0)).1]
    simp [GRBModel.setObjective, (foldl_addEdgeVar _ _).1, (foldl_addVertexVar _ _ _).1,
      GRBModel.empty, vertex_variable_num_eq, edge_num_eq]
  · rw [(foldl_addEdgeConstrs _ _ (fun _ => 0)).1]
    simp [GRBModel.setObjective, (foldl_addEdgeVar _ _).1, (foldl_addVertexVar _ _ _).1,
      GRBModel.empty, vertex_variable_num_eq, edge_num_eq]

theorem buildModel_objective (c : ILPColoring) : c.buildModel.objective = c.objective := by
  unfold buildModel buildModelNum
  simp only []
  split
  · rw [(foldl_addThreeConstr _ _ (fun _ => 0)).2.1, (foldl_addEdgeConstrs _ _ (fun _ => 0)).2.1]
    rfl
  · rw [(foldl_addEdgeConstrs _ _ (fun _ => 0)).2.1]
    rfl

theorem buildModel_constrs (c : ILPColoring) (x : VarName → ℚ) :
    (∀ k ∈ c.buildModel.constrs, k.holds x) ↔
      ((∀ ei ∈ c.hEdgeIdx, edgeHolds ei x) ∧
        (c.m_color_num = THREE → ∀ s < c.m_graph.num_vertices,
          x (VarName.v (2 * s)) + x (VarName.v (2 * s + 1)) ≤ 1)) := by
  have h3 : ∀ s < c.m_graph.num_vertices, u32 (2 * s + 1) = 2 * s + 1 := by
    intro s hs
    have := c.m_graph.vertices_fit
    exact u32_of_lt (by omega)
  unfold buildModel buildModelNum
  simp only []
  split
  · rename_i hk
    rw [(foldl_addThreeConstr _ _ x).2.2, (foldl_addEdgeConstrs _ _ x).2.2]
    simp only [GRBModel.setObjective, (foldl_addEdgeVar _ _).2, (foldl_addVertexVar _ _ _).2,
      GRBModel.empty, List.not_mem_nil, false_imp_iff, implies_true, true_and, evenIdxs_eq,
      List.mem_map, List.mem_range, forall_exists_index, and_imp, forall_apply_eq_imp_iff₂,
      hk, forall_true_left]
    constructor
    · rintro ⟨h1, h2⟩
      refine ⟨h1, fun s hs => ?_⟩
      have := h2 s hs
      rwa [h3 s hs] at this
    · rintro ⟨h1, h2⟩
      refine ⟨h1, fun s hs => ?_⟩
      rw [h3 s hs]
      exact h2 s hs
  · rename_i hk
    rw [(foldl_addEdgeConstrs _ _ x).2.2]
    simp [GRBModel.setObjective, (foldl_addEdgeVar _ _).2, (foldl_addVertexVar _ _ _).2,
      GRBModel.empty, hk]

/-- Feasibility of a point for the model of `coloring()`, in terms of the loops that
build it. -/
theorem feasible_iff (c : ILPColoring) (x : VarName → ℚ) :
    c.buildModel.feasible x ↔
      ((∀ i < 2 * c.m_graph.num_vertices, (c.vertexVar i).admits x) ∧
        (∀ j < c.m_graph.edges.length, 0 ≤ x (VarName.e j) ∧ x (VarName.e j) ≤ 1) ∧
        (∀ ei ∈ c.hEdgeIdx, edgeHolds ei x) ∧
        (c.m_color_num = THREE → ∀ s < c.m_graph.num_vertices,
          x (VarName.v (2 * s)) + x (VarName.v (2 * s + 1)) ≤ 1)) := by
  unfold GRBModel.feasible
  rw [buildModel_constrs, buildModel_vars]
  constructor
  · rintro ⟨hv, hc, h3⟩
    refine ⟨fun i hi => hv _ (List.mem_append_left _
      (List.mem_map.2 ⟨i, List.mem_range.2 hi, rfl⟩)), fun j hj => ?_, hc, h3⟩
    have := hv _ (List.mem_append_right _ (List.mem_map.2 ⟨j, List.mem_range.2 hj, rfl⟩))
    exact ⟨this.1, this.2.1⟩
  · rintro ⟨hv, he, hc, h3⟩
    refine ⟨fun d hd => ?_, hc, h3⟩
    rcases List.mem_append.1 hd with hd | hd
    · obtain ⟨i, hi, rfl⟩ := List.mem_map.1 hd
      exact hv i (List.mem_range.1 hi)
    · obtain ⟨j, hj, rfl⟩ := List.mem_map.1 hd
      have hj2 := he j (List.mem_range.1 hj)
      exact ⟨hj2.1, hj2.2, by simp [edgeVar]⟩

theorem foldl_addObjTerm (c : ILPColoring) (l : List (Edge × Nat)) (obj : GRBLinExpr)
    (x : VarName → ℚ) :
    (l.foldl c.addObjTerm obj).eval x
      = obj.eval x + (l.map (fun ei => c.objCoeff ei.1 * x (VarName.e ei.2))).sum := by
  induction l generalizing obj with
  | nil => simp
  | cons ei l ih =>
    rw [List.foldl_cons, ih]
    simp only [addObjTerm, objCoeff, List.map_cons, List.sum_cons]
    split
    · simp; ring
    · split
      · simp; ring
      · simp

/-- The objective value of a point is the sum over the edges of coefficient times
slack. -/
theorem objVal_eq (c : ILPColoring) (x : VarName → ℚ) :
    c.buildModel.objVal x
      = (c.hEdgeIdx.map (fun ei => c.objCoeff ei.1 * x (VarName.e ei.2))).sum := by
  rw [GRBModel.objVal, buildModel_objective, objective, foldl_addObjTerm]
  simp

/-! ## Bits and colours -/

theorem color_bit_isBit (color : Int) (h : 0 ≤ color) (i : Nat) :
    color_bit color i = 0 ∨ color_bit color i = 1 := by
  obtain ⟨m, rfl⟩ := Int.eq_ofNat_of_zero_le h
  unfold color_bit
  have h1 : Int.land ((m : Int) >>> 1) 1 = ((m >>> 1 &&& 1 : Nat) : Int) := rfl
  have h2 : Int.land (m : Int) 1 = ((m &&& 1 : Nat) : Int) := rfl
  rw [h1, h2]
  simp only [Nat.and_one_is_mod]
  split <;> omega

theorem isBit_of_int {q : ℚ} (h0 : 0 ≤ q) (h1 : q ≤ 1) (hd : q.den = 1) : isBit q := by
  have hq : ((q.num : ℤ) : ℚ) = q := Rat.coe_int_num_of_den_eq_one hd
  rw [← hq] at h0 h1 ⊢
  have a : (0 : ℤ) ≤ q.num := by exact_mod_cast h0
  have b : q.num ≤ (1 : ℤ) := by exact_mod_cast h1
  unfold isBit
  have : q.num = 0 ∨ q.num = 1 := by omega
  rcases this with h | h <;> rw [h] <;> simp

theorem vertexVar_name (c : ILPColoring) (i : Nat) : (c.vertexVar i).name = VarName.v i := by
  unfold vertexVar
  split <;> rfl

theorem vertexVar_isBit (c : ILPColoring) (i : Nat) (x : VarName → ℚ)
    (h : (c.vertexVar i).admits x) : isBit (x (VarName.v i)) := by
  unfold GRBVar.admits at h
  rw [vertexVar_name] at h
  unfold vertexVar at h
  by_cases hp : c.precolored (i >>> 1) = true
  · simp only [hp, if_true] at h
    have hc : 0 ≤ c.m_vColor (i >>> 1) := by
      simp only [precolored, Bool.and_eq_true, decide_eq_true_eq] at hp
      exact hp.1
    have hx : x (VarName.v i) = (color_bit (c.m_vColor (i >>> 1)) i : Int) :=
      le_antisymm h.2.1 h.1
    rw [hx]
    rcases color_bit_isBit _ hc i with hb | hb <;> rw [hb] <;> simp [isBit]
  · simp only [hp] at h
    exact isBit_of_int h.1 h.2.1 (h.2.2 rfl)

theorem feasible_isBit (c : ILPColoring) (x : VarName → ℚ) (h : c.buildModel.feasible x)
    (i : Nat) (hi : i < 2 * c.m_graph.num_vertices) : isBit (x (VarName.v i)) :=
  vertexVar_isBit c i x (((feasible_iff c x).1 h).1 i hi)

theorem bits_of_vertex (c : ILPColoring) (x : VarName → ℚ)
    (hb : ∀ i < 2 * c.m_graph.num_vertices, isBit (x (VarName.v i)))
    (s : Nat) (hs : s < c.m_graph.num_vertices) : isBit (bit0 x s) ∧ isBit (bit1 x s) := by
  have hf := c.m_graph.vertices_fit
  have hs31 : s < 2 ^ 31 := by omega
  unfold bit0 bit1
  rw [vertex_idx_succ_eq hs31, vertex_idx_eq hs31]
  exact ⟨hb _ (by omega), hb _ (by omega)⟩

theorem decode_vertex (x : VarName → ℚ) (s : Nat) :
    decoded x s = toInt8 (bit0 x s * 2 + bit1 x s) := rfl

theorem toInt8_bits {a b : ℚ} (ha : isBit a) (hb : isBit b) :
    ((toInt8 (a * 2 + b) : Int) : ℚ) = 2 * a + b := by
  unfold isBit at ha hb
  rcases ha with rfl | rfl <;> rcases hb with rfl | rfl <;> norm_num [toInt8, wrap8]

theorem sameColor_iff (x : VarName → ℚ) (ed : Edge)
    (hs0 : isBit (bit0 x ed.source)) (hs1 : isBit (bit1 x ed.source))
    (ht0 : isBit (bit0 x ed.target)) (ht1 : isBit (bit1 x ed.target)) :
    sameColor x ed ↔
      2 * bit0 x ed.source + bit1 x ed.source = 2 * bit0 x ed.target + bit1 x ed.target := by
  unfold sameColor
  rw [decode_vertex, decode_vertex, ← toInt8_bits hs0 hs1, ← toInt8_bits ht0 ht1]
  exact Int.cast_inj.symm

/-! ## The constraints of an edge and its penalty condition -/

/-- With bits at the end points and the slack in `[0, 1]`, the constraints of an edge
hold exactly when the slack is 1 in case the penalty condition of the edge is met. -/
theorem edgeHolds_iff (ei : Edge × Nat) (x : VarName → ℚ)
    (hs0 : isBit (bit0 x ei.1.source)) (hs1 : isBit (bit1 x ei.1.source))
    (ht0 : isBit (bit0 x ei.1.target)) (ht1 : isBit (bit1 x ei.1.target))
    (he0 : 0 ≤ x (VarName.e ei.2)) (he1 : x (VarName.e ei.2) ≤ 1) :
    edgeHolds ei x ↔ (charged x ei.1 → x (VarName.e ei.2) = 1) := by
  unfold charged edgeHolds edgeConstrs
  rw [sameColor_iff x ei.1 hs0 hs1 ht0 ht1]
  by_cases hP : 2 * bit0 x ei.1.source + bit1 x ei.1.source
      = 2 * bit0 x ei.1.target + bit1 x ei.1.target <;>
    by_cases hw : 0 ≤ ei.1.weight
  all_goals
    simp only [hw, ↓reduceIte, conflictConstrs_holds, stitchConstrs_holds]
    simp only [bit0, bit1, isBit] at *
    rcases hs0 with h1 | h1 <;> rcases hs1 with h2 | h2 <;> rcases ht0 with h3 | h3 <;>
      rcases ht1 with h4 | h4 <;> rw [h1, h2, h3, h4] at hP ⊢
  all_goals
    first
      | (exfalso
         norm_num at hP
         done)
      | (constructor
         · rintro ⟨a, b, c, d⟩ h5
           first
             | linarith
             | exact absurd h5 hP
             | exact absurd hP h5
         · intro h
           first
             | (have h6 := h hP
                refine ⟨?_, ?_, ?_, ?_⟩ <;> linarith)
             | (refine ⟨?_, ?_, ?_, ?_⟩ <;> linarith))

/-- The constraints of an edge read the point only at the variables of the edge. -/
theorem edgeHolds_congr (ei : Edge × Nat) (x y : VarName → ℚ)
    (hv : ∀ i, y (VarName.v i) = x (VarName.v i))
    (he : y (VarName.e ei.2) = x (VarName.e ei.2)) : edgeHolds ei y ↔ edgeHolds ei x := by
  unfold edgeHolds edgeConstrs
  by_cases hw : 0 ≤ ei.1.weight
  · simp only [if_pos hw, conflictConstrs_holds, hv, he]
  · simp only [if_neg hw, stitchConstrs_holds, hv, he]

theorem sameColor_congr (ed : Edge) (x y : VarName → ℚ)
    (hv : ∀ i, y (VarName.v i) = x (VarName.v i)) : sameColor y ed ↔ sameColor x ed := by
  unfold sameColor decoded decode
  simp only [hv]

theorem charged_congr (ed : Edge) (x y : VarName → ℚ)
    (hv : ∀ i, y (VarName.v i) = x (VarName.v i)) : charged y ed ↔ charged x ed := by
  unfold charged
  rw [sameColor_congr ed x y hv]

theorem vertexVar_admits_congr (c : ILPColoring) (i : Nat) (x y : VarName → ℚ)
    (hv : ∀ i, y (VarName.v i) = x (VarName.v i)) :
    (c.vertexVar i).admits y ↔ (c.vertexVar i).admits x := by
  unfold GRBVar.admits
  rw [vertexVar_name, hv]

theorem edgeAt_of_mem (c : ILPColoring) (ei : Edge × Nat) (h : ei ∈ c.hEdgeIdx) :
    c.edgeAt ei.2 = some ei.1 := by
  unfold edgeAt
  cases hf : c.hEdgeIdx.find? (fun p => p.2 == ei.2) with
  | none =>
    rw [List.find?_eq_none] at hf
    exact absurd (by simp) (hf ei h)
  | some q =>
    have hq : q ∈ c.hEdgeIdx := List.mem_of_find?_eq_some hf
    have hq2 : q.2 = ei.2 := by
      have := List.find?_some hf
      simpa using this
    rw [hEdgeIdx_inj c q ei hq h hq2]
    rfl

theorem mem_of_edgeAt (c : ILPColoring) (j : Nat) (ed : Edge) (h : c.edgeAt j = some ed) :
    (ed, j) ∈ c.hEdgeIdx := by
  unfold edgeAt at h
  cases hf : c.hEdgeIdx.find? (fun p => p.2 == j) with
  | none => rw [hf] at h; simp at h
  | some q =>
    rw [hf] at h
    have hq : q ∈ c.hEdgeIdx := List.mem_of_find?_eq_some hf
    have hq2 : q.2 = j := by
      have := List.find?_some hf
      simpa using this
    simp only [Option.map_some', Option.some.injEq] at h
    rw [← h, ← hq2]
    exact hq

/-! ## Points with replaced slacks -/

theorem withSlack_e (c : ILPColoring) (x : VarName → ℚ) (f : Edge → Nat → ℚ)
    (ei : Edge × Nat) (h : ei ∈ c.hEdgeIdx) :
    c.withSlack x f (VarName.e ei.2) = f ei.1 ei.2 := by
  simp only [withSlack, edgeAt_of_mem c ei h]

theorem edge_bits (c : ILPColoring) (x : VarName → ℚ)
    (hb : ∀ i < 2 * c.m_graph.num_vertices, isBit (x (VarName.v i)))
    (ei : Edge × Nat) (h : ei ∈ c.hEdgeIdx) :
    isBit (bit0 x ei.1.source) ∧ isBit (bit1 x ei.1.source) ∧
      isBit (bit0 x ei.1.target) ∧ isBit (bit1 x ei.1.target) := by
  have he := hEdgeIdx_endpoints c ei h
  have h1 := bits_of_vertex c x hb _ he.1
  have h2 := bits_of_vertex c x hb _ he.2
  exact ⟨h1.1, h1.2, h2.1, h2.2⟩

/-- A point whose vertex bits are bits, whose slacks are in `[0, 1]` and equal to 1 on
every edge whose penalty condition is met, satisfies the constraints of all edges. -/
theorem edges_hold_of_charged (c : ILPColoring) (y : VarName → ℚ)
    (hb : ∀ i < 2 * c.m_graph.num_vertices, isBit (y (VarName.v i)))
    (hf : ∀ ei ∈ c.hEdgeIdx, 0 ≤ y (VarName.e ei.2) ∧ y (VarName.e ei.2) ≤ 1 ∧
      (charged y ei.1 → y (VarName.e ei.2) = 1)) :
    ∀ ei ∈ c.hEdgeIdx, edgeHolds ei y := by
  intro ei h
  obtain ⟨a1, a2, a3, a4⟩ := edge_bits c y hb ei h
  obtain ⟨b1, b2, b3⟩ := hf ei h
  exact (edgeHolds_iff ei y a1 a2 a3 a4 b1 b2).2 b3

/-- Replacing the slacks of a point whose vertex part is admissible gives a feasible
point, when each new slack is in `[0, 1]` and is 1 where the penalty condition holds. -/
theorem feasible_withSlack (c : ILPColoring) (x : VarName → ℚ) (f : Edge → Nat → ℚ)
    (hv : ∀ i < 2 * c.m_graph.num_vertices, (c.vertexVar i).admits x)
    (h3 : c.m_color_num = THREE → ∀ s < c.m_graph.num_vertices,
      x (VarName.v (2 * s)) + x (VarName.v (2 * s + 1)) ≤ 1)
    (hf : ∀ ei ∈ c.hEdgeIdx, 0 ≤ f ei.1 ei.2 ∧ f ei.1 ei.2 ≤ 1 ∧
      (charged x ei.1 → f ei.1 ei.2 = 1)) :
    c.buildModel.feasible (c.withSlack x f) := by
  have hvv : ∀ i, c.withSlack x f (VarName.v i) = x (VarName.v i) := fun _ => rfl
  rw [feasible_iff]
  refine ⟨fun i hi => (vertexVar_admits_congr c i x _ hvv).2 (hv i hi), fun j _ => ?_, ?_, h3⟩
  · show 0 ≤ c.withSlack x f (VarName.e j) ∧ c.withSlack x f (VarName.e j) ≤ 1
    simp only [withSlack]
    cases hj : c.edgeAt j with
    | none => simp
    | some ed =>
      have := hf _ (mem_of_edgeAt c j ed hj)
      exact ⟨this.1, this.2.1⟩
  · apply edges_hold_of_charged c
    · intro i hi
      rw [hvv]
      exact vertexVar_isBit c i x (hv i hi)
    · intro ei h
      rw [withSlack_e c x f ei h, charged_congr ei.1 x _ hvv]
      exact hf ei h

theorem objVal_withSlack (c : ILPColoring) (x : VarName → ℚ) (f : Edge → Nat → ℚ) :
    c.buildModel.objVal (c.withSlack x f)
      = (c.hEdgeIdx.map (fun ei => c.objCoeff ei.1 * f ei.1 ei.2)).sum := by
  rw [objVal_eq]
  congr 1
  apply List.map_congr_left
  intro ei h
  rw [withSlack_e c x f ei h]

/-- In a feasible point the slack of an edge whose penalty condition is met is 1. -/
theorem slack_of_charged (c : ILPColoring) (x : VarName → ℚ) (h : c.buildModel.feasible x)
    (ei : Edge × Nat) (hm : ei ∈ c.hEdgeIdx) (hc : charged x ei.1) :
    x (VarName.e ei.2) = 1 := by
  have hb := feasible_isBit c x h
  obtain ⟨a1, a2, a3, a4⟩ := edge_bits c x hb ei hm
  have hf := (feasible_iff c x).1 h
  have hs := hf.2.1 ei.2 (hEdgeIdx_snd_lt c ei hm)
  exact (edgeHolds_iff ei x a1 a2 a3 a4 hs.1 hs.2).1 (hf.2.2.1 ei hm) hc

/-- In an optimal point the slack of an edge with positive coefficient whose penalty
condition is not met is 0. -/
theorem slack_of_not_charged (c : ILPColoring) (x : VarName → ℚ) (h : c.buildModel.optimal x)
    (ei : Edge × Nat) (hm : ei ∈ c.hEdgeIdx) (hpos : 0 < c.objCoeff ei.1)
    (hc : ¬ charged x ei.1) : x (VarName.e ei.2) = 0 := by
  have hf := (feasible_iff c x).1 h.1
  have hs := hf.2.1 ei.2 (hEdgeIdx_snd_lt c ei hm)
  by_contra hne
  have hlt : 0 < x (VarName.e ei.2) := lt_of_le_of_ne hs.1 (Ne.symm hne)
  let f : Edge → Nat → ℚ := fun _ j => if j = ei.2 then 0 else x (VarName.e j)
  have hy : c.buildModel.feasible (c.withSlack x f) := by
    apply feasible_withSlack c x f hf.1 hf.2.2.2
    intro p hp
    by_cases hj : p.2 = ei.2
    · have hpe : p = ei := hEdgeIdx_inj c p ei hp hm hj
      simp only [f, hj, if_true, le_refl, zero_le_one, true_and]
      rw [hpe]
      intro hch
      exact absurd hch hc
    · simp only [f, hj, if_false]
      have hsp := hf.2.1 p.2 (hEdgeIdx_snd_lt c p hp)
      exact ⟨hsp.1, hsp.2, fun hch => slack_of_charged c x h.1 p hp hch⟩
  have hle := h.2 _ hy
  rw [objVal_withSlack, objVal_eq] at hle
  have hlt2 : (c.hEdgeIdx.map (fun p => c.objCoeff p.1 * f p.1 p.2)).sum
      < (c.hEdgeIdx.map (fun p => c.objCoeff p.1 * x (VarName.e p.2))).sum := by
    apply List.sum_lt_sum
    · intro p hp
      by_cases hj : p.2 = ei.2
      · have hpe : p = ei := hEdgeIdx_inj c p ei hp hm hj
        simp only [f, hj, if_true, mul_zero]
        rw [← hj, hpe]
        exact le_of_lt (mul_pos hpos hlt)
      · simp only [f, hj, if_false, le_refl]
    · exact ⟨ei, hm, by simp only [f, if_true, mul_zero]; exact mul_pos hpos hlt⟩
  exact absurd hle (not_le.2 hlt2)

/-! ## The encodings of one edge -/

/-- C1: for a conflict edge (weight at least 0), end point bits in `{0, 1}` and slack
`e` in `[0, 1]`, the four inequalities emitted for the edge hold together if and only
if `2 * s0 + s1 ≠ 2 * t0 + t1` or `e = 1`. -/
theorem conflict_encoding (ei : Edge × Nat) (constr_num : Nat) (x : VarName → ℚ)
    (hw : 0 ≤ ei.1.weight)
    (hs0 : isBit (bit0 x ei.1.source)) (hs1 : isBit (bit1 x ei.1.source))
    (ht0 : isBit (bit0 x ei.1.target)) (ht1 : isBit (bit1 x ei.1.target))
    (he0 : 0 ≤ x (VarName.e ei.2)) (he1 : x (VarName.e ei.2) ≤ 1) :
    (∀ c ∈ edgeConstrs ei constr_num, c.holds x) ↔
      (2 * bit0 x ei.1.source + bit1 x ei.1.source
          ≠ 2 * bit0 x ei.1.target + bit1 x ei.1.target
        ∨ x (VarName.e ei.2) = 1) := by
  simp only [edgeConstrs, if_pos hw, conflictConstrs_holds]
  simp only [bit0, bit1, isBit] at *
  rcases hs0 with h1 | h1 <;> rcases hs1 with h2 | h2 <;> rcases ht0 with h3 | h3 <;>
    rcases ht1 with h4 | h4 <;> rw [h1, h2, h3, h4] <;> constructor
  all_goals first
    | (rintro ⟨a, b, c, d⟩
       first
         | (left; norm_num; done)
         | (right; linarith))
    | (intro h
       rcases h with h | h <;> first
         | (exfalso; norm_num at h; done)
         | (refine ⟨?_, ?_, ?_, ?_⟩ <;> linarith))

/-- Instance of `conflict_encoding`: a conflict edge of weight 5 between vertices 0
and 1 at `samplePoint`, where the colours are 1 and 0 and the slack is 0. -/
theorem conflict_encoding_witness :
    (∀ c ∈ edgeConstrs (⟨0, 1, 5⟩, 0) 0, c.holds samplePoint) ↔
      (2 * bit0 samplePoint 0 + bit1 samplePoint 0
          ≠ 2 * bit0 samplePoint 1 + bit1 samplePoint 1
        ∨ samplePoint (VarName.e 0) = 1) :=
  conflict_encoding (⟨0, 1, 5⟩, 0) 0 samplePoint (by decide)
    (by simp [isBit, bit0, vertex_idx, hVertexIdx, u32, samplePoint])
    (by simp [isBit, bit1, vertex_idx, hVertexIdx, u32, samplePoint])
    (by simp [isBit, bit0, vertex_idx, hVertexIdx, u32, samplePoint])
    (by simp [isBit, bit1, vertex_idx, hVertexIdx, u32, samplePoint])
    (by simp [samplePoint]) (by simp [samplePoint])

/-- C2: for a stitch edge (weight below 0), end point bits in `{0, 1}` and slack `e`
in `[0, 1]`, the four inequalities emitted for the edge hold together if and only if
`|s0 - t0| ≤ e` and `|s1 - t1| ≤ e`; so they force `e = 1` when the end points differ
in a bit, and they hold with `e = 0` when both bits agree. -/
theorem stitch_encoding (ei : Edge × Nat) (constr_num : Nat) (x : VarName → ℚ)
    (hw : ei.1.weight < 0)
    (hs0 : isBit (bit0 x ei.1.source)) (hs1 : isBit (bit1 x ei.1.source))
    (ht0 : isBit (bit0 x ei.1.target)) (ht1 : isBit (bit1 x ei.1.target))
    (_he0 : 0 ≤ x (VarName.e ei.2)) (he1 : x (VarName.e ei.2) ≤ 1) :
    ((∀ c ∈ edgeConstrs ei constr_num, c.holds x) ↔
      (|bit0 x ei.1.source - bit0 x ei.1.target| ≤ x (VarName.e ei.2) ∧
       |bit1 x ei.1.source - bit1 x ei.1.target| ≤ x (VarName.e ei.2))) ∧
    ((∀ c ∈ edgeConstrs ei constr_num, c.holds x) →
      (bit0 x ei.1.source ≠ bit0 x ei.1.target ∨ bit1 x ei.1.source ≠ bit1 x ei.1.target) →
      x (VarName.e ei.2) = 1) ∧
    (bit0 x ei.1.source = bit0 x ei.1.target → bit1 x ei.1.source = bit1 x ei.1.target →
      x (VarName.e ei.2) = 0 → ∀ c ∈ edgeConstrs ei constr_num, c.holds x) := by
  have hiff : (∀ c ∈ edgeConstrs ei constr_num, c.holds x) ↔
      (|bit0 x ei.1.source - bit0 x ei.1.target| ≤ x (VarName.e ei.2) ∧
       |bit1 x ei.1.source - bit1 x ei.1.target| ≤ x (VarName.e ei.2)) := by
    simp only [edgeConstrs, if_neg (not_le.2 hw), stitchConstrs_holds, bit0, bit1, abs_le]
    constructor
    · rintro ⟨a, b, c, d⟩
      refine ⟨⟨?_, ?_⟩, ⟨?_, ?_⟩⟩ <;> linarith
    · rintro ⟨⟨a, b⟩, ⟨c, d⟩⟩
      refine ⟨?_, ?_, ?_, ?_⟩ <;> linarith
  refine ⟨hiff, ?_, ?_⟩
  · intro h hne
    obtain ⟨a, b⟩ := hiff.1 h
    simp only [isBit] at hs0 hs1 ht0 ht1
    rcases hne with hne | hne
    · rcases hs0 with h1 | h1 <;> rcases ht0 with h3 | h3 <;> rw [h1, h3] at a hne <;>
        norm_num at a hne <;> linarith
    · rcases hs1 with h1 | h1 <;> rcases ht1 with h3 | h3 <;> rw [h1, h3] at b hne <;>
        norm_num at b hne <;> linarith
  · intro h0 h1 hz
    rw [hiff, h0, h1, hz]
    simp

/-- Instance of `stitch_encoding`: a stitch edge of weight -2 between vertices 1 and 2
at `samplePoint`, where both end points have colour 0 and the slack is 0. -/
theorem stitch_encoding_witness :
    ((∀ c ∈ edgeConstrs (⟨1, 2, -2⟩, 0) 0, c.holds samplePoint) ↔
      (|bit0 samplePoint 1 - bit0 samplePoint 2| ≤ samplePoint (VarName.e 0) ∧
       |bit1 samplePoint 1 - bit1 samplePoint 2| ≤ samplePoint (VarName.e 0))) ∧
    ((∀ c ∈ edgeConstrs (⟨1, 2, -2⟩, 0) 0, c.holds samplePoint) →
      (bit0 samplePoint 1 ≠ bit0 samplePoint 2 ∨ bit1 samplePoint 1 ≠ bit1 samplePoint 2) →
      samplePoint (VarName.e 0) = 1) ∧
    (bit0 samplePoint 1 = bit0 samplePoint 2 → bit1 samplePoint 1 = bit1 samplePoint 2 →
      samplePoint (VarName.e 0) = 0 →
      ∀ c ∈ edgeConstrs (⟨1, 2, -2⟩, 0) 0, c.holds samplePoint) :=
  stitch_encoding (⟨1, 2, -2⟩, 0) 0 samplePoint (by decide)
    (by simp [isBit, bit0, vertex_idx, hVertexIdx, u32, samplePoint])
    (by simp [isBit, bit1, vertex_idx, hVertexIdx, u32, samplePoint])
    (by simp [isBit, bit0, vertex_idx, hVertexIdx, u32, samplePoint])
    (by simp [isBit, bit1, vertex_idx, hVertexIdx, u32, samplePoint])
    (by simp [samplePoint]) (by simp [samplePoint])

/-! ## The objective and the colours -/

theorem objCoeff_nonneg (c : ILPColoring) (h : 0 ≤ c.m_stitch_weight) (ed : Edge)
    (hmin : -2147483648 < ed.weight) : 0 ≤ c.objCoeff ed := by
  unfold objCoeff
  split
  · rename_i hw
    exact_mod_cast le_of_lt hw
  · split
    · rename_i hw
      apply mul_nonneg h
      rw [neg32_of_gt hmin hw]
      have : (0 : Int) ≤ -ed.weight := by omega
      exact_mod_cast this
    · exact le_refl 0

/-- The cost of the colours of a point is the objective with every slack at 1 where
the penalty condition of its edge is met and at 0 elsewhere. -/
theorem colorCost_eq (c : ILPColoring) (hmin : c.negatable) (x : VarName → ℚ) :
    c.colorCost x
      = (c.hEdgeIdx.map (fun ei => c.objCoeff ei.1 * (if charged x ei.1 then 1 else 0))).sum := by
  unfold colorCost costOfColors
  congr 1
  apply List.map_congr_left
  intro ei hm
  have hgt := hmin _ (mem_indexFrom_fst _ 0 ei hm)
  unfold objCoeff charged sameColor
  by_cases hw : 0 ≤ ei.1.weight
  · by_cases hw2 : 0 < ei.1.weight
    · simp only [hw, hw2, if_true]
      split <;> simp
    · have h0 : ei.1.weight = 0 := by omega
      simp [h0]
  · have hw2 : ¬ 0 < ei.1.weight := by omega
    have hw3 : ei.1.weight < 0 := by omega
    have habs : |(ei.1.weight : ℚ)| = ((neg32 ei.1.weight : Int) : ℚ) := by
      rw [abs_of_neg (by exact_mod_cast hw3), neg32_of_gt hgt hw3]
      push_cast
      ring
    simp only [hw, hw2, hw3, if_true, if_false, habs]
    split <;> simp

/-- Every admissible slack vector around the bits of `x` costs at least the cost of the
colours of `x`. -/
theorem colorCost_le (c : ILPColoring) (hmin : c.negatable) (x y : VarName → ℚ)
    (hsw : 0 ≤ c.m_stitch_weight)
    (hb : ∀ i < 2 * c.m_graph.num_vertices, isBit (x (VarName.v i)))
    (hy : c.slackCompletion x y) : c.colorCost x ≤ c.buildModel.objVal y := by
  obtain ⟨hv, hs, he⟩ := hy
  rw [colorCost_eq c hmin, objVal_eq]
  apply List.sum_le_sum
  intro ei hm
  apply mul_le_mul_of_nonneg_left _
    (objCoeff_nonneg c hsw ei.1 (hmin _ (mem_indexFrom_fst _ 0 ei hm)))
  have hsj := hs ei.2 (hEdgeIdx_snd_lt c ei hm)
  split
  · rename_i hc
    have hby : ∀ i < 2 * c.m_graph.num_vertices, isBit (y (VarName.v i)) := by
      intro i hi
      rw [hv]
      exact hb i hi
    obtain ⟨a1, a2, a3, a4⟩ := edge_bits c y hby ei hm
    have := (edgeHolds_iff ei y a1 a2 a3 a4 hsj.1 hsj.2).1 (he ei hm)
      ((charged_congr ei.1 x y hv).2 hc)
    rw [this]
  · exact hsj.1

/-- The slack vector that is 1 exactly on the edges whose penalty condition is met is
admissible and costs the cost of the colours. -/
theorem colorCost_attained (c : ILPColoring) (hmin : c.negatable) (x : VarName → ℚ)
    (hb : ∀ i < 2 * c.m_graph.num_vertices, isBit (x (VarName.v i))) :
    c.slackCompletion x (c.withSlack x (fun ed _ => if charged x ed then 1 else 0)) ∧
      c.buildModel.objVal (c.withSlack x (fun ed _ => if charged x ed then 1 else 0))
        = c.colorCost x := by
  have hvv : ∀ i, c.withSlack x (fun ed _ => if charged x ed then (1 : ℚ) else 0) (VarName.v i)
      = x (VarName.v i) := fun _ => rfl
  refine ⟨⟨hvv, fun j _ => ?_, ?_⟩, ?_⟩
  · show 0 ≤ c.withSlack x _ (VarName.e j) ∧ c.withSlack x _ (VarName.e j) ≤ 1
    simp only [withSlack]
    cases c.edgeAt j with
    | none => simp
    | some ed => dsimp only; split <;> simp
  · apply edges_hold_of_charged c
    · intro i hi
      rw [hvv]
      exact hb i hi
    · intro ei h
      rw [withSlack_e c x _ ei h, charged_congr ei.1 x _ hvv]
      split <;> simp [*]
  · rw [objVal_withSlack, colorCost_eq c hmin]

/-- The objective value of an optimal point is the cost of its colours. -/
theorem objVal_optimal (c : ILPColoring) (hmin : c.negatable) (x : VarName → ℚ)
    (hsw : 0 ≤ c.m_stitch_weight) (h : c.buildModel.optimal x) :
    c.buildModel.objVal x = c.colorCost x := by
  have hb := feasible_isBit c x h.1
  have hf := (feasible_iff c x).1 h.1
  apply le_antisymm
  · have hy : c.buildModel.feasible
        (c.withSlack x (fun ed _ => if charged x ed then 1 else 0)) := by
      apply feasible_withSlack c x _ hf.1 hf.2.2.2
      intro ei _
      split <;> simp [*]
    have := h.2 _ hy
    rwa [(colorCost_attained c hmin x hb).2] at this
  · exact colorCost_le c hmin x x hsw hb ⟨fun _ => rfl, hf.2.1, hf.2.2.1⟩

/-! ## The loop that collects the solution -/

theorem shiftRight_double (j : Nat) : (2 * j) >>> 1 = j := by
  rw [Nat.shiftRight_eq_div_pow]
  omega

/-- One step of the loop, when it does not fail: the vertex holds the decoded colour,
which is in range, and no other vertex changes. -/
theorem collectStep_ok (c : ILPColoring) (x : VarName → ℚ) (v w : Nat → Int) (j : Nat)
    (h : c.collectStep x v (2 * j) = Except.ok w) :
    w j = decode x (2 * j) ∧ (0 ≤ decode x (2 * j) ∧ decode x (2 * j) < c.m_color_num) ∧
      (∀ s, s ≠ j → w s = v s) ∧ ((0 ≤ v j ∧ v j < c.m_color_num) → w = v) := by
  unfold collectStep at h
  simp only [shiftRight_double] at h
  by_cases hr : 0 ≤ decode x (2 * j) ∧ decode x (2 * j) < c.m_color_num
  · by_cases hp : 0 ≤ v j ∧ v j < c.m_color_num
    · by_cases he : v j = decode x (2 * j)
      · simp only [hr, hp, he, not_true_eq_false, if_false, if_true, and_self,
          Except.ok.injEq] at h
        subst h
        exact ⟨he, hr, fun _ _ => rfl, fun _ => rfl⟩
      · simp only [hr, hp, he, not_true_eq_false, if_false, if_true, and_self] at h
        cases h
    · simp only [hr, hp, not_true_eq_false, if_false, and_self, Except.ok.injEq] at h
      subst h
      refine ⟨by simp, hr, fun s hs => by simp [Function.update, hs], fun hq => absurd hq hp⟩
  · simp only [hr, not_false_eq_true, if_true] at h
    cases h

theorem foldlM_collect_ok (c : ILPColoring) (x : VarName → ℚ) (js : List Nat)
    (v w : Nat → Int)
    (h : (js.map (fun j => 2 * j)).foldlM (c.collectStep x) v = Except.ok w) :
    ∀ s, (s ∈ js → w s = decode x (2 * s) ∧ 0 ≤ w s ∧ w s < c.m_color_num) ∧
      (s ∉ js → w s = v s) ∧ ((0 ≤ v s ∧ v s < c.m_color_num) → w s = v s) := by
  induction js generalizing v with
  | nil =>
    simp only [List.map_nil, List.foldlM_nil, pure, Except.pure, Except.ok.injEq] at h
    subst h
    intro s
    simp
  | cons j js ih =>
    simp only [List.map_cons, List.foldlM_cons, bind, Except.bind] at h
    cases hstep : c.collectStep x v (2 * j) with
    | error f => rw [hstep] at h; cases h
    | ok v1 =>
      rw [hstep] at h
      obtain ⟨h1, h2, h3, h4⟩ := collectStep_ok c x v v1 j hstep
      have ihs := ih v1 h
      intro s
      have hpre : (0 ≤ v s ∧ v s < c.m_color_num) → w s = v s := by
        intro hp
        have hv1 : v1 s = v s := by
          by_cases hsj : s = j
          · subst hsj
            rw [h4 hp]
          · exact h3 s hsj
        rw [← hv1]
        apply (ihs s).2.2
        rw [hv1]
        exact hp
      refine ⟨fun hs => ?_, fun hs => ?_, hpre⟩
      · by_cases hin : s ∈ js
        · exact (ihs s).1 hin
        · have hsj : s = j := by
            rcases List.mem_cons.1 hs with h5 | h5
            · exact h5
            · exact absurd h5 hin
          subst hsj
          have : w s = v1 s := (ihs s).2.1 hin
          rw [this, h1]
          exact ⟨rfl, h2.1, h2.2⟩
      · have hsj : s ≠ j := fun h5 => hs (h5 ▸ List.mem_cons_self _ _)
        have hin : s ∉ js := fun h5 => hs (List.mem_cons_of_mem _ h5)
        rw [(ihs s).2.1 hin, h3 s hsj]

/-- The colours after the loop, when no assertion fails: every vertex of the graph
holds its decoded colour, which is in range; a pre-coloured vertex keeps its colour. -/
theorem collect_ok (c : ILPColoring) (x : VarName → ℚ) (col : Nat → Int)
    (h : c.collect x = Except.ok col) (s : Nat) :
    (s < c.m_graph.num_vertices →
        col s = decoded x s ∧ 0 ≤ col s ∧ col s < c.m_color_num) ∧
      (c.m_graph.num_vertices ≤ s → col s = c.m_vColor s) ∧
      (c.precolored s = true → col s = c.m_vColor s) := by
  unfold collect at h
  rw [evenIdxs_eq] at h
  have hs := foldlM_collect_ok c x _ _ _ h s
  refine ⟨fun hlt => ?_, fun hge => ?_, fun hp => ?_⟩
  · have hf := c.m_graph.vertices_fit
    have := hs.1 (List.mem_range.2 hlt)
    rw [decoded, vertex_idx_eq (by omega)]
    exact this
  · exact hs.2.1 (by simpa using hge)
  · apply hs.2.2
    simpa [precolored] using hp

/-- The cost computed from the colours left by the loop is the cost of the colours
decoded at the point. -/
theorem costOfColors_collect (c : ILPColoring) (x : VarName → ℚ) (col : Nat → Int)
    (h : c.collect x = Except.ok col) : c.costOfColors col = c.colorCost x := by
  unfold colorCost costOfColors
  congr 1
  apply List.map_congr_left
  intro ei hm
  have he := hEdgeIdx_endpoints c ei hm
  rw [((collect_ok c x col h ei.1.source).1 he.1).1, ((collect_ok c x col h ei.1.target).1 he.2).1]

/-- The value returned by `coloring()` is the cost of the colours it leaves in
`m_vColor`, when the solver answers an optimal point. -/
theorem coloring_objective (c : ILPColoring) (hmin : c.negatable)
    (hsw : 0 ≤ c.m_stitch_weight) (optimize : GRBModel → Option (VarName → ℚ))
    (hsolver : SolverContract optimize c.buildModel)
    (c' : ILPColoring) (r : ℚ) (h : c.coloring optimize = Except.ok (c', r)) :
    r = c.costOfColors c'.m_vColor := by
  unfold coloring at h
  simp only [] at h
  cases ho : optimize c.buildModel with
  | none => rw [ho] at h; cases h
  | some z =>
    rw [ho] at h
    simp only [] at h
    cases hc : c.collect z with
    | error f => rw [hc] at h; cases h
    | ok col =>
      rw [hc] at h
      simp only [Except.ok.injEq, Prod.mk.injEq] at h
      obtain ⟨h1, h2⟩ := h
      rw [← h1, ← h2]
      show c.buildModel.objVal z = c.costOfColors col
      rw [costOfColors_collect c z col hc]
      exact objVal_optimal c hmin z hsw (hsolver.2 z ho)

/-- When no edge has the weight -2147483648: for a stitch multiplier at least 0 and a
0/1 assignment of the vertex bits, the least objective value over the slack vectors in
`[0, 1]` that satisfy the edge constraints is the weight of the conflict edges with
equally coloured end points plus multiplier times `|weight|` of the stitch edges with
differently coloured end points; and the value returned by `coloring()` for an optimal
solution is that sum computed from the colours written to the vertices. -/
theorem objective_of_negatable (c : ILPColoring) (hmin : c.negatable) (x : VarName → ℚ)
    (hsw : 0 ≤ c.m_stitch_weight)
    (hb : ∀ i < 2 * c.m_graph.num_vertices, isBit (x (VarName.v i))) :
    IsLeast {r : ℚ | ∃ y, c.slackCompletion x y ∧ c.buildModel.objVal y = r}
        (c.costOfColors (decoded x)) ∧
      (∀ (optimize : GRBModel → Option (VarName → ℚ)) (c' : ILPColoring) (r : ℚ),
        SolverContract optimize c.buildModel → c.coloring optimize = Except.ok (c', r) →
        r = c.costOfColors c'.m_vColor) := by
  refine ⟨⟨?_, ?_⟩, ?_⟩
  · exact ⟨_, (colorCost_attained c hmin x hb).1, (colorCost_attained c hmin x hb).2⟩
  · rintro r ⟨y, hy, rfl⟩
    exact colorCost_le c hmin x y hsw hb hy
  · intro optimize c' r hsolver h
    exact coloring_objective c hmin hsw optimize hsolver c' r h

/-- Instance of `objective_of_negatable`: two vertices joined by a conflict edge of
weight 5, three colours, multiplier 1, at `samplePoint`. -/
theorem objective_of_negatable_instance :
    IsLeast {r : ℚ | ∃ y, (pairColoring 5 3 1).slackCompletion samplePoint y ∧
        (pairColoring 5 3 1).buildModel.objVal y = r}
        ((pairColoring 5 3 1).costOfColors (decoded samplePoint)) ∧
      (∀ (optimize : GRBModel → Option (VarName → ℚ)) (c' : ILPColoring) (r : ℚ),
        SolverContract optimize (pairColoring 5 3 1).buildModel →
        (pairColoring 5 3 1).coloring optimize = Except.ok (c', r) →
        r = (pairColoring 5 3 1).costOfColors c'.m_vColor) :=
  objective_of_negatable (pairColoring 5 3 1) (by simp [negatable, pairColoring, pairGraph])
    samplePoint (by norm_num [pairColoring])
    (by
      intro i hi
      have hi4 : i < 4 := hi
      interval_cases i <;> simp [isBit, samplePoint])

/-! ## Pre-coloured vertices -/

theorem shiftRight_double_succ (j : Nat) : (2 * j + 1) >>> 1 = j := by
  rw [Nat.shiftRight_eq_div_pow]
  omega

theorem precolored_iff (c : ILPColoring) (s : Nat) :
    c.precolored s = true ↔ (0 ≤ c.m_vColor s ∧ c.m_vColor s < c.m_color_num) := by
  simp [precolored]

theorem vertexVar_even (c : ILPColoring) (s : Nat) (hp : c.precolored s = true) :
    c.vertexVar (2 * s) =
      ⟨(Int.land (c.m_vColor s >>> 1) 1 : Int), (Int.land (c.m_vColor s >>> 1) 1 : Int),
        (Int.land (c.m_vColor s >>> 1) 1 : Int), VType.GRB_INTEGER, VarName.v (2 * s)⟩ := by
  have h0 : (2 * s) &&& 1 = 0 := by
    rw [Nat.and_one_is_mod]
    omega
  simp only [vertexVar, shiftRight_double, hp, if_true, color_bit, h0]

theorem vertexVar_odd (c : ILPColoring) (s : Nat) (hp : c.precolored s = true) :
    c.vertexVar (2 * s + 1) =
      ⟨(Int.land (c.m_vColor s) 1 : Int), (Int.land (c.m_vColor s) 1 : Int),
        (Int.land (c.m_vColor s) 1 : Int), VType.GRB_INTEGER, VarName.v (2 * s + 1)⟩ := by
  have h0 : ¬ ((2 * s + 1) &&& 1 = 0) := by
    rw [Nat.and_one_is_mod]
    omega
  simp only [vertexVar, shiftRight_double_succ, hp, if_true, color_bit, h0, if_false]

theorem vertexVar_free (c : ILPColoring) (i : Nat) (hp : ¬ c.precolored (i >>> 1) = true) :
    c.vertexVar i = ⟨0, 1, 0, VType.GRB_INTEGER, VarName.v i⟩ := by
  simp only [vertexVar, hp, if_false]
  rfl

/-- The declared variables named `v i` are the declarations of the vertex loop. -/
theorem mem_vars_v (c : ILPColoring) (d : GRBVar) (i : Nat) (hd : d ∈ c.buildModel.vars)
    (hn : d.name = VarName.v i) : d = c.vertexVar i ∧ i < 2 * c.m_graph.num_vertices := by
  rw [buildModel_vars] at hd
  rcases List.mem_append.1 hd with h | h
  · obtain ⟨i', hi', rfl⟩ := List.mem_map.1 h
    rw [vertexVar_name] at hn
    cases hn
    exact ⟨rfl, List.mem_range.1 hi'⟩
  · obtain ⟨j, _, rfl⟩ := List.mem_map.1 h
    simp [edgeVar] at hn

theorem vertexVar_mem (c : ILPColoring) (i : Nat) (hi : i < 2 * c.m_graph.num_vertices) :
    c.vertexVar i ∈ c.buildModel.vars := by
  rw [buildModel_vars]
  exact List.mem_append_left _ (List.mem_map.2 ⟨i, List.mem_range.2 hi, rfl⟩)

theorem bits_of_color (col : Int) (h0 : 0 ≤ col) (h4 : col < 4) :
    2 * ((Int.land (col >>> 1) 1 : Int) : ℚ) + ((Int.land col 1 : Int) : ℚ) = (col : ℚ) ∧
      toInt8 (((Int.land (col >>> 1) 1 : Int) : ℚ) * 2 + ((Int.land col 1 : Int) : ℚ)) = col := by
  have h : col = 0 ∨ col = 1 ∨ col = 2 ∨ col = 3 := by omega
  rcases h with h | h | h | h <;> subst h
  · have a : Int.land ((0 : Int) >>> 1) 1 = 0 := by decide
    have b : Int.land (0 : Int) 1 = 0 := by decide
    rw [a, b]
    norm_num [toInt8, wrap8]
  · have a : Int.land ((1 : Int) >>> 1) 1 = 0 := by decide
    have b : Int.land (1 : Int) 1 = 1 := by decide
    rw [a, b]
    norm_num [toInt8, wrap8]
  · have a : Int.land ((2 : Int) >>> 1) 1 = 1 := by decide
    have b : Int.land (2 : Int) 1 = 0 := by decide
    rw [a, b]
    norm_num [toInt8, wrap8]
  · have a : Int.land ((3 : Int) >>> 1) 1 = 1 := by decide
    have b : Int.land (3 : Int) 1 = 1 := by decide
    rw [a, b]
    norm_num [toInt8, wrap8]

/-- A point within the bounds of the two variables of a pre-coloured vertex decodes
to the preset colour, for a colour count of at most 4. -/
theorem precolored_decode (c : ILPColoring) (s : Nat) (hs : s < c.m_graph.num_vertices)
    (hp : c.precolored s = true) (hk : c.m_color_num ≤ 4) (x : VarName → ℚ)
    (hx : ∀ d ∈ c.buildModel.vars, d.lb ≤ x d.name ∧ x d.name ≤ d.ub) :
    2 * x (VarName.v (2 * s)) + x (VarName.v (2 * s + 1)) = (c.m_vColor s : ℚ) ∧
      decode x (2 * s) = c.m_vColor s := by
  have hf := c.m_graph.vertices_fit
  have h0 := hx _ (vertexVar_mem c (2 * s) (by omega))
  have h1 := hx _ (vertexVar_mem c (2 * s + 1) (by omega))
  rw [vertexVar_even c s hp] at h0
  rw [vertexVar_odd c s hp] at h1
  have e0 : x (VarName.v (2 * s)) = ((Int.land (c.m_vColor s >>> 1) 1 : Int) : ℚ) :=
    le_antisymm h0.2 h0.1
  have e1 : x (VarName.v (2 * s + 1)) = ((Int.land (c.m_vColor s) 1 : Int) : ℚ) :=
    le_antisymm h1.2 h1.1
  have hpc := (precolored_iff c s).1 hp
  have hb := bits_of_color (c.m_vColor s) hpc.1 (by omega)
  have hu : u32 (2 * s + 1) = 2 * s + 1 := u32_of_lt (by omega)
  unfold decode
  rw [hu, e0, e1]
  exact hb

theorem collectStep_error (c : ILPColoring) (x : VarName → ℚ) (v : Nat → Int) (j : Nat)
    (h : c.collectStep x v (2 * j) = Except.error Failure.assertPrecolored) :
    (0 ≤ v j ∧ v j < c.m_color_num) ∧ v j ≠ decode x (2 * j) := by
  unfold collectStep at h
  simp only [shiftRight_double] at h
  by_cases hr : 0 ≤ decode x (2 * j) ∧ decode x (2 * j) < c.m_color_num
  · by_cases hp : 0 ≤ v j ∧ v j < c.m_color_num
    · by_cases he : v j = decode x (2 * j)
      · simp only [hr, hp, he, not_true_eq_false, if_false, if_true, and_self] at h
        cases h
      · exact ⟨hp, he⟩
    · simp only [hr, hp, not_true_eq_false, if_false, and_self] at h
      cases h
  · simp only [hr, not_false_eq_true, if_true] at h
    cases h

theorem foldlM_collect_no_assert (c : ILPColoring) (x : VarName → ℚ) (js : List Nat)
    (hn : js.Nodup) (v : Nat → Int)
    (hv : ∀ j ∈ js, (0 ≤ v j ∧ v j < c.m_color_num) → v j = decode x (2 * j)) :
    (js.map (fun j => 2 * j)).foldlM (c.collectStep x) v
      ≠ Except.error Failure.assertPrecolored := by
  induction js generalizing v with
  | nil => simp [pure, Except.pure]
  | cons j js ih =>
    simp only [List.map_cons, List.foldlM_cons, bind, Except.bind]
    cases hstep : c.collectStep x v (2 * j) with
    | error f =>
      simp only []
      intro hf
      cases hf
      have := collectStep_error c x v j hstep
      exact this.2 (hv j (List.mem_cons_self _ _) this.1)
    | ok v1 =>
      simp only []
      obtain ⟨_, _, h3, _⟩ := collectStep_ok c x v v1 j hstep
      have hnd := List.nodup_cons.1 hn
      apply ih hnd.2
      intro j' hj' hp
      have hne : j' ≠ j := fun h => hnd.1 (h ▸ hj')
      rw [h3 j' hne] at hp ⊢
      exact hv j' (List.mem_cons_of_mem _ hj') hp

/-- With a colour count of at most 4, the assertion on pre-coloured vertices does not
fail at a feasible point. -/
theorem collect_no_assert (c : ILPColoring) (hk : c.m_color_num ≤ 4) (x : VarName → ℚ)
    (hx : c.buildModel.feasible x) :
    c.collect x ≠ Except.error Failure.assertPrecolored := by
  unfold collect
  rw [evenIdxs_eq]
  apply foldlM_collect_no_assert c x _ (List.nodup_range _)
  intro j hj hp
  have hb : ∀ d ∈ c.buildModel.vars, d.lb ≤ x d.name ∧ x d.name ≤ d.ub :=
    fun d hd => ⟨(hx.1 d hd).1, (hx.1 d hd).2.1⟩
  exact ((precolored_decode c j (List.mem_range.1 hj) ((precolored_iff c j).2 hp) hk x hb).2).symm

theorem coloring_ok (c : ILPColoring) (optimize : GRBModel → Option (VarName → ℚ))
    (c' : ILPColoring) (r : ℚ) (h : c.coloring optimize = Except.ok (c', r)) :
    ∃ x, optimize c.buildModel = some x ∧ c.collect x = Except.ok c'.m_vColor ∧
      r = c.buildModel.objVal x := by
  unfold coloring at h
  simp only [] at h
  cases ho : optimize c.buildModel with
  | none => rw [ho] at h; cases h
  | some z =>
    rw [ho] at h
    simp only [] at h
    cases hc : c.collect z with
    | error f => rw [hc] at h; cases h
    | ok col =>
      rw [hc] at h
      simp only [Except.ok.injEq, Prod.mk.injEq] at h
      obtain ⟨h1, h2⟩ := h
      refine ⟨z, rfl, ?_, h2.symm⟩
      rw [← h1]
      exact hc

/-- C4: for a vertex whose preset colour `col` satisfies `0 ≤ col < k` with `k ≤ 4`, the
two bit variables are declared with lower bound = upper bound = `((col >> 1) & 1,
col & 1)`; every point within the bounds decodes the vertex to `col`; the assertion on
pre-coloured vertices does not fail at a feasible point; and the colour of the vertex
after `coloring()` is its preset. -/
theorem precoloring_invariance (c : ILPColoring) (s : Nat)
    (hs : s < c.m_graph.num_vertices)
    (hpre : 0 ≤ c.m_vColor s ∧ c.m_vColor s < c.m_color_num) (hk : c.m_color_num ≤ 4) :
    (∃ d0 ∈ c.buildModel.vars, ∃ d1 ∈ c.buildModel.vars,
        d0.name = VarName.v (2 * s) ∧ d1.name = VarName.v (2 * s + 1)) ∧
      (∀ d ∈ c.buildModel.vars, d.name = VarName.v (2 * s) →
        d.lb = (Int.land (c.m_vColor s >>> 1) 1 : Int) ∧
        d.ub = (Int.land (c.m_vColor s >>> 1) 1 : Int)) ∧
      (∀ d ∈ c.buildModel.vars, d.name = VarName.v (2 * s + 1) →
        d.lb = (Int.land (c.m_vColor s) 1 : Int) ∧ d.ub = (Int.land (c.m_vColor s) 1 : Int)) ∧
      (∀ x : VarName → ℚ, (∀ d ∈ c.buildModel.vars, d.lb ≤ x d.name ∧ x d.name ≤ d.ub) →
        2 * x (VarName.v (2 * s)) + x (VarName.v (2 * s + 1)) = (c.m_vColor s : ℚ) ∧
        decode x (2 * s) = c.m_vColor s) ∧
      (∀ x : VarName → ℚ, c.buildModel.feasible x →
        c.collect x ≠ Except.error Failure.assertPrecolored) ∧
      (∀ (optimize : GRBModel → Option (VarName → ℚ)) (c' : ILPColoring) (r : ℚ),
        c.coloring optimize = Except.ok (c', r) → c'.m_vColor s = c.m_vColor s) := by
  have hp : c.precolored s = true := (precolored_iff c s).2 hpre
  refine ⟨⟨_, vertexVar_mem c (2 * s) (by omega), _, vertexVar_mem c (2 * s + 1) (by omega),
    vertexVar_name c _, vertexVar_name c _⟩, ?_, ?_, ?_, ?_, ?_⟩
  · intro d hd hn
    rw [(mem_vars_v c d _ hd hn).1, vertexVar_even c s hp]
    exact ⟨rfl, rfl⟩
  · intro d hd hn
    rw [(mem_vars_v c d _ hd hn).1, vertexVar_odd c s hp]
    exact ⟨rfl, rfl⟩
  · intro x hx
    exact precolored_decode c s hs hp hk x hx
  · intro x hx
    exact collect_no_assert c hk x hx
  · intro optimize c' r h
    obtain ⟨x, _, hc, _⟩ := coloring_ok c optimize c' r h
    exact (collect_ok c x _ hc s).2.2 hp

/-- Instance of `precoloring_invariance`: vertex 0 pre-coloured with colour 2 among
three colours. -/
theorem precoloring_invariance_witness :
    (∃ d0 ∈ (presetColoring 1 2 3 1).buildModel.vars,
        ∃ d1 ∈ (presetColoring 1 2 3 1).buildModel.vars,
        d0.name = VarName.v (2 * 0) ∧ d1.name = VarName.v (2 * 0 + 1)) ∧
      (∀ d ∈ (presetColoring 1 2 3 1).buildModel.vars, d.name = VarName.v (2 * 0) →
        d.lb = (Int.land ((presetColoring 1 2 3 1).m_vColor 0 >>> 1) 1 : Int) ∧
        d.ub = (Int.land ((presetColoring 1 2 3 1).m_vColor 0 >>> 1) 1 : Int)) ∧
      (∀ d ∈ (presetColoring 1 2 3 1).buildModel.vars, d.name = VarName.v (2 * 0 + 1) →
        d.lb = (Int.land ((presetColoring 1 2 3 1).m_vColor 0) 1 : Int) ∧
        d.ub = (Int.land ((presetColoring 1 2 3 1).m_vColor 0) 1 : Int)) ∧
      (∀ x : VarName → ℚ,
        (∀ d ∈ (presetColoring 1 2 3 1).buildModel.vars, d.lb ≤ x d.name ∧ x d.name ≤ d.ub) →
        2 * x (VarName.v (2 * 0)) + x (VarName.v (2 * 0 + 1))
          = ((presetColoring 1 2 3 1).m_vColor 0 : ℚ) ∧
        decode x (2 * 0) = (presetColoring 1 2 3 1).m_vColor 0) ∧
      (∀ x : VarName → ℚ, (presetColoring 1 2 3 1).buildModel.feasible x →
        (presetColoring 1 2 3 1).collect x ≠ Except.error Failure.assertPrecolored) ∧
      (∀ (optimize : GRBModel → Option (VarName → ℚ)) (c' : ILPColoring) (r : ℚ),
        (presetColoring 1 2 3 1).coloring optimize = Except.ok (c', r) →
        c'.m_vColor 0 = (presetColoring 1 2 3 1).m_vColor 0) :=
  precoloring_invariance (presetColoring 1 2 3 1) 0 (by decide) (by decide) (by decide)

/-! ## The colour domain -/

theorem collectStep_succeeds (c : ILPColoring) (x : VarName → ℚ) (v : Nat → Int) (j : Nat)
    (hr : 0 ≤ decode x (2 * j) ∧ decode x (2 * j) < c.m_color_num)
    (hp : (0 ≤ v j ∧ v j < c.m_color_num) → v j = decode x (2 * j)) :
    ∃ w, c.collectStep x v (2 * j) = Except.ok w := by
  unfold collectStep
  simp only [shiftRight_double]
  by_cases hq : 0 ≤ v j ∧ v j < c.m_color_num
  · exact ⟨v, by simp only [hr, hq, hp hq, not_true_eq_false, if_false, if_true, and_self]⟩
  · exact ⟨Function.update v j (decode x (2 * j)),
      by simp only [hr, hq, not_true_eq_false, if_false, and_self]⟩

theorem foldlM_collect_succeeds (c : ILPColoring) (x : VarName → ℚ) (js : List Nat)
    (hn : js.Nodup) (v : Nat → Int)
    (hr : ∀ j ∈ js, 0 ≤ decode x (2 * j) ∧ decode x (2 * j) < c.m_color_num)
    (hv : ∀ j ∈ js, (0 ≤ v j ∧ v j < c.m_color_num) → v j = decode x (2 * j)) :
    ∃ w, (js.map (fun j => 2 * j)).foldlM (c.collectStep x) v = Except.ok w := by
  induction js generalizing v with
  | nil => exact ⟨v, rfl⟩
  | cons j js ih =>
    simp only [List.map_cons, List.foldlM_cons, bind, Except.bind]
    obtain ⟨v1, hstep⟩ := collectStep_succeeds c x v j (hr j (List.mem_cons_self _ _))
      (hv j (List.mem_cons_self _ _))
    rw [hstep]
    simp only []
    obtain ⟨_, _, h3, _⟩ := collectStep_ok c x v v1 j hstep
    have hnd := List.nodup_cons.1 hn
    apply ih hnd.2 v1 (fun j' hj' => hr j' (List.mem_cons_of_mem _ hj'))
    intro j' hj' hp
    have hne : j' ≠ j := fun h => hnd.1 (h ▸ hj')
    rw [h3 j' hne] at hp ⊢
    exact hv j' (List.mem_cons_of_mem _ hj') hp

/-- The loop that collects the solution runs to its end at a feasible point all of
whose decoded colours are in range, for a colour count of at most 4. -/
theorem collect_succeeds (c : ILPColoring) (hk : c.m_color_num ≤ 4) (x : VarName → ℚ)
    (hx : c.buildModel.feasible x)
    (hr : ∀ s < c.m_graph.num_vertices,
      0 ≤ decode x (2 * s) ∧ decode x (2 * s) < c.m_color_num) :
    ∃ col, c.collect x = Except.ok col := by
  unfold collect
  rw [evenIdxs_eq]
  apply foldlM_collect_succeeds c x _ (List.nodup_range _)
  · intro j hj
    exact hr j (List.mem_range.1 hj)
  · intro j hj hp
    have hb : ∀ d ∈ c.buildModel.vars, d.lb ≤ x d.name ∧ x d.name ≤ d.ub :=
      fun d hd => ⟨(hx.1 d hd).1, (hx.1 d hd).2.1⟩
    exact ((precolored_decode c j (List.mem_range.1 hj) ((precolored_iff c j).2 hp)
      hk x hb).2).symm

theorem decode_of_bits (x : VarName → ℚ) (s : Nat) (hs : s < 2 ^ 31)
    (h0 : isBit (x (VarName.v (2 * s)))) (h1 : isBit (x (VarName.v (2 * s + 1)))) :
    ((decode x (2 * s) : Int) : ℚ) = 2 * x (VarName.v (2 * s)) + x (VarName.v (2 * s + 1)) := by
  have hu : u32 (2 * s + 1) = 2 * s + 1 := u32_of_lt (by omega)
  unfold decode
  rw [hu]
  exact toInt8_bits h0 h1

/-- At a feasible point every vertex decodes to one of the colours 0, 1, 2, 3. -/
theorem decode_range (c : ILPColoring) (x : VarName → ℚ) (hx : c.buildModel.feasible x)
    (s : Nat) (hs : s < c.m_graph.num_vertices) :
    0 ≤ decode x (2 * s) ∧ decode x (2 * s) ≤ 3 := by
  have hf := c.m_graph.vertices_fit
  have h0 := feasible_isBit c x hx (2 * s) (by omega)
  have h1 := feasible_isBit c x hx (2 * s + 1) (by omega)
  have h := decode_of_bits x s (by omega) h0 h1
  unfold isBit at h0 h1
  have hq : (0 : ℚ) ≤ ((decode x (2 * s) : Int) : ℚ) ∧ ((decode x (2 * s) : Int) : ℚ) ≤ 3 := by
    rw [h]
    rcases h0 with h0 | h0 <;> rcases h1 with h1 | h1 <;> rw [h0, h1] <;> norm_num
  exact ⟨by exact_mod_cast hq.1, by exact_mod_cast hq.2⟩

/-- At a feasible point of the model for three colours every vertex decodes to one of
the colours 0, 1, 2. -/
theorem decode_range_three (c : ILPColoring) (hk : c.m_color_num = 3) (x : VarName → ℚ)
    (hx : c.buildModel.feasible x) (s : Nat) (hs : s < c.m_graph.num_vertices) :
    0 ≤ decode x (2 * s) ∧ decode x (2 * s) ≤ 2 := by
  have hf := c.m_graph.vertices_fit
  have h0 := feasible_isBit c x hx (2 * s) (by omega)
  have h1 := feasible_isBit c x hx (2 * s + 1) (by omega)
  have h := decode_of_bits x s (by omega) h0 h1
  have h3 := ((feasible_iff c x).1 hx).2.2.2 hk s hs
  unfold isBit at h0 h1
  have hq : (0 : ℚ) ≤ ((decode x (2 * s) : Int) : ℚ) ∧ ((decode x (2 * s) : Int) : ℚ) ≤ 2 := by
    rw [h]
    rcases h0 with h0 | h0 <;> rcases h1 with h1 | h1 <;> rw [h0, h1] at h3 ⊢ <;>
      norm_num at h3 ⊢
  exact ⟨by exact_mod_cast hq.1, by exact_mod_cast hq.2⟩

theorem hEdgeIdx_pair (w k : Int) (sw : ℚ) :
    (pairColoring w k sw).hEdgeIdx = [(⟨0, 1, w⟩, 0)] := rfl

/-- The point `samplePoint` is feasible for two vertices joined by a conflict edge. -/
theorem samplePoint_feasible (w k : Int) (sw : ℚ) (hw : 0 ≤ w) :
    (pairColoring w k sw).buildModel.feasible samplePoint := by
  rw [feasible_iff]
  refine ⟨?_, ?_, ?_, ?_⟩
  · intro i hi
    have hi4 : i < 4 := hi
    interval_cases i <;>
      simp [vertexVar, precolored, pairColoring, GRBVar.admits, samplePoint]
  · intro j hj
    simp [samplePoint]
  · intro ei hei
    rw [hEdgeIdx_pair] at hei
    simp only [List.mem_singleton] at hei
    subst hei
    simp only [edgeHolds, edgeConstrs, if_pos hw, conflictConstrs_holds]
    norm_num [vertex_idx, hVertexIdx, u32, samplePoint]
  · intro _ s hs
    have hs2 : s < 2 := hs
    interval_cases s <;> norm_num [samplePoint]

/-- C5: every point that satisfies the model built for three colours decodes every
vertex to one of the colours 0, 1, 2, so the assertion on the range of the colour holds
for every vertex and the loop that collects the solution writes colours from 0, 1, 2. -/
theorem color_domain_three (c : ILPColoring) (hk : c.m_color_num = 3) (x : VarName → ℚ)
    (hx : c.buildModel.feasible x) :
    (∀ s < c.m_graph.num_vertices,
        decode x (2 * s) = 0 ∨ decode x (2 * s) = 1 ∨ decode x (2 * s) = 2) ∧
      (∀ s < c.m_graph.num_vertices,
        0 ≤ decode x (2 * s) ∧ decode x (2 * s) < c.m_color_num) ∧
      (∃ col, c.collect x = Except.ok col ∧
        ∀ s < c.m_graph.num_vertices, col s = 0 ∨ col s = 1 ∨ col s = 2) := by
  have hr := decode_range_three c hk x hx
  have hr2 : ∀ s < c.m_graph.num_vertices,
      0 ≤ decode x (2 * s) ∧ decode x (2 * s) < c.m_color_num := by
    intro s hs
    have := hr s hs
    rw [hk]
    omega
  obtain ⟨col, hcol⟩ := collect_succeeds c (by rw [hk]; decide) x hx hr2
  refine ⟨fun s hs => ?_, hr2, col, hcol, fun s hs => ?_⟩
  · have := hr s hs
    omega
  · have h1 := ((collect_ok c x col hcol s).1 hs).2
    rw [hk] at h1
    omega

/-- Instance of `color_domain_three`: two vertices joined by a conflict edge of weight
5 at `samplePoint`. -/
theorem color_domain_three_witness :
    (∀ s < (pairColoring 5 3 1).m_graph.num_vertices,
        decode samplePoint (2 * s) = 0 ∨ decode samplePoint (2 * s) = 1
          ∨ decode samplePoint (2 * s) = 2) ∧
      (∀ s < (pairColoring 5 3 1).m_graph.num_vertices,
        0 ≤ decode samplePoint (2 * s) ∧
          decode samplePoint (2 * s) < (pairColoring 5 3 1).m_color_num) ∧
      (∃ col, (pairColoring 5 3 1).collect samplePoint = Except.ok col ∧
        ∀ s < (pairColoring 5 3 1).m_graph.num_vertices, col s = 0 ∨ col s = 1 ∨ col s = 2) :=
  color_domain_three (pairColoring 5 3 1) rfl samplePoint
    (samplePoint_feasible 5 3 1 (by decide))

theorem objVal_nonneg (c : ILPColoring) (hmin : c.negatable) (hsw : 0 ≤ c.m_stitch_weight)
    (y : VarName → ℚ) (hy : c.buildModel.feasible y) : 0 ≤ c.buildModel.objVal y := by
  rw [objVal_eq]
  apply List.sum_nonneg
  intro t ht
  obtain ⟨ei, hm, rfl⟩ := List.mem_map.1 ht
  exact mul_nonneg (objCoeff_nonneg c hsw ei.1 (hmin _ (mem_indexFrom_fst _ 0 ei hm)))
    (((feasible_iff c y).1 hy).2.1 ei.2 (hEdgeIdx_snd_lt c ei hm)).1

/-- A feasible point of objective value 0 is optimal when the multiplier is not
negative. -/
theorem optimal_of_objVal_zero (c : ILPColoring) (hmin : c.negatable)
    (hsw : 0 ≤ c.m_stitch_weight)
    (x : VarName → ℚ) (hx : c.buildModel.feasible x) (h0 : c.buildModel.objVal x = 0) :
    c.buildModel.optimal x :=
  ⟨hx, fun y hy => h0 ▸ objVal_nonneg c hmin hsw y hy⟩

/-- The point `highPoint` is feasible for two vertices joined by a conflict edge when
the colour count is not 3. -/
theorem highPoint_feasible (w k : Int) (sw : ℚ) (hw : 0 ≤ w) (hk : k ≠ 3) :
    (pairColoring w k sw).buildModel.feasible highPoint := by
  rw [feasible_iff]
  refine ⟨?_, ?_, ?_, ?_⟩
  · intro i hi
    have hi4 : i < 4 := hi
    interval_cases i <;>
      simp [vertexVar, precolored, pairColoring, GRBVar.admits, highPoint]
  · intro j hj
    simp [highPoint]
  · intro ei hei
    rw [hEdgeIdx_pair] at hei
    simp only [List.mem_singleton] at hei
    subst hei
    simp only [edgeHolds, edgeConstrs, if_pos hw, conflictConstrs_holds]
    norm_num [vertex_idx, hVertexIdx, u32, highPoint]
  · intro h3
    exact absurd h3 hk

theorem highPoint_objVal (w k : Int) (sw : ℚ) :
    (pairColoring w k sw).buildModel.objVal highPoint = 0 := by
  rw [objVal_eq, hEdgeIdx_pair]
  simp [highPoint]

theorem highPoint_decode : decode highPoint (2 * 0) = 2 := by
  have h : (Int.floor (2 : ℚ)) = 2 := Int.floor_ofNat 2
  simp [decode, highPoint, u32, toInt8, wrap8, h]

theorem highPoint_collect (w : Int) (sw : ℚ) :
    (pairColoring w 2 sw).collect highPoint = Except.error Failure.assertColorRange := by
  unfold collect
  rw [evenIdxs_eq]
  have hr : List.range (pairColoring w 2 sw).m_graph.num_vertices = [0, 1] := rfl
  rw [hr]
  simp only [List.map_cons, List.map_nil, List.foldlM_cons, bind, Except.bind]
  have h0 : (pairColoring w 2 sw).collectStep highPoint (pairColoring w 2 sw).m_vColor (2 * 0)
      = Except.error Failure.assertColorRange := by
    unfold collectStep
    rw [highPoint_decode]
    simp [pairColoring]
  rw [h0]

/-- C6: for two vertices joined by a conflict edge of weight 1, colour count 2 and no
pre-colouring, `highPoint` is an optimal point of the model built by `coloring()`, it
decodes vertex 0 to colour 2, outside the domain 0, 1 of the claim, and the assertion
`color >= 0 && color < m_color_num` of `coloring()` fails on it. -/
theorem color_domain_two_fails :
    (pairColoring 1 2 1).m_color_num = 2 ∧
      (pairColoring 1 2 1).buildModel.optimal highPoint ∧
      decode highPoint (2 * 0) = 2 ∧
      (pairColoring 1 2 1).collect highPoint = Except.error Failure.assertColorRange :=
  ⟨rfl, optimal_of_objVal_zero _ (by simp [negatable, pairColoring, pairGraph])
      (by norm_num [pairColoring]) _
      (highPoint_feasible 1 2 1 (by decide) (by decide)) (highPoint_objVal 1 2 1),
    highPoint_decode, highPoint_collect 1 1⟩

/-! ## Slacks at an optimal point -/

theorem samplePoint_objVal (w k : Int) (sw : ℚ) :
    (pairColoring w k sw).buildModel.objVal samplePoint = 0 := by
  rw [objVal_eq, hEdgeIdx_pair]
  simp [samplePoint]

theorem samplePoint_not_sameColor (w : Int) : ¬ sameColor samplePoint ⟨0, 1, w⟩ := by
  simp [sameColor, decoded, decode, vertex_idx, hVertexIdx, u32, toInt8, wrap8, samplePoint]

theorem halfPoint_not_sameColor (w : Int) : ¬ sameColor halfPoint ⟨0, 1, w⟩ := by
  simp [sameColor, decoded, decode, vertex_idx, hVertexIdx, u32, toInt8, wrap8, halfPoint]

/-- The point `halfPoint` is feasible for two vertices joined by a conflict edge. -/
theorem halfPoint_feasible (w k : Int) (sw : ℚ) (hw : 0 ≤ w) :
    (pairColoring w k sw).buildModel.feasible halfPoint := by
  rw [feasible_iff]
  refine ⟨?_, ?_, ?_, ?_⟩
  · intro i hi
    have hi4 : i < 4 := hi
    interval_cases i <;>
      simp [vertexVar, precolored, pairColoring, GRBVar.admits, halfPoint]
  · intro j hj
    norm_num [halfPoint]
  · intro ei hei
    rw [hEdgeIdx_pair] at hei
    simp only [List.mem_singleton] at hei
    subst hei
    simp only [edgeHolds, edgeConstrs, if_pos hw, conflictConstrs_holds]
    norm_num [vertex_idx, hVertexIdx, u32, halfPoint]
  · intro _ s hs
    have hs2 : s < 2 := hs
    interval_cases s <;> norm_num [halfPoint]

theorem halfPoint_objVal (k : Int) (sw : ℚ) :
    (pairColoring 0 k sw).buildModel.objVal halfPoint = 0 := by
  rw [objVal_eq, hEdgeIdx_pair]
  simp [objCoeff]

/-- The term that the objective loop adds for an edge, at a point. -/
theorem addObjTerm_eval (c : ILPColoring) (ei : Edge × Nat) (x : VarName → ℚ) :
    (c.addObjTerm (GRBLinExpr.const 0) ei).eval x = c.objCoeff ei.1 * x (VarName.e ei.2) := by
  have h := foldl_addObjTerm c [ei] (GRBLinExpr.const 0) x
  simpa using h

theorem objCoeff_conflict (c : ILPColoring) (ed : Edge) (hw : 0 ≤ ed.weight) :
    c.objCoeff ed = ed.weight := by
  unfold objCoeff
  by_cases h : 0 < ed.weight
  · simp [h]
  · have h0 : ed.weight = 0 := by omega
    simp [h0]

/-- C7, the claim fails: for two vertices joined by a conflict edge of weight 0, three
colours and multiplier 1, `halfPoint` is an optimal point in which the end points of the
edge have different colours and the slack of the edge is `1 / 2`, not 0. -/
theorem conflict_satisfaction_counterexample :
    0 < (pairColoring 0 3 1).m_stitch_weight ∧
      (pairColoring 0 3 1).buildModel.optimal halfPoint ∧
      ((⟨0, 1, 0⟩, 0) : Edge × Nat) ∈ (pairColoring 0 3 1).hEdgeIdx ∧
      (0 : Int) ≤ (⟨0, 1, 0⟩ : Edge).weight ∧
      ¬ sameColor halfPoint ⟨0, 1, 0⟩ ∧
      halfPoint (VarName.e 0) ≠ 0 :=
  ⟨by norm_num [pairColoring],
    optimal_of_objVal_zero _ (by simp [negatable, pairColoring, pairGraph])
      (by norm_num [pairColoring]) _
      (halfPoint_feasible 0 3 1 (by decide)) (halfPoint_objVal 3 1),
    by simp [hEdgeIdx_pair], by decide, halfPoint_not_sameColor 0, by norm_num [halfPoint]⟩

/-- C7, amended: in every optimal point of the model, for every conflict edge: if both
end points decode to the same colour, the slack of the edge is 1 and the term of the
edge in the objective is the weight of the edge; if the colours differ and the weight
is positive, the slack of the edge is 0. -/
theorem conflict_satisfaction (c : ILPColoring) (x : VarName → ℚ)
    (hx : c.buildModel.optimal x) (ei : Edge × Nat) (hm : ei ∈ c.hEdgeIdx)
    (hw : 0 ≤ ei.1.weight) :
    (sameColor x ei.1 → x (VarName.e ei.2) = 1 ∧
        (c.addObjTerm (GRBLinExpr.const 0) ei).eval x = ei.1.weight) ∧
      (¬ sameColor x ei.1 → 0 < ei.1.weight → x (VarName.e ei.2) = 0) := by
  constructor
  · intro hs
    have h1 : x (VarName.e ei.2) = 1 :=
      slack_of_charged c x hx.1 ei hm (by unfold charged; rw [if_pos hw]; exact hs)
    refine ⟨h1, ?_⟩
    rw [addObjTerm_eval, h1, objCoeff_conflict c ei.1 hw, mul_one]
  · intro hs hpos
    apply slack_of_not_charged c x hx ei hm
    · rw [objCoeff_conflict c ei.1 hw]
      exact_mod_cast hpos
    · unfold charged
      rw [if_pos hw]
      exact hs

/-- Instance of `conflict_satisfaction`: two vertices joined by a conflict edge of
weight 5 at `samplePoint`. -/
theorem conflict_satisfaction_witness :
    (sameColor samplePoint (⟨0, 1, 5⟩ : Edge) → samplePoint (VarName.e 0) = 1 ∧
        ((pairColoring 5 3 1).addObjTerm (GRBLinExpr.const 0) (⟨0, 1, 5⟩, 0)).eval samplePoint
          = (5 : Int)) ∧
      (¬ sameColor samplePoint (⟨0, 1, 5⟩ : Edge) → (0 : Int) < 5 →
        samplePoint (VarName.e 0) = 0) :=
  conflict_satisfaction (pairColoring 5 3 1) samplePoint
    (optimal_of_objVal_zero _ (by simp [negatable, pairColoring, pairGraph])
      (by norm_num [pairColoring]) _
      (samplePoint_feasible 5 3 1 (by decide)) (samplePoint_objVal 5 3 1))
    (⟨0, 1, 5⟩, 0) (by simp [hEdgeIdx_pair]) (by decide)

/-- The point `zeroPoint` is feasible for two vertices joined by a stitch edge. -/
theorem zeroPoint_feasible (w k : Int) (sw : ℚ) (hw : w < 0) :
    (pairColoring w k sw).buildModel.feasible zeroPoint := by
  rw [feasible_iff]
  refine ⟨?_, ?_, ?_, ?_⟩
  · intro i hi
    have hi4 : i < 4 := hi
    interval_cases i <;>
      simp [vertexVar, precolored, pairColoring, GRBVar.admits, zeroPoint]
  · intro j hj
    simp [zeroPoint]
  · intro ei hei
    rw [hEdgeIdx_pair] at hei
    simp only [List.mem_singleton] at hei
    subst hei
    simp only [edgeHolds, edgeConstrs, if_neg (not_le.2 hw), stitchConstrs_holds]
    norm_num [zeroPoint]
  · intro _ s hs
    norm_num [zeroPoint]

theorem zeroPoint_objVal (w k : Int) (sw : ℚ) :
    (pairColoring w k sw).buildModel.objVal zeroPoint = 0 := by
  rw [objVal_eq, hEdgeIdx_pair]
  simp [zeroPoint]

theorem zeroPoint_sameColor (ed : Edge) : sameColor zeroPoint ed := by
  simp [sameColor, decoded, decode, zeroPoint]

theorem objCoeff_stitch_pos (c : ILPColoring) (hsw : 0 < c.m_stitch_weight) (ed : Edge)
    (hmin : -2147483648 < ed.weight) (hw : ed.weight < 0) : 0 < c.objCoeff ed := by
  unfold objCoeff
  have h1 : ¬ 0 < ed.weight := by omega
  rw [if_neg h1, if_pos hw, neg32_of_gt hmin hw]
  apply mul_pos hsw
  have : (0 : Int) < -ed.weight := by omega
  exact_mod_cast this

/-- For a stitch edge whose weight is not -2147483648: in every optimal point of the
model with a positive multiplier, the slack of the edge is 1 exactly when its end points
decode to different colours and 0 exactly when they decode to the same colour; and two
uncoloured vertices joined by one stitch edge of weight -2 with multiplier 1 have optimal
objective 0, attained by a point that gives both the same colour. -/
theorem stitch_of_negatable (c : ILPColoring) (hsw : 0 < c.m_stitch_weight)
    (x : VarName → ℚ) (hx : c.buildModel.optimal x) (ei : Edge × Nat)
    (hm : ei ∈ c.hEdgeIdx) (hmin : -2147483648 < ei.1.weight) (hw : ei.1.weight < 0) :
    (x (VarName.e ei.2) = 1 ↔ ¬ sameColor x ei.1) ∧
      (x (VarName.e ei.2) = 0 ↔ sameColor x ei.1) ∧
      (∀ k : Int,
        (∃ z, (pairColoring (-2) k 1).buildModel.optimal z ∧ sameColor z ⟨0, 1, -2⟩ ∧
          (pairColoring (-2) k 1).buildModel.objVal z = 0) ∧
        (∀ z, (pairColoring (-2) k 1).buildModel.optimal z →
          (pairColoring (-2) k 1).buildModel.objVal z = 0)) := by
  have hch : charged x ei.1 ↔ ¬ sameColor x ei.1 := by
    unfold charged
    rw [if_neg (not_le.2 hw)]
  have h1 : ¬ sameColor x ei.1 → x (VarName.e ei.2) = 1 :=
    fun h => slack_of_charged c x hx.1 ei hm (hch.2 h)
  have h0 : sameColor x ei.1 → x (VarName.e ei.2) = 0 :=
    fun h => slack_of_not_charged c x hx ei hm (objCoeff_stitch_pos c hsw ei.1 hmin hw)
      (fun hc => hch.1 hc h)
  refine ⟨⟨fun h => ?_, h1⟩, ⟨fun h => ?_, h0⟩, fun k => ?_⟩
  · intro hs
    have := h0 hs
    rw [h] at this
    exact one_ne_zero this
  · by_contra hs
    have := h1 hs
    rw [h] at this
    exact zero_ne_one this
  · have hopt : (pairColoring (-2) k 1).buildModel.optimal zeroPoint :=
      optimal_of_objVal_zero _ (by simp [negatable, pairColoring, pairGraph])
      (by norm_num [pairColoring]) _
        (zeroPoint_feasible (-2) k 1 (by decide)) (zeroPoint_objVal (-2) k 1)
    refine ⟨⟨zeroPoint, hopt, zeroPoint_sameColor _, zeroPoint_objVal (-2) k 1⟩, fun z hz => ?_⟩
    apply le_antisymm
    · have := hz.2 zeroPoint hopt.1
      rwa [zeroPoint_objVal] at this
    · exact objVal_nonneg _ (by simp [negatable, pairColoring, pairGraph])
        (by norm_num [pairColoring]) z hz.1

/-- Instance of `stitch_of_negatable`: two vertices joined by a stitch edge of weight -2,
multiplier 1, at `zeroPoint`. -/
theorem stitch_of_negatable_instance :
    (zeroPoint (VarName.e 0) = 1 ↔ ¬ sameColor zeroPoint (⟨0, 1, -2⟩ : Edge)) ∧
      (zeroPoint (VarName.e 0) = 0 ↔ sameColor zeroPoint (⟨0, 1, -2⟩ : Edge)) ∧
      (∀ k : Int,
        (∃ z, (pairColoring (-2) k 1).buildModel.optimal z ∧ sameColor z ⟨0, 1, -2⟩ ∧
          (pairColoring (-2) k 1).buildModel.objVal z = 0) ∧
        (∀ z, (pairColoring (-2) k 1).buildModel.optimal z →
          (pairColoring (-2) k 1).buildModel.objVal z = 0)) :=
  stitch_of_negatable (pairColoring (-2) 2 1) (by norm_num [pairColoring]) zeroPoint
    (optimal_of_objVal_zero _ (by simp [negatable, pairColoring, pairGraph])
      (by norm_num [pairColoring]) _
      (zeroPoint_feasible (-2) 2 1 (by decide)) (zeroPoint_objVal (-2) 2 1))
    (⟨0, 1, -2⟩, 0) (by simp [hEdgeIdx_pair]) (by decide) (by decide)

/-! ## Continuous and binary slacks -/

theorem binarySlackModel_objVal (c : ILPColoring) (x : VarName → ℚ) :
    c.binarySlackModel.objVal x = c.buildModel.objVal x := rfl

/-- The model with binary slacks is the model of `coloring()` with each slack 0 or 1. -/
theorem binarySlackModel_feasible (c : ILPColoring) (x : VarName → ℚ) :
    c.binarySlackModel.feasible x ↔
      (c.buildModel.feasible x ∧ ∀ j < c.m_graph.edges.length, isBit (x (VarName.e j))) := by
  unfold GRBModel.feasible binarySlackModel
  simp only [List.mem_map, forall_exists_index, and_imp, forall_apply_eq_imp_iff₂]
  constructor
  · rintro ⟨hv, hc⟩
    refine ⟨⟨fun d hd => ?_, hc⟩, fun j hj => ?_⟩
    · have := hv d hd
      cases hn : d.name with
      | v i =>
        rw [hn] at this
        exact this
      | e j =>
        rw [hn] at this
        simp only [GRBVar.admits] at this ⊢
        rw [hn]
        rw [buildModel_vars] at hd
        rcases List.mem_append.1 hd with h | h
        · obtain ⟨i, _, rfl⟩ := List.mem_map.1 h
          rw [vertexVar_name] at hn
          cases hn
        · obtain ⟨j', _, rfl⟩ := List.mem_map.1 h
          simp only [edgeVar] at hn this ⊢
          cases hn
          exact ⟨this.1, this.2.1, fun h => by cases h⟩
    · have hmem : edgeVar j ∈ c.buildModel.vars := by
        rw [buildModel_vars]
        exact List.mem_append_right _ (List.mem_map.2 ⟨j, List.mem_range.2 hj, rfl⟩)
      have := hv _ hmem
      simp only [edgeVar, GRBVar.admits] at this
      exact isBit_of_int this.1 this.2.1 (this.2.2 trivial)
  · rintro ⟨⟨hv, hc⟩, hb⟩
    refine ⟨fun d hd => ?_, hc⟩
    have hadm := hv d hd
    cases hn : d.name with
    | v i => exact hadm
    | e j =>
      rw [buildModel_vars] at hd
      rcases List.mem_append.1 hd with h | h
      · obtain ⟨i, _, rfl⟩ := List.mem_map.1 h
        rw [vertexVar_name] at hn
        cases hn
      · obtain ⟨j', hj', rfl⟩ := List.mem_map.1 h
        simp only [edgeVar] at hn
        cases hn
        have hbit := hb j (List.mem_range.1 hj')
        simp only [edgeVar, GRBVar.admits] at hadm ⊢
        refine ⟨hadm.1, hadm.2.1, fun _ => ?_⟩
        rcases hbit with h0 | h1
        · rw [h0]; rfl
        · rw [h1]; rfl

theorem roundSlack_v (c : ILPColoring) (x : VarName → ℚ) (i : Nat) :
    c.roundSlack x (VarName.v i) = x (VarName.v i) := rfl

/-- Moving the slacks of a feasible point to the ends of `[0, 1]` gives a feasible point
with the same vertex bits, slacks 0 or 1, and an objective value that is not larger. -/
theorem roundSlack_spec (c : ILPColoring) (x : VarName → ℚ) (hx : c.buildModel.feasible x) :
    c.binarySlackModel.feasible (c.roundSlack x) ∧
      c.buildModel.objVal (c.roundSlack x) ≤ c.buildModel.objVal x := by
  have hf := (feasible_iff c x).1 hx
  refine ⟨(binarySlackModel_feasible c _).2 ⟨?_, ?_⟩, ?_⟩
  · apply feasible_withSlack c x _ hf.1 hf.2.2.2
    intro ei hm
    dsimp only
    split
    · simp
    · split
      · rename_i h1
        refine ⟨le_refl 0, zero_le_one, fun hc => ?_⟩
        have := slack_of_charged c x hx ei hm hc
        rw [this] at h1
        exact absurd h1 (lt_irrefl 1)
      · simp
  · intro j _
    show isBit (c.withSlack x _ (VarName.e j))
    simp only [withSlack]
    cases c.edgeAt j with
    | none => exact Or.inl rfl
    | some ed =>
      dsimp only
      split
      · exact Or.inr rfl
      · split
        · exact Or.inl rfl
        · exact Or.inr rfl
  · unfold roundSlack
    rw [objVal_withSlack, objVal_eq]
    apply List.sum_le_sum
    intro ei hm
    have hs := hf.2.1 ei.2 (hEdgeIdx_snd_lt c ei hm)
    split
    · rename_i hneg
      rw [mul_one]
      nlinarith [hs.2]
    · rename_i hnn
      have hnn' : 0 ≤ c.objCoeff ei.1 := not_lt.1 hnn
      split
      · rw [mul_zero]
        exact mul_nonneg hnn' hs.1
      · rename_i h1
        have : x (VarName.e ei.2) = 1 := le_antisymm hs.2 (not_lt.1 h1)
        rw [this]

theorem feasible_of_binary (c : ILPColoring) (y : VarName → ℚ)
    (hy : c.binarySlackModel.feasible y) : c.buildModel.feasible y :=
  ((binarySlackModel_feasible c y).1 hy).1

/-- An optimal point of the model with binary slacks is optimal for the model of
`coloring()`. -/
theorem optimal_of_binary (c : ILPColoring) (y : VarName → ℚ)
    (hy : c.binarySlackModel.optimal y) : c.buildModel.optimal y := by
  refine ⟨feasible_of_binary c y hy.1, fun x hx => ?_⟩
  have hr := roundSlack_spec c x hx
  have := hy.2 _ hr.1
  rw [binarySlackModel_objVal, binarySlackModel_objVal] at this
  exact le_trans this hr.2

/-- Moving the slacks of an optimal point of the model of `coloring()` to the ends of
`[0, 1]` gives an optimal point of the model with binary slacks, of the same value. -/
theorem optimal_roundSlack (c : ILPColoring) (x : VarName → ℚ)
    (hx : c.buildModel.optimal x) :
    c.binarySlackModel.optimal (c.roundSlack x) ∧
      c.buildModel.objVal (c.roundSlack x) = c.buildModel.objVal x := by
  have hr := roundSlack_spec c x hx.1
  have heq : c.buildModel.objVal (c.roundSlack x) = c.buildModel.objVal x :=
    le_antisymm hr.2 (hx.2 _ (feasible_of_binary c _ hr.1))
  refine ⟨⟨hr.1, fun y hy => ?_⟩, heq⟩
  rw [binarySlackModel_objVal, binarySlackModel_objVal, heq]
  exact hx.2 y (feasible_of_binary c y hy)

theorem decode_roundSlack (c : ILPColoring) (x : VarName → ℚ) (k : Nat) :
    decode (c.roundSlack x) k = decode x k := rfl

/-- C9: the minimum objective of the model built by `coloring()`, with slacks
continuous in `[0, 1]`, is the minimum objective of the same model with every slack
restricted to `{0, 1}`; and a vertex colouring is the colouring of an optimal point of
one model if and only if it is the colouring of an optimal point of the other. -/
theorem slack_relaxation_exact (c : ILPColoring) :
    (∀ r : ℚ,
      IsLeast {v | ∃ x, c.buildModel.feasible x ∧ c.buildModel.objVal x = v} r ↔
        IsLeast {v | ∃ x, c.binarySlackModel.feasible x ∧ c.binarySlackModel.objVal x = v} r) ∧
      (∀ col : Nat → Int,
        (∃ x, c.buildModel.optimal x ∧
            ∀ s < c.m_graph.num_vertices, decode x (2 * s) = col s) ↔
          (∃ x, c.binarySlackModel.optimal x ∧
            ∀ s < c.m_graph.num_vertices, decode x (2 * s) = col s)) := by
  constructor
  · intro r
    constructor
    · rintro ⟨⟨x, hx, rfl⟩, hlb⟩
      have hopt : c.buildModel.optimal x := ⟨hx, fun y hy => hlb ⟨y, hy, rfl⟩⟩
      have hr := optimal_roundSlack c x hopt
      refine ⟨⟨c.roundSlack x, hr.1.1, hr.2⟩, ?_⟩
      rintro v ⟨y, hy, rfl⟩
      exact hlb ⟨y, feasible_of_binary c y hy, rfl⟩
    · rintro ⟨⟨y, hy, rfl⟩, hlb⟩
      have hopt : c.binarySlackModel.optimal y := ⟨hy, fun z hz => hlb ⟨z, hz, rfl⟩⟩
      have hc := optimal_of_binary c y hopt
      refine ⟨⟨y, hc.1, rfl⟩, ?_⟩
      rintro v ⟨z, hz, rfl⟩
      exact hc.2 z hz
  · intro col
    constructor
    · rintro ⟨x, hx, hcol⟩
      exact ⟨c.roundSlack x, (optimal_roundSlack c x hx).1, hcol⟩
    · rintro ⟨y, hy, hcol⟩
      exact ⟨y, optimal_of_binary c y hy, hcol⟩

/-! ## The infeasible branch -/

theorem collectStep_ne_infeasible (c : ILPColoring) (x : VarName → ℚ) (v : Nat → Int)
    (k : Nat) : c.collectStep x v k ≠ Except.error Failure.infeasibleExit := by
  unfold collectStep
  simp only []
  split
  · intro h; cases h
  · split
    · split
      · intro h; cases h
      · intro h; cases h
    · intro h; cases h

theorem foldlM_collect_ne_infeasible (c : ILPColoring) (x : VarName → ℚ) (ks : List Nat)
    (v : Nat → Int) :
    ks.foldlM (c.collectStep x) v ≠ Except.error Failure.infeasibleExit := by
  induction ks generalizing v with
  | nil => intro h; cases h
  | cons k ks ih =>
    simp only [List.foldlM_cons, bind, Except.bind]
    cases hstep : c.collectStep x v k with
    | error f =>
      simp only []
      intro h
      cases h
      exact collectStep_ne_infeasible c x v k hstep
    | ok v1 => exact ih v1

/-- The function `coloring()` takes the infeasible branch exactly when the solver
reports the model as infeasible. -/
theorem coloring_infeasibleExit_iff (c : ILPColoring)
    (optimize : GRBModel → Option (VarName → ℚ)) :
    c.coloring optimize = Except.error Failure.infeasibleExit ↔
      optimize c.buildModel = none := by
  unfold coloring
  simp only []
  cases ho : optimize c.buildModel with
  | none => simp
  | some z =>
    simp only []
    cases hc : c.collect z with
    | error f =>
      simp only [Except.error.injEq, reduceCtorEq, iff_false]
      intro hf
      rw [hf] at hc
      exact foldlM_collect_ne_infeasible c z _ _ hc
    | ok col => simp

theorem hEdgeIdx_triangle (k : Int) (sw : ℚ) :
    (triangleColoring k sw).hEdgeIdx = [(⟨0, 1, 1⟩, 0), (⟨1, 2, 1⟩, 1), (⟨0, 2, 1⟩, 2)] := by
  simp [hEdgeIdx, indexFrom, u32, triangleColoring, triangleGraph]

/-- The point `triPoint` is feasible for the triangle, whatever the colour count. -/
theorem triPoint_feasible (k : Int) (sw : ℚ) :
    (triangleColoring k sw).buildModel.feasible triPoint := by
  rw [feasible_iff]
  refine ⟨?_, ?_, ?_, ?_⟩
  · intro i hi
    have hi6 : i < 6 := hi
    interval_cases i <;>
      simp [vertexVar, precolored, triangleColoring, GRBVar.admits, triPoint]
  · intro j hj
    simp [triPoint]
  · intro ei hei
    rw [hEdgeIdx_triangle] at hei
    simp only [List.mem_cons, List.mem_singleton, List.not_mem_nil, or_false] at hei
    have hw : (0 : Int) ≤ 1 := by decide
    have h0 : vertex_idx 0 = 0 := by decide
    have h1 : vertex_idx 1 = 2 := by decide
    have h2 : vertex_idx 2 = 4 := by decide
    rcases hei with rfl | rfl | rfl <;>
      simp only [edgeHolds, edgeConstrs, if_pos hw, h0, h1, h2, conflictConstrs_holds] <;>
      norm_num [u32, triPoint]
  · intro _ s hs
    have hs3 : s < 3 := hs
    interval_cases s <;> norm_num [triPoint]

theorem triPoint_objVal (k : Int) (sw : ℚ) :
    (triangleColoring k sw).buildModel.objVal triPoint = 0 := by
  rw [objVal_eq, hEdgeIdx_triangle]
  simp [triPoint]

/-- Without stitch edges the objective value of a feasible point is not negative. -/
theorem objVal_nonneg_of_conflict (c : ILPColoring)
    (hall : ∀ ed ∈ c.m_graph.edges, 0 ≤ ed.weight) (y : VarName → ℚ)
    (hy : c.buildModel.feasible y) : 0 ≤ c.buildModel.objVal y := by
  rw [objVal_eq]
  apply List.sum_nonneg
  intro t ht
  obtain ⟨ei, hm, rfl⟩ := List.mem_map.1 ht
  have hw := hall _ (mem_indexFrom_fst _ 0 ei hm)
  rw [objCoeff_conflict c ei.1 hw]
  exact mul_nonneg (by exact_mod_cast hw)
    (((feasible_iff c y).1 hy).2.1 ei.2 (hEdgeIdx_snd_lt c ei hm)).1

theorem triangle_weights (k : Int) (sw : ℚ) :
    ∀ ed ∈ (triangleColoring k sw).m_graph.edges, 0 ≤ ed.weight := by
  intro ed hed
  simp only [triangleColoring, triangleGraph, List.mem_cons, List.mem_singleton,
    List.not_mem_nil, or_false] at hed
  rcases hed with rfl | rfl | rfl <;> decide

theorem triPoint_optimal (k : Int) (sw : ℚ) :
    (triangleColoring k sw).buildModel.optimal triPoint :=
  ⟨triPoint_feasible k sw, fun y hy => by
    rw [triPoint_objVal]
    exact objVal_nonneg_of_conflict _ (triangle_weights k sw) y hy⟩

theorem triangle_objVal (k : Int) (sw : ℚ) (x : VarName → ℚ) :
    (triangleColoring k sw).buildModel.objVal x
      = x (VarName.e 0) + x (VarName.e 1) + x (VarName.e 2) := by
  rw [objVal_eq, hEdgeIdx_triangle]
  simp [objCoeff]
  ring

/-- C11: the model built for the triangle with three colours is feasible, its minimum
objective is 0, and every optimal point decodes the three vertices to three pairwise
distinct colours among 0, 1, 2. -/
theorem triangle_three (sw : ℚ) :
    (triangleColoring 3 sw).buildModel.feasible triPoint ∧
      IsLeast {v | ∃ x, (triangleColoring 3 sw).buildModel.feasible x ∧
        (triangleColoring 3 sw).buildModel.objVal x = v} 0 ∧
      (∀ x, (triangleColoring 3 sw).buildModel.optimal x →
        (decode x (2 * 0) ≠ decode x (2 * 1) ∧ decode x (2 * 1) ≠ decode x (2 * 2) ∧
          decode x (2 * 0) ≠ decode x (2 * 2)) ∧
        (∀ s < 3, decode x (2 * s) = 0 ∨ decode x (2 * s) = 1 ∨ decode x (2 * s) = 2)) := by
  have hopt := triPoint_optimal 3 sw
  refine ⟨hopt.1, ⟨⟨triPoint, hopt.1, triPoint_objVal 3 sw⟩, ?_⟩, ?_⟩
  · rintro v ⟨y, hy, rfl⟩
    exact objVal_nonneg_of_conflict _ (triangle_weights 3 sw) y hy
  · intro x hx
    have hf := (feasible_iff _ x).1 hx.1
    have h0 : (triangleColoring 3 sw).buildModel.objVal x = 0 := by
      apply le_antisymm
      · have := hx.2 _ hopt.1
        rwa [triPoint_objVal] at this
      · exact objVal_nonneg_of_conflict _ (triangle_weights 3 sw) x hx.1
    rw [triangle_objVal] at h0
    have e0 := (hf.2.1 0 (by simp [triangleColoring, triangleGraph])).1
    have e1 := (hf.2.1 1 (by simp [triangleColoring, triangleGraph])).1
    have e2 := (hf.2.1 2 (by simp [triangleColoring, triangleGraph])).1
    have hmem : ∀ ei ∈ [((⟨0, 1, 1⟩ : Edge), 0), (⟨1, 2, 1⟩, 1), (⟨0, 2, 1⟩, 2)],
        ei ∈ (triangleColoring 3 sw).hEdgeIdx := by
      intro ei h
      rw [hEdgeIdx_triangle]
      exact h
    have key : ∀ ei ∈ [((⟨0, 1, 1⟩ : Edge), 0), (⟨1, 2, 1⟩, 1), (⟨0, 2, 1⟩, 2)],
        x (VarName.e ei.2) = 0 → ¬ sameColor x ei.1 := by
      intro ei h hz hs
      have hw : 0 ≤ ei.1.weight := by
        simp only [List.mem_cons, List.mem_singleton, List.not_mem_nil, or_false] at h
        rcases h with rfl | rfl | rfl <;> decide
      have := slack_of_charged _ x hx.1 ei (hmem ei h) (by unfold charged; rw [if_pos hw]; exact hs)
      rw [hz] at this
      exact zero_ne_one this
    have k0 := key (⟨0, 1, 1⟩, 0) (by simp) (by show x (VarName.e 0) = 0; linarith)
    have k1 := key (⟨1, 2, 1⟩, 1) (by simp) (by show x (VarName.e 1) = 0; linarith)
    have k2 := key (⟨0, 2, 1⟩, 2) (by simp) (by show x (VarName.e 2) = 0; linarith)
    refine ⟨⟨k0, k1, k2⟩, fun s hs => ?_⟩
    have := decode_range_three _ rfl x hx.1 s hs
    omega

theorem hEdgeIdx_cycle (k : Int) (sw : ℚ) :
    (cycleColoring k sw).hEdgeIdx
      = [(⟨0, 1, 1⟩, 0), (⟨1, 2, 1⟩, 1), (⟨2, 3, 1⟩, 2), (⟨3, 0, 1⟩, 3)] := by
  simp [hEdgeIdx, indexFrom, u32, cycleColoring, cycleGraph]

theorem cycle_weights (k : Int) (sw : ℚ) :
    ∀ ed ∈ (cycleColoring k sw).m_graph.edges, 0 ≤ ed.weight := by
  intro ed hed
  simp only [cycleColoring, cycleGraph, List.mem_cons, List.mem_singleton,
    List.not_mem_nil, or_false] at hed
  rcases hed with rfl | rfl | rfl | rfl <;> decide

/-- The point `cyclePoint` is feasible for the 4-cycle, whatever the colour count. -/
theorem cyclePoint_feasible (k : Int) (sw : ℚ) :
    (cycleColoring k sw).buildModel.feasible cyclePoint := by
  rw [feasible_iff]
  refine ⟨?_, ?_, ?_, ?_⟩
  · intro i hi
    have hi8 : i < 8 := hi
    interval_cases i <;>
      simp [vertexVar, precolored, cycleColoring, GRBVar.admits, cyclePoint]
  · intro j hj
    simp [cyclePoint]
  · intro ei hei
    rw [hEdgeIdx_cycle] at hei
    simp only [List.mem_cons, List.mem_singleton, List.not_mem_nil, or_false] at hei
    have hw : (0 : Int) ≤ 1 := by decide
    have h0 : vertex_idx 0 = 0 := by decide
    have h1 : vertex_idx 1 = 2 := by decide
    have h2 : vertex_idx 2 = 4 := by decide
    have h3 : vertex_idx 3 = 6 := by decide
    rcases hei with rfl | rfl | rfl | rfl <;>
      simp only [edgeHolds, edgeConstrs, if_pos hw, h0, h1, h2, h3, conflictConstrs_holds] <;>
      norm_num [u32, cyclePoint]
  · intro _ s hs
    have hs4 : s < 4 := hs
    interval_cases s <;> norm_num [cyclePoint]

theorem cyclePoint_objVal (k : Int) (sw : ℚ) :
    (cycleColoring k sw).buildModel.objVal cyclePoint = 0 := by
  rw [objVal_eq, hEdgeIdx_cycle]
  simp [cyclePoint]

theorem cyclePoint_decode :
    decode cyclePoint (2 * 0) = 0 ∧ decode cyclePoint (2 * 1) = 1 ∧
      decode cyclePoint (2 * 2) = 0 ∧ decode cyclePoint (2 * 3) = 1 := by
  refine ⟨?_, ?_, ?_, ?_⟩ <;> simp [decode, cyclePoint, u32, toInt8, wrap8]

/-- C12: for the 4-cycle of conflict edges of weight 1 with colour count 2 and no
pre-colouring, the minimum objective of the model is 0, and the point with the colours
0, 1, 0, 1 around the cycle and every slack 0 is a feasible point that attains it. -/
theorem cycle_two (sw : ℚ) :
    IsLeast {v | ∃ x, (cycleColoring 2 sw).buildModel.feasible x ∧
        (cycleColoring 2 sw).buildModel.objVal x = v} 0 ∧
      (cycleColoring 2 sw).buildModel.feasible cyclePoint ∧
      (cycleColoring 2 sw).buildModel.objVal cyclePoint = 0 ∧
      (decode cyclePoint (2 * 0) = 0 ∧ decode cyclePoint (2 * 1) = 1 ∧
        decode cyclePoint (2 * 2) = 0 ∧ decode cyclePoint (2 * 3) = 1) ∧
      (∀ j < 4, cyclePoint (VarName.e j) = 0) := by
  refine ⟨⟨⟨cyclePoint, cyclePoint_feasible 2 sw, cyclePoint_objVal 2 sw⟩, ?_⟩,
    cyclePoint_feasible 2 sw, cyclePoint_objVal 2 sw, cyclePoint_decode, fun j _ => rfl⟩
  rintro v ⟨y, hy, rfl⟩
  exact objVal_nonneg_of_conflict _ (cycle_weights 2 sw) y hy

/-! ## The variables of the model -/

theorem vertexVar_vtype (c : ILPColoring) (i : Nat) :
    (c.vertexVar i).vtype = VType.GRB_INTEGER := by
  unfold vertexVar
  split <;> rfl

theorem vertexVar_bounds (c : ILPColoring) (i : Nat) :
    (c.precolored (i / 2) = false → (c.vertexVar i).lb = 0 ∧ (c.vertexVar i).ub = 1) ∧
      (c.precolored (i / 2) = true →
        (c.vertexVar i).lb = (color_bit (c.m_vColor (i / 2)) i : Int) ∧
        (c.vertexVar i).ub = (color_bit (c.m_vColor (i / 2)) i : Int)) := by
  have hi : i >>> 1 = i / 2 := by
    rw [Nat.shiftRight_eq_div_pow, pow_one]
  unfold vertexVar
  rw [hi]
  constructor
  · intro hp
    simp [hp]
  · intro hp
    simp [hp]

/-- C13: the model has exactly `2 * |V|` integer variables followed by exactly `|E|`
continuous variables; variable `i < 2 * |V|` is named `v i` and belongs to vertex
`i / 2` (variables `2 s` and `2 s + 1` are the two bits of vertex `s`); the bits of a
vertex that is not pre-coloured have the bounds `[0, 1]`, the bits of a pre-coloured
vertex have lower bound = upper bound = the bit of the preset; the slack of edge `j`
is the continuous variable `e j` with bounds `[0, 1]`. -/
theorem variable_encoder (c : ILPColoring) :
    c.buildModel.vars.length = 2 * c.m_graph.num_vertices + c.m_graph.edges.length ∧
      c.buildModel.vars.countP (fun d => d.vtype = VType.GRB_INTEGER)
        = 2 * c.m_graph.num_vertices ∧
      c.buildModel.vars.countP (fun d => d.vtype = VType.GRB_CONTINUOUS)
        = c.m_graph.edges.length ∧
      (∀ i < 2 * c.m_graph.num_vertices, ∃ d, c.buildModel.vars[i]? = some d ∧
        d.name = VarName.v i ∧ d.vtype = VType.GRB_INTEGER ∧
        (c.precolored (i / 2) = false → d.lb = 0 ∧ d.ub = 1) ∧
        (c.precolored (i / 2) = true →
          d.lb = (color_bit (c.m_vColor (i / 2)) i : Int) ∧
          d.ub = (color_bit (c.m_vColor (i / 2)) i : Int))) ∧
      (∀ j < c.m_graph.edges.length,
        c.buildModel.vars[2 * c.m_graph.num_vertices + j]?
          = some ⟨0, 1, 0, VType.GRB_CONTINUOUS, VarName.e j⟩) := by
  rw [buildModel_vars]
  refine ⟨by simp, ?_, ?_, ?_, ?_⟩
  · rw [List.countP_append, List.countP_map, List.countP_map]
    have h1 : List.countP ((fun d => decide (d.vtype = VType.GRB_INTEGER)) ∘ c.vertexVar)
        (List.range (2 * c.m_graph.num_vertices)) = 2 * c.m_graph.num_vertices := by
      rw [List.countP_eq_length.2]
      · simp
      · intro i _
        simp [vertexVar_vtype]
    have h2 : List.countP ((fun d => decide (d.vtype = VType.GRB_INTEGER)) ∘ edgeVar)
        (List.range c.m_graph.edges.length) = 0 := by
      rw [List.countP_eq_zero]
      intro j _
      simp [edgeVar]
    rw [h1, h2]
    rfl
  · rw [List.countP_append, List.countP_map, List.countP_map]
    have h1 : List.countP ((fun d => decide (d.vtype = VType.GRB_CONTINUOUS)) ∘ c.vertexVar)
        (List.range (2 * c.m_graph.num_vertices)) = 0 := by
      rw [List.countP_eq_zero]
      intro i _
      simp [vertexVar_vtype]
    have h2 : List.countP ((fun d => decide (d.vtype = VType.GRB_CONTINUOUS)) ∘ edgeVar)
        (List.range c.m_graph.edges.length) = c.m_graph.edges.length := by
      rw [List.countP_eq_length.2]
      · simp
      · intro j _
        simp [edgeVar]
    rw [h1, h2]
    simp
  · intro i hi
    refine ⟨c.vertexVar i, ?_, vertexVar_name c i, vertexVar_vtype c i, vertexVar_bounds c i⟩
    rw [List.getElem?_append_left (by simpa using hi)]
    simp [hi]
  · intro j hj
    rw [List.getElem?_append_right (by simp)]
    simp [hj, edgeVar]

/-! ## The objective of the model -/

theorem coeffOf_add (a b : GRBLinExpr) (n : VarName) :
    coeffOf (a + b) n = coeffOf a n + coeffOf b n := by
  show coeffOf (GRBLinExpr.add a b) n = _
  simp [coeffOf, GRBLinExpr.add, List.filter_append]

theorem coeffOf_smul_vEdgeBit (q : ℚ) (j : Nat) (n : VarName) :
    coeffOf (GRBLinExpr.smul q (vEdgeBit j)) n = if VarName.e j = n then q else 0 := by
  by_cases h : VarName.e j = n
  · simp [coeffOf, GRBLinExpr.smul, vEdgeBit, GRBLinExpr.var, List.filter, h]
  · simp [coeffOf, GRBLinExpr.smul, vEdgeBit, GRBLinExpr.var, List.filter, h]

theorem coeffOf_foldl_addObjTerm (c : ILPColoring) (l : List (Edge × Nat)) (obj : GRBLinExpr)
    (n : VarName) :
    coeffOf (l.foldl c.addObjTerm obj) n
      = coeffOf obj n
        + (l.map (fun ei => if VarName.e ei.2 = n then c.objCoeff ei.1 else 0)).sum := by
  induction l generalizing obj with
  | nil => simp
  | cons ei l ih =>
    rw [List.foldl_cons, ih]
    simp only [addObjTerm, objCoeff, List.map_cons, List.sum_cons]
    split
    · rw [coeffOf_add, coeffOf_smul_vEdgeBit]
      ring
    · split
      · rw [coeffOf_add, coeffOf_smul_vEdgeBit]
        ring
      · simp

theorem constant_foldl_addObjTerm (c : ILPColoring) (l : List (Edge × Nat))
    (obj : GRBLinExpr) : (l.foldl c.addObjTerm obj).constant = obj.constant := by
  induction l generalizing obj with
  | nil => rfl
  | cons ei l ih =>
    rw [List.foldl_cons, ih]
    simp only [addObjTerm]
    split
    · show (GRBLinExpr.add obj _).constant = _
      simp [GRBLinExpr.add, GRBLinExpr.smul, vEdgeBit, GRBLinExpr.var]
    · split
      · show (GRBLinExpr.add obj _).constant = _
        simp [GRBLinExpr.add, GRBLinExpr.smul, vEdgeBit, GRBLinExpr.var]
      · rfl

theorem terms_foldl_addObjTerm (c : ILPColoring) (l : List (Edge × Nat)) (obj : GRBLinExpr)
    (t : ℚ × VarName) (ht : t ∈ (l.foldl c.addObjTerm obj).terms) :
    t ∈ obj.terms ∨ ∃ ei ∈ l, t.2 = VarName.e ei.2 := by
  induction l generalizing obj with
  | nil => exact Or.inl ht
  | cons ei l ih =>
    rw [List.foldl_cons] at ht
    rcases ih _ ht with h | ⟨ej, hej, h⟩
    · have hcases : t ∈ obj.terms ∨ t.2 = VarName.e ei.2 := by
        simp only [addObjTerm] at h
        split at h
        · have h2 : t ∈ (GRBLinExpr.add obj (GRBLinExpr.smul _ (vEdgeBit ei.2))).terms := h
          simp only [GRBLinExpr.add, GRBLinExpr.smul, vEdgeBit, GRBLinExpr.var, List.map_cons,
            List.map_nil, List.mem_append, List.mem_singleton] at h2
          rcases h2 with h2 | h2
          · exact Or.inl h2
          · exact Or.inr (by rw [h2])
        · split at h
          · have h2 : t ∈ (GRBLinExpr.add obj (GRBLinExpr.smul _ (vEdgeBit ei.2))).terms := h
            simp only [GRBLinExpr.add, GRBLinExpr.smul, vEdgeBit, GRBLinExpr.var,
              List.map_cons, List.map_nil, List.mem_append, List.mem_singleton] at h2
            rcases h2 with h2 | h2
            · exact Or.inl h2
            · exact Or.inr (by rw [h2])
          · exact Or.inl h
      rcases hcases with h1 | h1
      · exact Or.inl h1
      · exact Or.inr ⟨ei, List.mem_cons_self _ _, h1⟩
    · exact Or.inr ⟨ej, List.mem_cons_of_mem _ hej, h⟩

/-- In a list whose second components are pairwise different, the sum of the values
at the entries with the second component of `p` is the value at `p`. -/
theorem sum_ite_snd {α : Type} (l : List (α × Nat)) (hn : (l.map Prod.snd).Nodup)
    (f : α × Nat → ℚ) (p : α × Nat) (hp : p ∈ l) :
    (l.map (fun q => if VarName.e q.2 = VarName.e p.2 then f q else 0)).sum = f p := by
  induction l with
  | nil => simp at hp
  | cons a l ih =>
    simp only [List.map_cons, List.nodup_cons, List.mem_map, not_exists, not_and] at hn
    simp only [List.map_cons, List.sum_cons]
    rcases List.mem_cons.1 hp with rfl | hpl
    · have hz : (l.map (fun q => if VarName.e q.2 = VarName.e p.2 then f q else 0)).sum = 0 := by
        apply List.sum_eq_zero
        intro t ht
        obtain ⟨q, hq, rfl⟩ := List.mem_map.1 ht
        have hne : ¬ q.2 = p.2 := hn.1 q hq
        simp [hne]
      rw [hz]
      simp
    · have hne : ¬ a.2 = p.2 := fun h => hn.1 p hpl h.symm
      rw [ih hn.2 hpl]
      simp [hne]

theorem objCoeff_eq (c : ILPColoring) (ed : Edge) (hmin : -2147483648 < ed.weight) :
    c.objCoeff ed = if 0 ≤ ed.weight then (ed.weight : ℚ)
      else c.m_stitch_weight * |(ed.weight : ℚ)| := by
  by_cases hw : 0 ≤ ed.weight
  · rw [if_pos hw, objCoeff_conflict c ed hw]
  · have h1 : ¬ 0 < ed.weight := by omega
    have h2 : ed.weight < 0 := by omega
    have habs : |(ed.weight : ℚ)| = ((-ed.weight : Int) : ℚ) := by
      rw [abs_of_neg (by exact_mod_cast h2)]
      push_cast
      ring
    rw [if_neg hw, habs]
    simp only [objCoeff, h1, h2, if_false, if_true, neg32_of_gt hmin h2]

theorem sense_foldl_addConstr (l : List GRBConstr) (m : GRBModel) :
    (l.foldl GRBModel.addConstr m).sense = m.sense := by
  induction l generalizing m with
  | nil => rfl
  | cons k l ih =>
    rw [List.foldl_cons, ih]
    rfl

theorem sense_foldl_addEdgeConstrs (l : List (Edge × Nat)) (st : GRBModel × Nat) :
    (l.foldl addEdgeConstrs st).1.sense = st.1.sense := by
  induction l generalizing st with
  | nil => rfl
  | cons ei l ih =>
    rw [List.foldl_cons, ih]
    exact sense_foldl_addConstr _ _

theorem sense_foldl_addThreeConstr (l : List Nat) (st : GRBModel × Nat) :
    (l.foldl addThreeConstr st).1.sense = st.1.sense := by
  induction l generalizing st with
  | nil => rfl
  | cons k l ih =>
    rw [List.foldl_cons, ih]
    rfl

theorem buildModel_sense (c : ILPColoring) :
    c.buildModel.sense = ModelSense.GRB_MINIMIZE := by
  unfold buildModel buildModelNum
  simp only []
  split
  · rw [sense_foldl_addThreeConstr, sense_foldl_addEdgeConstrs]
    rfl
  · rw [sense_foldl_addEdgeConstrs]
    rfl

/-- When no edge has the weight -2147483648: the objective of the model is the linear
form, without constant, in which the slack of every edge has the coefficient `weight` for
a conflict edge (weight at least 0) and `m_stitch_weight * |weight|` for a stitch edge
(weight below 0); no term of the objective is a vertex bit variable; and the objective is
minimised. -/
theorem objective_of_edges (c : ILPColoring) (hmin : c.negatable) :
    c.buildModel.objective.constant = 0 ∧
      (∀ ei ∈ c.hEdgeIdx,
        coeffOf c.buildModel.objective (VarName.e ei.2)
          = if 0 ≤ ei.1.weight then (ei.1.weight : ℚ)
            else c.m_stitch_weight * |(ei.1.weight : ℚ)|) ∧
      (∀ t ∈ c.buildModel.objective.terms, ∀ i, t.2 ≠ VarName.v i) ∧
      (∀ i, coeffOf c.buildModel.objective (VarName.v i) = 0) ∧
      c.buildModel.sense = ModelSense.GRB_MINIMIZE ∧
      (∀ x, c.buildModel.objVal x
        = (c.hEdgeIdx.map (fun ei =>
            (if 0 ≤ ei.1.weight then (ei.1.weight : ℚ)
              else c.m_stitch_weight * |(ei.1.weight : ℚ)|) * x (VarName.e ei.2))).sum) := by
  rw [buildModel_objective]
  refine ⟨?_, ?_, ?_, ?_, buildModel_sense c, ?_⟩
  · rw [objective, constant_foldl_addObjTerm]
    rfl
  · intro ei hm
    rw [objective, coeffOf_foldl_addObjTerm, sum_ite_snd _ c.hEdgeIdx_nodup _ ei hm,
      objCoeff_eq c ei.1 (hmin _ (mem_indexFrom_fst _ 0 ei hm))]
    simp [coeffOf, GRBLinExpr.const]
  · intro t ht i h
    rcases terms_foldl_addObjTerm c _ _ t ht with h1 | ⟨ei, _, h1⟩
    · simp [GRBLinExpr.const] at h1
    · rw [h] at h1
      cases h1
  · intro i
    rw [objective, coeffOf_foldl_addObjTerm]
    simp [coeffOf, GRBLinExpr.const]
  · intro x
    rw [objVal_eq]
    congr 1
    apply List.map_congr_left
    intro ei hm
    rw [objCoeff_eq c ei.1 (hmin _ (mem_indexFrom_fst _ 0 ei hm))]

/-! ## The list of constraints -/

theorem u32_add_four (n : Nat) (h : n + 4 < 2 ^ 32) :
    u32 (u32 (u32 (u32 (n + 1) + 1) + 1) + 1) = n + 4 := by
  rw [u32_of_lt (show n + 1 < 2 ^ 32 by omega), u32_of_lt (show n + 1 + 1 < 2 ^ 32 by omega),
    u32_of_lt (show n + 1 + 1 + 1 < 2 ^ 32 by omega),
    u32_of_lt (show n + 1 + 1 + 1 + 1 < 2 ^ 32 by omega)]

theorem edgeConstrs_length (ei : Edge × Nat) (n : Nat) : (edgeConstrs ei n).length = 4 := by
  unfold edgeConstrs
  simp only []
  split <;> rfl

theorem edgeConstrs_names (ei : Edge × Nat) (n : Nat) (h : n + 4 < 2 ^ 32) :
    (edgeConstrs ei n).map (fun k => k.name) = [n, n + 1, n + 2, n + 3] := by
  have h1 : u32 (n + 1) = n + 1 := u32_of_lt (by omega)
  have h2 : u32 (n + 1 + 1) = n + 2 := u32_of_lt (by omega)
  have h3 : u32 (n + 2 + 1) = n + 3 := u32_of_lt (by omega)
  unfold edgeConstrs
  simp only []
  split
  · simp only [conflictConstrs, h1, h2, h3, List.map_cons, List.map_nil]
  · simp only [stitchConstrs, h1, h2, h3, List.map_cons, List.map_nil]

theorem foldl_addEdgeConstrs_shape (l : List Edge) (k : Nat) (st : GRBModel × Nat)
    (h : 4 * (k + l.length) < 2 ^ 32) (hst : st.2 = 4 * k) :
    ((indexFrom k l).foldl addEdgeConstrs st).1.constrs
        = st.1.constrs ++ (indexFrom k l).flatMap (fun ei => edgeConstrs ei (4 * ei.2)) ∧
      ((indexFrom k l).foldl addEdgeConstrs st).2 = 4 * (k + l.length) := by
  induction l generalizing k st with
  | nil => simp [indexFrom, hst]
  | cons a l ih =>
    simp only [List.length_cons] at h
    have hk : u32 (k + 1) = k + 1 := u32_of_lt (by omega)
    simp only [indexFrom, hk, List.foldl_cons, List.flatMap_cons, List.length_cons]
    have h4 : (addEdgeConstrs st (a, k)).2 = 4 * (k + 1) := by
      simp only [addEdgeConstrs, hst]
      rw [u32_add_four _ (by omega)]
      ring
    have hc : (addEdgeConstrs st (a, k)).1.constrs
        = st.1.constrs ++ edgeConstrs (a, k) (4 * k) := by
      simp only [addEdgeConstrs, hst]
      exact (foldl_addConstr _ _).2.2
    obtain ⟨i1, i2⟩ := ih (k + 1) (addEdgeConstrs st (a, k)) (by omega) h4
    rw [i1, i2, hc, List.append_assoc]
    exact ⟨rfl, by ring⟩

theorem names_edgeConstrs (l : List Edge) (k : Nat) (h : 4 * (k + l.length) < 2 ^ 32) :
    ((indexFrom k l).flatMap (fun ei => edgeConstrs ei (4 * ei.2))).map (fun q => q.name)
      = List.range' (4 * k) (4 * l.length) := by
  induction l generalizing k with
  | nil => simp [indexFrom]
  | cons a l ih =>
    simp only [List.length_cons] at h
    have hk : u32 (k + 1) = k + 1 := u32_of_lt (by omega)
    simp only [indexFrom, hk, List.flatMap_cons, List.map_append, List.length_cons]
    rw [ih (k + 1) (by omega), edgeConstrs_names _ _ (by omega)]
    have e1 : 4 * (l.length + 1) = 4 * l.length + 1 + 1 + 1 + 1 := by ring
    rw [e1, List.range'_succ, List.range'_succ, List.range'_succ, List.range'_succ]
    have e2 : 4 * k + 1 + 1 + 1 + 1 = 4 * (k + 1) := by ring
    rw [e2]
    rfl

theorem foldl_addThreeConstr_shape (ks : List Nat) (st : GRBModel × Nat) :
    (ks.foldl addThreeConstr st).1.constrs
      = st.1.constrs ++ (indexFrom st.2 ks).map (fun p =>
          (⟨vVertexBit p.1 + vVertexBit (u32 (p.1 + 1)), Sense.le, 1, p.2⟩ : GRBConstr)) := by
  induction ks generalizing st with
  | nil => simp [indexFrom]
  | cons k ks ih =>
    rw [List.foldl_cons, ih]
    simp [addThreeConstr, GRBModel.addConstr, indexFrom]

theorem indexFrom_eq_zip {α : Type} (l : List α) (k : Nat) (h : k + l.length < 2 ^ 32) :
    indexFrom k l = l.zip (List.range' k l.length) := by
  induction l generalizing k with
  | nil => simp [indexFrom]
  | cons a l ih =>
    simp only [List.length_cons] at h
    have hk : u32 (k + 1) = k + 1 := u32_of_lt (by omega)
    simp only [indexFrom, hk, List.length_cons, List.range'_succ, List.zip_cons_cons]
    rw [ih (k + 1) (by omega)]

theorem indexFrom_map_range {α : Type} (f : Nat → α) (n k : Nat) (h : k + n < 2 ^ 32) :
    indexFrom k ((List.range n).map f) = (List.range n).map (fun s => (f s, k + s)) := by
  rw [indexFrom_eq_zip _ _ (by simpa using h)]
  simp only [List.length_map, List.length_range]
  rw [List.range'_eq_map_range, List.zip_map']

theorem hEdgeIdx_fst (c : ILPColoring) : c.hEdgeIdx.map Prod.fst = c.m_graph.edges := by
  have h := c.m_graph.edges_fit
  rw [hEdgeIdx, indexFrom_eq_zip _ _ (by omega)]
  exact List.map_fst_zip _ _ (by simp)

theorem hEdgeIdx_snd (c : ILPColoring) :
    c.hEdgeIdx.map Prod.snd = List.range c.m_graph.edges.length := by
  have h := c.m_graph.edges_fit
  rw [hEdgeIdx, indexFrom_eq_zip _ _ (by omega), List.range_eq_range']
  exact List.map_snd_zip _ _ (by simp)

/-- The list of constraints of the model: the four constraints of each edge, in edge
order, named from four times the edge index on, followed by the constraints for
3-colouring. -/
theorem buildModel_constrs_eq (c : ILPColoring) :
    c.buildModel.constrs
      = c.hEdgeIdx.flatMap (fun ei => edgeConstrs ei (4 * ei.2))
        ++ c.threeConstrs (4 * c.m_graph.edges.length) := by
  have hf := c.m_graph.edges_fit
  have hv := c.m_graph.vertices_fit
  have hsh := fun st hst => foldl_addEdgeConstrs_shape c.m_graph.edges 0 st
    (by omega) hst
  unfold buildModel buildModelNum threeConstrs
  simp only []
  split
  · rw [foldl_addThreeConstr_shape]
    have h1 := hsh ((((List.range c.edge_num).foldl addEdgeVar
      ((List.range c.vertex_variable_num).foldl c.addVertexVar GRBModel.empty)).setObjective
        c.objective ModelSense.GRB_MINIMIZE), 0) rfl
    rw [hEdgeIdx, h1.1, h1.2, evenIdxs_eq, indexFrom_map_range _ _ _ (by omega)]
    simp only [GRBModel.setObjective, (foldl_addEdgeVar _ _).2, (foldl_addVertexVar _ _ _).2,
      GRBModel.empty, List.nil_append, List.map_map, Nat.zero_add]
    congr 1
    apply List.map_congr_left
    intro s hs
    have hs2 := List.mem_range.1 hs
    have hu : u32 (2 * s + 1) = 2 * s + 1 := u32_of_lt (by omega)
    simp only [Function.comp, threeConstr, hu]
  · have h1 := hsh ((((List.range c.edge_num).foldl addEdgeVar
      ((List.range c.vertex_variable_num).foldl c.addVertexVar GRBModel.empty)).setObjective
        c.objective ModelSense.GRB_MINIMIZE), 0) rfl
    rw [hEdgeIdx, h1.1]
    simp only [GRBModel.setObjective, (foldl_addEdgeVar _ _).2, (foldl_addVertexVar _ _ _).2,
      GRBModel.empty, List.nil_append, List.append_nil]

theorem threeConstrs_names (c : ILPColoring) (first : Nat) :
    (c.threeConstrs first).map (fun q => q.name)
      = List.range' first (if c.m_color_num = THREE then c.m_graph.num_vertices else 0) := by
  unfold threeConstrs
  split
  · rw [List.map_map, List.range'_eq_map_range]
    rfl
  · rfl

theorem buildModel_constrs_names (c : ILPColoring) :
    c.buildModel.constrs.map (fun q => q.name)
      = List.range (4 * c.m_graph.edges.length
          + (if c.m_color_num = THREE then c.m_graph.num_vertices else 0)) := by
  have hf := c.m_graph.edges_fit
  rw [buildModel_constrs_eq, List.map_append, threeConstrs_names, hEdgeIdx,
    names_edgeConstrs _ 0 (by omega), List.range_eq_range', Nat.mul_zero]
  rw [Nat.add_comm (4 * c.m_graph.edges.length), ← List.range'_append_1]
  simp

/-- C17: the model has exactly four constraints per edge, in edge order, followed for
colour count 3 by exactly one constraint `b0 + b1 ≤ 1` per vertex, in vertex order:
`4 * |E|` constraints, and `4 * |E| + |V|` for colour count 3; their names are numbered
0, 1, 2, ... without gap or repeat; and the list of constraints is determined by the
number of vertices, the list of edges and the colour count. -/
theorem constraint_shape (c : ILPColoring) :
    c.buildModel.constrs
        = c.hEdgeIdx.flatMap (fun ei => edgeConstrs ei (4 * ei.2))
          ++ (if c.m_color_num = THREE then
                (List.range c.m_graph.num_vertices).map (fun s =>
                  (⟨vVertexBit (2 * s) + vVertexBit (2 * s + 1), Sense.le, 1,
                    4 * c.m_graph.edges.length + s⟩ : GRBConstr))
              else []) ∧
      c.hEdgeIdx.map Prod.fst = c.m_graph.edges ∧
      c.hEdgeIdx.map Prod.snd = List.range c.m_graph.edges.length ∧
      (∀ (ei : Edge × Nat) (n : Nat), (edgeConstrs ei n).length = 4) ∧
      c.buildModel.constrs.length
        = 4 * c.m_graph.edges.length
          + (if c.m_color_num = THREE then c.m_graph.num_vertices else 0) ∧
      c.buildModel.constrs.map (fun q => q.name)
        = List.range (4 * c.m_graph.edges.length
            + (if c.m_color_num = THREE then c.m_graph.num_vertices else 0)) ∧
      (∀ c2 : ILPColoring, c2.m_graph.num_vertices = c.m_graph.num_vertices →
        c2.m_graph.edges = c.m_graph.edges → c2.m_color_num = c.m_color_num →
        c2.buildModel.constrs = c.buildModel.constrs) := by
  refine ⟨?_, hEdgeIdx_fst c, hEdgeIdx_snd c, edgeConstrs_length, ?_,
    buildModel_constrs_names c, ?_⟩
  · rw [buildModel_constrs_eq]
    rfl
  · have h := congrArg List.length (buildModel_constrs_names c)
    simpa using h
  · intro c2 hn he hk
    rw [buildModel_constrs_eq, buildModel_constrs_eq]
    unfold threeConstrs hEdgeIdx
    rw [hn, he, hk]

/-! ## Failures of the function -/

theorem coloring_of_collect (c : ILPColoring) (optimize : GRBModel → Option (VarName → ℚ))
    (x : VarName → ℚ) (col : Nat → Int) (ho : optimize c.buildModel = some x)
    (hc : c.collect x = Except.ok col) :
    c.coloring optimize
      = Except.ok ({ c with m_vColor := col }, c.buildModel.objVal x) := by
  unfold coloring
  simp only [ho, hc]

theorem coloring_error (c : ILPColoring) (optimize : GRBModel → Option (VarName → ℚ))
    (f : Failure) (h : c.coloring optimize = Except.error f) :
    (f = Failure.infeasibleExit ∧ optimize c.buildModel = none) ∨
      (∃ x, optimize c.buildModel = some x ∧ c.collect x = Except.error f) := by
  unfold coloring at h
  simp only [] at h
  cases ho : optimize c.buildModel with
  | none =>
    rw [ho] at h
    simp only [Except.error.injEq] at h
    exact Or.inl ⟨h.symm, rfl⟩
  | some z =>
    rw [ho] at h
    simp only [] at h
    cases hc : c.collect z with
    | error g =>
      rw [hc] at h
      simp only [Except.error.injEq] at h
      exact Or.inr ⟨z, rfl, h ▸ hc⟩
    | ok col =>
      rw [hc] at h
      cases h

/-- C15, the claim fails: with colour count 4 and stitch weight multiplier -1 the model
of two vertices joined by a conflict edge has its five variables and four constraints,
and `coloring()` returns a colouring for a solver that answers `samplePoint`. -/
theorem configuration_check_counterexample :
    (pairColoring 5 4 (-1)).m_color_num = 4 ∧
      (pairColoring 5 4 (-1)).m_stitch_weight = -1 ∧
      (pairColoring 5 4 (-1)).buildModel.vars.length = 5 ∧
      (pairColoring 5 4 (-1)).buildModel.constrs.length = 4 ∧
      (pairColoring 5 4 (-1)).buildModel.feasible samplePoint ∧
      ∃ c' r, (pairColoring 5 4 (-1)).coloring (fun _ => some samplePoint)
        = Except.ok (c', r) := by
  have hfeas := samplePoint_feasible 5 4 (-1) (by decide)
  have hlen := congrArg List.length (buildModel_vars (pairColoring 5 4 (-1)))
  have hcon := congrArg List.length (buildModel_constrs_names (pairColoring 5 4 (-1)))
  refine ⟨rfl, rfl, ?_, ?_, hfeas, ?_⟩
  · rw [hlen]
    simp [pairColoring, pairGraph]
  · simp only [List.length_map, List.length_range] at hcon
    rw [hcon]
    simp [pairColoring, pairGraph, THREE]
  · obtain ⟨col, hcol⟩ := collect_succeeds (pairColoring 5 4 (-1)) (by decide) samplePoint
      hfeas (fun s hs => by
        have := decode_range _ samplePoint hfeas s hs
        exact ⟨this.1, by show decode samplePoint (2 * s) < 4; omega⟩)
    exact ⟨_, _, coloring_of_collect _ _ samplePoint col rfl hcol⟩

/-- C15, amended: `coloring()` makes no check of the colour count or of the stitch
weight multiplier: for every colour count and every multiplier it builds the model with
all its variables and constraints and passes it to the solver; it fails only after
that, by the branch for an infeasible model or by an assertion on the solution, and it
returns a colouring whenever the solver answers a point that passes the assertions. -/
theorem no_configuration_check (c : ILPColoring) :
    c.buildModel.vars.length = 2 * c.m_graph.num_vertices + c.m_graph.edges.length ∧
      c.buildModel.constrs.length
        = 4 * c.m_graph.edges.length
          + (if c.m_color_num = THREE then c.m_graph.num_vertices else 0) ∧
      (∀ (optimize : GRBModel → Option (VarName → ℚ)) (f : Failure),
        c.coloring optimize = Except.error f →
        (f = Failure.infeasibleExit ∧ optimize c.buildModel = none) ∨
          (∃ x, optimize c.buildModel = some x ∧ c.collect x = Except.error f)) ∧
      (∀ (optimize : GRBModel → Option (VarName → ℚ)) (x : VarName → ℚ) (col : Nat → Int),
        optimize c.buildModel = some x → c.collect x = Except.ok col →
        c.coloring optimize
          = Except.ok ({ c with m_vColor := col }, c.buildModel.objVal x)) := by
  refine ⟨?_, ?_, coloring_error c, coloring_of_collect c⟩
  · rw [buildModel_vars]
    simp
  · have h := congrArg List.length (buildModel_constrs_names c)
    simpa using h

/-! ## Decoding -/

/-- When both bits of a vertex are reported as exactly 0 or 1, the extracted colour is
`2 * x0 + x1`, which is also the nearest integer to it. -/
theorem decode_round_of_bits (x : VarName → ℚ) (k : Nat)
    (b0 : isBit (x (VarName.v k))) (b1 : isBit (x (VarName.v (u32 (k + 1))))) :
    decode x k = round (2 * x (VarName.v k) + x (VarName.v (u32 (k + 1)))) ∧
      ((decode x k : Int) : ℚ) = 2 * x (VarName.v k) + x (VarName.v (u32 (k + 1))) := by
  have h := toInt8_bits b0 b1
  refine ⟨?_, h⟩
  rw [← h, round_intCast]
  rfl

/-- The conversion to `int8_t` wraps: the value 128 is stored as -128. -/
theorem toInt8_wraps : toInt8 128 = -128 := by
  have h : ⌊(128 : ℚ)⌋ = 128 := Int.floor_ofNat 128
  rw [toInt8, if_pos (by norm_num), h]
  decide

/-- C16: for the solution values `0.9999999` and `0` of the two bits of vertex 0, both in
`[0, 1]` and the first within `1 / 100000` of the integer 1, the colour that `coloring()`
extracts is 1, while the nearest integer to `2 * 0.9999999 + 0` is 2. -/
theorem decoding_near_one :
    (0 ≤ nearPoint (VarName.v 0) ∧ nearPoint (VarName.v 0) ≤ 1) ∧
      (0 ≤ nearPoint (VarName.v 1) ∧ nearPoint (VarName.v 1) ≤ 1) ∧
      |nearPoint (VarName.v 0) - 1| ≤ 1 / 100000 ∧
      decode nearPoint 0 = 1 ∧
      round (2 * nearPoint (VarName.v 0) + nearPoint (VarName.v 1)) = 2 := by
  refine ⟨by norm_num [nearPoint], by norm_num [nearPoint], ?_, ?_, ?_⟩
  · rw [abs_le]
    norm_num [nearPoint]
  · have h : ⌊(9999999 / 5000000 : ℚ)⌋ = 1 := by
      rw [Int.floor_eq_iff]
      norm_num
    have e : nearPoint (VarName.v 0) * 2 + nearPoint (VarName.v (u32 (0 + 1)))
        = 9999999 / 5000000 := by
      norm_num [nearPoint, u32]
    rw [decode, e, toInt8, if_pos (by norm_num), h]
    decide
  · have h : ⌊(2 * (9999999 / 10000000) + 0 : ℚ) + 1 / 2⌋ = 2 := by
      rw [Int.floor_eq_iff]
      norm_num
    simp only [nearPoint]
    rw [round_eq, h]

/-! ## Feasibility of the model -/

theorem basePoint_admits (c : ILPColoring) (i : Nat) : (c.vertexVar i).admits c.basePoint := by
  unfold GRBVar.admits
  rw [vertexVar_name]
  unfold vertexVar basePoint
  by_cases hp : c.precolored (i >>> 1) = true
  · simp only [hp, if_true, le_refl, true_and]
    intro _
    exact Rat.den_intCast _
  · simp only [hp]
    simp

theorem bits_sum_le (col : Int) (h0 : 0 ≤ col) (h3 : col < 3) :
    ((Int.land (col >>> 1) 1 : Int) : ℚ) + ((Int.land col 1 : Int) : ℚ) ≤ 1 := by
  have h : col = 0 ∨ col = 1 ∨ col = 2 := by omega
  rcases h with h | h | h <;> subst h
  · have a : Int.land ((0 : Int) >>> 1) 1 = 0 := by decide
    have b : Int.land (0 : Int) 1 = 0 := by decide
    rw [a, b]
    norm_num
  · have a : Int.land ((1 : Int) >>> 1) 1 = 0 := by decide
    have b : Int.land (1 : Int) 1 = 1 := by decide
    rw [a, b]
    norm_num
  · have a : Int.land ((2 : Int) >>> 1) 1 = 1 := by decide
    have b : Int.land (2 : Int) 1 = 0 := by decide
    rw [a, b]
    norm_num

theorem basePoint_three (c : ILPColoring) (hk : c.m_color_num = THREE) (s : Nat) :
    c.basePoint (VarName.v (2 * s)) + c.basePoint (VarName.v (2 * s + 1)) ≤ 1 := by
  have e0 : (2 * s) &&& 1 = 0 := by
    rw [Nat.and_one_is_mod]
    omega
  have e1 : ¬ ((2 * s + 1) &&& 1 = 0) := by
    rw [Nat.and_one_is_mod]
    omega
  unfold basePoint
  simp only [shiftRight_double, shiftRight_double_succ]
  by_cases hp : c.precolored s = true
  · have hpc := (precolored_iff c s).1 hp
    rw [hk] at hpc
    simp only [hp, if_true, color_bit, e0, e1, if_false]
    exact bits_sum_le _ hpc.1 hpc.2
  · simp only [hp]
    norm_num

/-- The point `basePoint` satisfies the model, whatever the graph, the pre-colouring,
the colour count and the multiplier. -/
theorem basePoint_feasible (c : ILPColoring) : c.buildModel.feasible c.basePoint := by
  rw [feasible_iff]
  refine ⟨fun i _ => basePoint_admits c i, fun j _ => ?_, ?_, fun hk s _ => basePoint_three c hk s⟩
  · show (0 : ℚ) ≤ 1 ∧ (1 : ℚ) ≤ 1
    norm_num
  · apply edges_hold_of_charged c
    · intro i _
      exact vertexVar_isBit c i _ (basePoint_admits c i)
    · intro ei _
      show (0 : ℚ) ≤ 1 ∧ (1 : ℚ) ≤ 1 ∧ (charged c.basePoint ei.1 → (1 : ℚ) = 1)
      exact ⟨zero_le_one, le_refl 1, fun _ => rfl⟩

/-- C18: for every graph (self-loops and parallel edges included), every pre-colouring
and every colour count, in particular 3 and 4, the model has a feasible point: the
pre-coloured bits at their fixed values, every other bit 0, every slack 1; so with a
solver that meets its contract `coloring()` never takes the infeasible branch. -/
theorem always_feasible (c : ILPColoring) :
    c.buildModel.feasible c.basePoint ∧
      (∀ j, c.basePoint (VarName.e j) = 1) ∧
      (∀ i, c.precolored (i >>> 1) = false → c.basePoint (VarName.v i) = 0) ∧
      (∀ i, c.precolored (i >>> 1) = true →
        c.basePoint (VarName.v i) = (c.vertexVar i).lb ∧
        c.basePoint (VarName.v i) = (c.vertexVar i).ub) ∧
      (∀ optimize, SolverContract optimize c.buildModel →
        c.coloring optimize ≠ Except.error Failure.infeasibleExit) := by
  refine ⟨basePoint_feasible c, fun _ => rfl, ?_, ?_, ?_⟩
  · intro i hp
    simp [basePoint, hp]
  · intro i hp
    simp [basePoint, vertexVar, hp]
  · intro optimize hs h
    rw [coloring_infeasibleExit_iff] at h
    exact hs.1.1 h ⟨c.basePoint, basePoint_feasible c⟩

/-! ## The vertices that are written -/

/-- The point `highPoint` is feasible for two vertices joined by a conflict edge of
weight 1 when vertex 0 is pre-coloured with colour 2 among three colours. -/
theorem highPoint_feasible_preset (sw : ℚ) :
    (presetColoring 1 2 3 sw).buildModel.feasible highPoint := by
  rw [feasible_iff]
  refine ⟨?_, ?_, ?_, ?_⟩
  · intro i hi
    have hi4 : i < 4 := hi
    have a : Int.land ((2 : Int) >>> 1) 1 = 1 := by decide
    have b : Int.land (2 : Int) 1 = 0 := by decide
    interval_cases i <;>
      simp [vertexVar, precolored, presetColoring, GRBVar.admits, highPoint, color_bit, a, b]
  · intro j hj
    simp [highPoint]
  · intro ei hei
    have hl : (presetColoring 1 2 3 sw).hEdgeIdx = [(⟨0, 1, 1⟩, 0)] := rfl
    rw [hl] at hei
    simp only [List.mem_singleton] at hei
    subst hei
    have hw : (0 : Int) ≤ 1 := by decide
    simp only [edgeHolds, edgeConstrs, if_pos hw, conflictConstrs_holds]
    norm_num [vertex_idx, hVertexIdx, u32, highPoint]
  · intro _ s hs
    have hs2 : s < 2 := hs
    interval_cases s <;> norm_num [highPoint]

/-- C19: a vertex is treated as pre-coloured exactly when its stored colour `col`
satisfies `0 ≤ col < m_color_num`, at the creation of its variables and at extraction;
extraction writes the decoded colour to the vertices that are not pre-coloured and
leaves the stored colour of every pre-coloured vertex, and every entry beyond the
vertices, unchanged. -/
theorem vertices_written (c : ILPColoring) (x : VarName → ℚ) (col : Nat → Int)
    (h : c.collect x = Except.ok col) (s : Nat) :
    (c.precolored s = true ↔ (0 ≤ c.m_vColor s ∧ c.m_vColor s < c.m_color_num)) ∧
      (∀ d ∈ c.buildModel.vars, d.name = VarName.v (2 * s) ∨ d.name = VarName.v (2 * s + 1) →
        (c.precolored s = true → d.lb = d.ub) ∧
        (c.precolored s = false → d.lb = 0 ∧ d.ub = 1)) ∧
      (s < c.m_graph.num_vertices → c.precolored s = false → col s = decode x (2 * s)) ∧
      (c.precolored s = true → col s = c.m_vColor s) ∧
      (c.m_graph.num_vertices ≤ s → col s = c.m_vColor s) := by
  have hk := collect_ok c x col h s
  refine ⟨precolored_iff c s, ?_, ?_, hk.2.2, hk.2.1⟩
  · intro d hd hn
    have key : ∀ i, i / 2 = s → d.name = VarName.v i →
        (c.precolored s = true → d.lb = d.ub) ∧
        (c.precolored s = false → d.lb = 0 ∧ d.ub = 1) := by
      intro i hi hni
      have hb := vertexVar_bounds c i
      rw [hi] at hb
      rw [(mem_vars_v c d i hd hni).1]
      refine ⟨fun hp => ?_, hb.1⟩
      rw [(hb.2 hp).1, (hb.2 hp).2]
    rcases hn with hn | hn
    · exact key (2 * s) (by omega) hn
    · exact key (2 * s + 1) (by omega) hn
  · intro hs _
    have hf := c.m_graph.vertices_fit
    have := (hk.1 hs).1
    rw [decoded, vertex_idx_eq (by omega)] at this
    exact this

theorem highPoint_collect_preset :
    (presetColoring 1 2 3 1).collect highPoint
      = Except.ok (Function.update (presetColoring 1 2 3 1).m_vColor 1 0) := by
  unfold collect
  rw [evenIdxs_eq]
  have hr : List.range (presetColoring 1 2 3 1).m_graph.num_vertices = [0, 1] := rfl
  rw [hr]
  have d0 : decode highPoint (2 * 0) = 2 := highPoint_decode
  have d1 : decode highPoint (2 * 1) = 0 := by
    simp [decode, highPoint, u32, toInt8, wrap8]
  have s0 : (presetColoring 1 2 3 1).collectStep highPoint (presetColoring 1 2 3 1).m_vColor
      (2 * 0) = Except.ok (presetColoring 1 2 3 1).m_vColor := by
    unfold collectStep
    rw [d0]
    simp [presetColoring]
  have s1 : (presetColoring 1 2 3 1).collectStep highPoint (presetColoring 1 2 3 1).m_vColor
      (2 * 1) = Except.ok (Function.update (presetColoring 1 2 3 1).m_vColor 1 0) := by
    unfold collectStep
    rw [d1]
    simp [presetColoring]
  simp only [List.map_cons, List.map_nil, List.foldlM_cons, List.foldlM_nil, bind, Except.bind,
    s0, s1]
  rfl

/-- Instance of `vertices_written`: vertex 0 pre-coloured with colour 2, vertex 1 not
coloured, at `highPoint`, where the loop leaves colour 0 at vertex 1; the statement is
taken at vertex 1. -/
theorem vertices_written_witness :
    ((presetColoring 1 2 3 1).precolored 1 = true ↔
        (0 ≤ (presetColoring 1 2 3 1).m_vColor 1 ∧
          (presetColoring 1 2 3 1).m_vColor 1 < (presetColoring 1 2 3 1).m_color_num)) ∧
      (∀ d ∈ (presetColoring 1 2 3 1).buildModel.vars,
        d.name = VarName.v (2 * 1) ∨ d.name = VarName.v (2 * 1 + 1) →
        ((presetColoring 1 2 3 1).precolored 1 = true → d.lb = d.ub) ∧
        ((presetColoring 1 2 3 1).precolored 1 = false → d.lb = 0 ∧ d.ub = 1)) ∧
      (1 < (presetColoring 1 2 3 1).m_graph.num_vertices →
        (presetColoring 1 2 3 1).precolored 1 = false →
        Function.update (presetColoring 1 2 3 1).m_vColor 1 0 1 = decode highPoint (2 * 1)) ∧
      ((presetColoring 1 2 3 1).precolored 1 = true →
        Function.update (presetColoring 1 2 3 1).m_vColor 1 0 1
          = (presetColoring 1 2 3 1).m_vColor 1) ∧
      ((presetColoring 1 2 3 1).m_graph.num_vertices ≤ 1 →
        Function.update (presetColoring 1 2 3 1).m_vColor 1 0 1
          = (presetColoring 1 2 3 1).m_vColor 1) :=
  vertices_written (presetColoring 1 2 3 1) highPoint
    (Function.update (presetColoring 1 2 3 1).m_vColor 1 0) highPoint_collect_preset 1

/-! ## The orientation of an edge -/

/-- The constraints of an edge and of the exchanged edge hold at the same points. -/
theorem edgeConstrs_swap (ed : Edge) (j n n2 : Nat) (x : VarName → ℚ) :
    (∀ k ∈ edgeConstrs (ed, j) n, k.holds x) ↔
      (∀ k ∈ edgeConstrs (swapEdge ed, j) n2, k.holds x) := by
  unfold edgeConstrs swapEdge
  by_cases hw : 0 ≤ ed.weight
  · simp only [hw, ↓reduceIte, conflictConstrs_holds]
    constructor <;> rintro ⟨a, b, c, d⟩ <;> refine ⟨?_, ?_, ?_, ?_⟩ <;> linarith
  · simp only [hw, ↓reduceIte, stitchConstrs_holds]
    constructor <;> rintro ⟨a, b, c, d⟩ <;> refine ⟨?_, ?_, ?_, ?_⟩ <;> linarith

theorem edgeHolds_swap (ed : Edge) (j : Nat) (x : VarName → ℚ) :
    edgeHolds (swapEdge ed, j) x ↔ edgeHolds (ed, j) x :=
  (edgeConstrs_swap ed j 0 0 x).symm

theorem edges_hold_reoriented (l1 l2 : List Edge)
    (h : List.Forall₂ (fun a b => b = a ∨ b = swapEdge a) l1 l2) (k : Nat)
    (x : VarName → ℚ) :
    (∀ ei ∈ indexFrom k l1, edgeHolds ei x) ↔ (∀ ei ∈ indexFrom k l2, edgeHolds ei x) := by
  induction h generalizing k with
  | nil => simp [indexFrom]
  | @cons a b l1 l2 hab _ ih =>
    simp only [indexFrom, List.mem_cons, forall_eq_or_imp]
    rw [ih (u32 (k + 1))]
    rcases hab with rfl | rfl
    · exact Iff.rfl
    · rw [edgeHolds_swap]

theorem objCoeff_swap (c1 c2 : ILPColoring) (hsw : c2.m_stitch_weight = c1.m_stitch_weight)
    (a b : Edge) (hab : b = a ∨ b = swapEdge a) : c2.objCoeff b = c1.objCoeff a := by
  have hw : b.weight = a.weight := by
    rcases hab with rfl | rfl <;> rfl
  unfold objCoeff
  rw [hw, hsw]

theorem obj_sum_reoriented (c1 c2 : ILPColoring)
    (hsw : c2.m_stitch_weight = c1.m_stitch_weight) (l1 l2 : List Edge)
    (h : List.Forall₂ (fun a b => b = a ∨ b = swapEdge a) l1 l2) (k : Nat)
    (x : VarName → ℚ) :
    ((indexFrom k l2).map (fun ei => c2.objCoeff ei.1 * x (VarName.e ei.2))).sum
      = ((indexFrom k l1).map (fun ei => c1.objCoeff ei.1 * x (VarName.e ei.2))).sum := by
  induction h generalizing k with
  | nil => simp [indexFrom]
  | @cons a b l1 l2 hab _ ih =>
    simp only [indexFrom, List.map_cons, List.sum_cons]
    rw [ih (u32 (k + 1)), objCoeff_swap c1 c2 hsw a b hab]

theorem vertexVar_reoriented (c1 c2 : ILPColoring) (hc : c2.m_vColor = c1.m_vColor)
    (hk : c2.m_color_num = c1.m_color_num) (i : Nat) : c2.vertexVar i = c1.vertexVar i := by
  unfold vertexVar precolored
  rw [hc, hk]

theorem feasible_reoriented (c1 c2 : ILPColoring) (h : reoriented c1 c2) (x : VarName → ℚ) :
    c2.buildModel.feasible x ↔ c1.buildModel.feasible x := by
  obtain ⟨hn, hc, hk, _, he⟩ := h
  rw [feasible_iff, feasible_iff, hn, hk, he.length_eq]
  simp only [vertexVar_reoriented c1 c2 hc hk]
  rw [hEdgeIdx, hEdgeIdx, edges_hold_reoriented _ _ he 0 x]

theorem objVal_reoriented (c1 c2 : ILPColoring) (h : reoriented c1 c2) (x : VarName → ℚ) :
    c2.buildModel.objVal x = c1.buildModel.objVal x := by
  obtain ⟨_, _, _, hsw, he⟩ := h
  rw [objVal_eq, objVal_eq, hEdgeIdx, hEdgeIdx]
  exact obj_sum_reoriented c1 c2 hsw _ _ he 0 x

theorem optimal_reoriented (c1 c2 : ILPColoring) (h : reoriented c1 c2) (x : VarName → ℚ) :
    c2.buildModel.optimal x ↔ c1.buildModel.optimal x := by
  unfold GRBModel.optimal
  rw [feasible_reoriented c1 c2 h]
  simp only [feasible_reoriented c1 c2 h, objVal_reoriented c1 c2 h]

/-- C20: the four inequalities emitted for an edge `(s, t)` and those that would be
emitted for `(t, s)` with the same weight hold at the same points, for the conflict and
for the stitch encoding; hence exchanging source and target of any edges changes
neither the feasible points of the model, nor the objective value of a point, nor the
optimal points, nor the minimum objective. -/
theorem edge_orientation (c1 c2 : ILPColoring) (h : reoriented c1 c2) :
    (∀ (ed : Edge) (j n n2 : Nat) (x : VarName → ℚ),
        (∀ k ∈ edgeConstrs (ed, j) n, k.holds x) ↔
          (∀ k ∈ edgeConstrs (swapEdge ed, j) n2, k.holds x)) ∧
      (∀ x, c2.buildModel.feasible x ↔ c1.buildModel.feasible x) ∧
      (∀ x, c2.buildModel.objVal x = c1.buildModel.objVal x) ∧
      (∀ x, c2.buildModel.optimal x ↔ c1.buildModel.optimal x) ∧
      (∀ r : ℚ,
        IsLeast {v | ∃ x, c2.buildModel.feasible x ∧ c2.buildModel.objVal x = v} r ↔
          IsLeast {v | ∃ x, c1.buildModel.feasible x ∧ c1.buildModel.objVal x = v} r) := by
  refine ⟨edgeConstrs_swap, feasible_reoriented c1 c2 h, objVal_reoriented c1 c2 h,
    optimal_reoriented c1 c2 h, fun r => ?_⟩
  have hset : {v | ∃ x, c2.buildModel.feasible x ∧ c2.buildModel.objVal x = v}
      = {v | ∃ x, c1.buildModel.feasible x ∧ c1.buildModel.objVal x = v} := by
    ext v
    simp only [Set.mem_setOf_eq, feasible_reoriented c1 c2 h, objVal_reoriented c1 c2 h]
  rw [hset]

/-- Instance of `edge_orientation`: two vertices joined by a conflict edge of weight 5,
from vertex 0 to vertex 1 in one object and from vertex 1 to vertex 0 in the other. -/
theorem edge_orientation_witness :
    (∀ (ed : Edge) (j n n2 : Nat) (x : VarName → ℚ),
        (∀ k ∈ edgeConstrs (ed, j) n, k.holds x) ↔
          (∀ k ∈ edgeConstrs (swapEdge ed, j) n2, k.holds x)) ∧
      (∀ x, (pairColoringSwapped 5 3 1).buildModel.feasible x ↔
        (pairColoring 5 3 1).buildModel.feasible x) ∧
      (∀ x, (pairColoringSwapped 5 3 1).buildModel.objVal x
        = (pairColoring 5 3 1).buildModel.objVal x) ∧
      (∀ x, (pairColoringSwapped 5 3 1).buildModel.optimal x ↔
        (pairColoring 5 3 1).buildModel.optimal x) ∧
      (∀ r : ℚ,
        IsLeast {v | ∃ x, (pairColoringSwapped 5 3 1).buildModel.feasible x ∧
            (pairColoringSwapped 5 3 1).buildModel.objVal x = v} r ↔
          IsLeast {v | ∃ x, (pairColoring 5 3 1).buildModel.feasible x ∧
            (pairColoring 5 3 1).buildModel.objVal x = v} r) :=
  edge_orientation (pairColoring 5 3 1) (pairColoringSwapped 5 3 1)
    ⟨rfl, rfl, rfl, rfl, List.Forall₂.cons (Or.inr rfl) List.Forall₂.nil⟩

/-! ## A stitch edge of weight -2147483648 -/

/-- The coefficient that `coloring()` gives the slack of a stitch edge of weight
-2147483648 with multiplier 1: the negation `-w` overflows and gives -2147483648. -/
theorem objCoeff_int_min (k : Int) :
    (pairColoring (-2147483648) k 1).objCoeff ⟨0, 1, -2147483648⟩ = -2147483648 := by
  have h1 : ¬ (0 : Int) < -2147483648 := by decide
  have h2 : (-2147483648 : Int) < 0 := by decide
  unfold objCoeff
  rw [if_neg h1, if_pos h2, neg32_int_min]
  norm_num [pairColoring]

theorem objVal_int_min (k : Int) (x : VarName → ℚ) :
    (pairColoring (-2147483648) k 1).buildModel.objVal x
      = -2147483648 * x (VarName.e 0) := by
  rw [objVal_eq, hEdgeIdx_pair]
  simp only [List.map_cons, List.map_nil, List.sum_cons, List.sum_nil, add_zero]
  rw [objCoeff_int_min]

/-- The point `onePoint` is feasible for two vertices joined by a stitch edge. -/
theorem onePoint_feasible (w k : Int) (sw : ℚ) (hw : w < 0) :
    (pairColoring w k sw).buildModel.feasible onePoint := by
  rw [feasible_iff]
  refine ⟨?_, ?_, ?_, ?_⟩
  · intro i hi
    have hi4 : i < 4 := hi
    interval_cases i <;>
      simp [vertexVar, precolored, pairColoring, GRBVar.admits, onePoint]
  · intro j hj
    simp [onePoint]
  · intro ei hei
    rw [hEdgeIdx_pair] at hei
    simp only [List.mem_singleton] at hei
    subst hei
    simp only [edgeHolds, edgeConstrs, if_neg (not_le.2 hw), stitchConstrs_holds]
    norm_num [onePoint]
  · intro _ s hs
    norm_num [onePoint]

/-- With the stitch edge of weight -2147483648 the point `onePoint`, slack 1, is
optimal, and every optimal point has slack 1 and objective value -2147483648. -/
theorem onePoint_optimal (k : Int) :
    (pairColoring (-2147483648) k 1).buildModel.optimal onePoint ∧
      (∀ x, (pairColoring (-2147483648) k 1).buildModel.optimal x →
        x (VarName.e 0) = 1 ∧
          (pairColoring (-2147483648) k 1).buildModel.objVal x = -2147483648) := by
  have hfe := onePoint_feasible (-2147483648) k 1 (by decide)
  have hle : ∀ y, (pairColoring (-2147483648) k 1).buildModel.feasible y →
      y (VarName.e 0) ≤ 1 := fun y hy =>
    (((feasible_iff _ y).1 hy).2.1 0 (by simp [pairColoring, pairGraph])).2
  refine ⟨⟨hfe, fun y hy => ?_⟩, fun x hx => ?_⟩
  · rw [objVal_int_min, objVal_int_min]
    have := hle y hy
    simp only [onePoint]
    linarith
  · have h1 := hx.2 onePoint hfe
    rw [objVal_int_min, objVal_int_min] at h1
    simp only [onePoint] at h1
    have h2 := hle x hx.1
    have he : x (VarName.e 0) = 1 := by linarith
    rw [objVal_int_min, he]
    exact ⟨rfl, by norm_num⟩

theorem onePoint_sameColor (ed : Edge) : sameColor onePoint ed := by
  simp [sameColor, decoded, decode, onePoint]

theorem costOfColors_int_min (k : Int) (col : Nat → Int) :
    (pairColoring (-2147483648) k 1).costOfColors col
      = if col 0 = col 1 then 0 else 2147483648 := by
  have h : ¬ (0 : Int) ≤ -2147483648 := by decide
  rw [costOfColors, hEdgeIdx_pair]
  simp only [List.map_cons, List.map_nil, List.sum_cons, List.sum_nil, add_zero, if_neg h]
  split <;> norm_num [pairColoring]

/-- C14: for two vertices joined by one stitch edge of weight -2147483648, with
multiplier 1, the objective built by `coloring()` gives the slack of the edge the
coefficient -2147483648, while multiplier times `|weight|` is 2147483648. -/
theorem objective_builder_int_min :
    coeffOf (pairColoring (-2147483648) 3 1).buildModel.objective (VarName.e 0)
        = -2147483648 ∧
      (pairColoring (-2147483648) 3 1).m_stitch_weight * |((-2147483648 : Int) : ℚ)|
        = 2147483648 := by
  constructor
  · have hm : ((⟨0, 1, -2147483648⟩ : Edge), 0) ∈ (pairColoring (-2147483648) 3 1).hEdgeIdx := by
      rw [hEdgeIdx_pair]
      exact List.mem_singleton.2 rfl
    rw [buildModel_objective, objective, coeffOf_foldl_addObjTerm,
      sum_ite_snd _ (hEdgeIdx_nodup _) _ _ hm, objCoeff_int_min]
    simp [coeffOf, GRBLinExpr.const]
  · norm_num [pairColoring]

/-- C8: for two vertices joined by one stitch edge of weight -2147483648, with multiplier
1 and three colours, the point with both vertices of colour 0 and slack 1 is an optimal
point of the model built by `coloring()`: the end points of the stitch edge decode to the
same colour and the slack is 1, not 0; and the slack is 1 in every optimal point. -/
theorem stitch_accounting_int_min :
    0 < (pairColoring (-2147483648) 3 1).m_stitch_weight ∧
      (pairColoring (-2147483648) 3 1).buildModel.optimal onePoint ∧
      sameColor onePoint ⟨0, 1, -2147483648⟩ ∧
      onePoint (VarName.e 0) = 1 ∧
      (∀ x, (pairColoring (-2147483648) 3 1).buildModel.optimal x →
        x (VarName.e 0) = 1) :=
  ⟨by norm_num [pairColoring], (onePoint_optimal 3).1, onePoint_sameColor _, rfl,
    fun x hx => ((onePoint_optimal 3).2 x hx).1⟩

/-- C3: for two vertices joined by one stitch edge of weight -2147483648, with multiplier
1 and three colours, at the bit assignment that gives both vertices colour 0: the slack 1
satisfies the edge constraints and gives the objective built by `coloring()` the value
-2147483648, below the weighted sum 0 of the decoded colours; and with a solver that
meets its contract (there is one that returns a colouring of weighted sum 0) the value
that `coloring()` returns is -2147483648 and differs from the weighted sum computed from
the colours written to the vertices. -/
theorem objective_correctness_int_min :
    (0 ≤ (pairColoring (-2147483648) 3 1).m_stitch_weight ∧
      ∀ i < 2 * (pairColoring (-2147483648) 3 1).m_graph.num_vertices,
        isBit (zeroPoint (VarName.v i))) ∧
      (pairColoring (-2147483648) 3 1).slackCompletion zeroPoint onePoint ∧
      (pairColoring (-2147483648) 3 1).buildModel.objVal onePoint = -2147483648 ∧
      (pairColoring (-2147483648) 3 1).costOfColors (decoded zeroPoint) = 0 ∧
      ¬ IsLeast {r : ℚ | ∃ y, (pairColoring (-2147483648) 3 1).slackCompletion zeroPoint y ∧
          (pairColoring (-2147483648) 3 1).buildModel.objVal y = r}
        ((pairColoring (-2147483648) 3 1).costOfColors (decoded zeroPoint)) ∧
      (∀ (optimize : GRBModel → Option (VarName → ℚ)) (c' : ILPColoring) (r : ℚ),
        SolverContract optimize (pairColoring (-2147483648) 3 1).buildModel →
        (pairColoring (-2147483648) 3 1).coloring optimize = Except.ok (c', r) →
        r = -2147483648 ∧ r ≠ (pairColoring (-2147483648) 3 1).costOfColors c'.m_vColor) ∧
      (∃ (optimize : GRBModel → Option (VarName → ℚ)) (c' : ILPColoring),
        SolverContract optimize (pairColoring (-2147483648) 3 1).buildModel ∧
        (pairColoring (-2147483648) 3 1).coloring optimize = Except.ok (c', -2147483648) ∧
        (pairColoring (-2147483648) 3 1).costOfColors c'.m_vColor = 0) := by
  have hopt := onePoint_optimal 3
  have hval : (pairColoring (-2147483648) 3 1).buildModel.objVal onePoint = -2147483648 := by
    rw [objVal_int_min]
    norm_num [onePoint]
  have hcost : (pairColoring (-2147483648) 3 1).costOfColors (decoded zeroPoint) = 0 := by
    rw [costOfColors_int_min]
    simp [decoded, decode, zeroPoint]
  have hslack : (pairColoring (-2147483648) 3 1).slackCompletion zeroPoint onePoint := by
    refine ⟨fun i => rfl, fun j _ => by norm_num [onePoint], fun ei hm => ?_⟩
    exact ((feasible_iff _ onePoint).1 hopt.1.1).2.2.1 ei hm
  refine ⟨⟨by norm_num [pairColoring], fun i _ => Or.inl rfl⟩, hslack, hval, hcost, ?_, ?_, ?_⟩
  · intro h
    have := h.2 ⟨onePoint, hslack, hval⟩
    rw [hcost] at this
    norm_num at this
  · intro optimize c' r hs h
    obtain ⟨x, ho, _, hr⟩ := coloring_ok _ optimize c' r h
    have hx := (hopt.2 x (hs.2 x ho)).2
    rw [hx] at hr
    refine ⟨hr, ?_⟩
    rw [hr, costOfColors_int_min]
    split <;> norm_num
  · obtain ⟨col, hcol⟩ := collect_succeeds (pairColoring (-2147483648) 3 1) (by decide)
      onePoint hopt.1.1 (fun s _ => by
        have h : decode onePoint (2 * s) = 0 := by simp [decode, onePoint, toInt8, wrap8]
        rw [h]
        exact ⟨le_refl 0, by decide⟩)
    refine ⟨fun _ => some onePoint, { pairColoring (-2147483648) 3 1 with m_vColor := col },
      ⟨⟨fun h => (by cases h), fun h => absurd ⟨onePoint, hopt.1.1⟩ h⟩, fun x hx => ?_⟩, ?_, ?_⟩
    · simp only [Option.some.injEq] at hx
      rw [← hx]
      exact hopt.1
    · rw [coloring_of_collect _ _ onePoint col rfl hcol, hval]
    · have c0 := ((collect_ok _ onePoint col hcol 0).1 (by decide)).1
      have c1 := ((collect_ok _ onePoint col hcol 1).1 (by decide)).1
      rw [costOfColors_int_min]
      have e : col 0 = col 1 := by
        rw [c0, c1]
        exact onePoint_sameColor ⟨0, 1, 0⟩
      simp [e]

end ILPColoring

end Limbo
